import Mathlib

/-!
Verification development for the block-based SPSC queue (`bbq.h`).

The C++ template `PEX::BBQ::SPSC::Queue<T, N, B>` is embedded shallowly:

* machine words become `Nat` with explicit `% 2 ^ w` where the C++ bitfields
  truncate (the `Field` struct packs a 44-bit `version` and a 20-bit `index`);
* the payload type `T` is instantiated with `Nat` (the repository instantiates
  it with `uint64_t`);
* the shared-memory mutation of the C++ is explicit state passing on a
  `Queue` structure holding the `B` blocks and the two head cursors;
* the `while (true)` loops of `enqueue`, `dequeue` and `reserve_entry` are
  modelled with an explicit fuel argument, `none` meaning the fuel ran out;
* out-of-range block accesses (which are undefined behaviour in the C++) are
  modelled totally: reads return `defaultBlock` and writes are dropped, which
  is only relevant in runs where a head index leaves the `B`-block ring.

The template parameters appear as plain arguments: `NE` (entries per block,
`N / B` in the source) is passed to every operation, and the block count `B`
is the length of the state's block list.
-/

namespace BBQ

/-- Number of version bits in a `Field` (source constant `VERSION_BITS`). -/
def VERSION_BITS : Nat := 44

/-- Number of index bits in a `Field` (source constant `INDEX_BITS`). -/
def INDEX_BITS : Nat := 20

/-- The packed 64-bit cursor: a 44-bit generation (`version`) and a 20-bit
position (`index`), as in the source's `struct Field` bitfield. -/
structure Field where
  version : Nat
  index : Nat
deriving Repr, DecidableEq

/-- The source constructor `Field(vsn, idx)`: both components truncate into
their bitfields. -/
def mkField (vsn idx : Nat) : Field :=
  ⟨vsn % 2 ^ VERSION_BITS, idx % 2 ^ INDEX_BITS⟩

/-- The source `Field::operator+(uint64_t n)`: `index += n`, which wraps in
the 20-bit field; the version is untouched.  (In the C++ this mutates the
receiver and returns it; call sites are modelled accordingly.) -/
def Field.add (f : Field) (n : Nat) : Field :=
  ⟨f.version, (f.index + n) % 2 ^ INDEX_BITS⟩

/-- One block: four cursors plus the `NE` payload slots (source `struct
Block`).  `data` is the slot array; the queue object is zero-initialised in
the repository (global storage), so fresh slots hold `0`. -/
structure Block where
  alloc : Field
  comm : Field
  resv : Field
  cons : Field
  data : List Nat
deriving Repr, DecidableEq

/-- `Block::init(index)`: all four cursors are set to `Field(0, index)`. -/
def Block.init (NE idx : Nat) : Block :=
  { alloc := mkField 0 idx, comm := mkField 0 idx,
    resv := mkField 0 idx, cons := mkField 0 idx,
    data := List.replicate NE 0 }

/-- Stand-in block returned by an out-of-range block read (undefined
behaviour in the C++). -/
def defaultBlock : Block :=
  { alloc := ⟨0, 0⟩, comm := ⟨0, 0⟩, resv := ⟨0, 0⟩, cons := ⟨0, 0⟩, data := [] }

/-- The internal status codes (source `enum RetStatus`). -/
inductive RetStatus where
  | NO_ENTRY
  | NOT_AVAILABLE
  | SUCCESS
  | BLOCK_DONE
deriving Repr, DecidableEq

/-- Queue state: the ring of `B` blocks plus the two global head cursors. -/
structure Queue where
  blocks : List Block
  phead : Field
  chead : Field
deriving Repr, DecidableEq

/-- The `Queue` constructor: block 0 is initialised with `Field(0, 0)` and
every other block with `Field(0, NE)` (pre-drained), and both heads start at
`Field(0, 0)`. -/
def Queue.mkInit (NE B : Nat) : Queue :=
  { blocks := List.ofFn fun i : Fin B => if (i : Nat) = 0 then Block.init NE 0 else Block.init NE NE,
    phead := mkField 0 0, chead := mkField 0 0 }

/-- `allocate_entry(Block* b)`.  Sequential embedding: the relaxed load at the
guard and the acquire load of the "fetch and add" read the same value.
Returns the status, the claimed position (`-1` in the source on `BLOCK_DONE`,
dropped here since it is never read) and the updated block. -/
def allocate_entry (NE : Nat) (b : Block) : RetStatus × Nat × Block :=
  let a := b.alloc
  if NE ≤ a.index then (RetStatus.BLOCK_DONE, 0, b)
  else
    let old_alloc := b.alloc
    let old := old_alloc.index
    let b1 := { b with alloc := old_alloc.add 1 }
    if NE ≤ old then (RetStatus.BLOCK_DONE, 0, b1)
    else (RetStatus.SUCCESS, old, b1)

/-- `commit_entry(Block* b, int index, T t)`: write the slot, then advance the
commit cursor by one. -/
def commit_entry (b : Block) (index : Nat) (t : Nat) : Block :=
  let b1 := { b with data := b.data.set index t }
  let c := b1.comm
  { b1 with comm := c.add 1 }

/-- The head-advance arithmetic shared by `advance_phead` and
`advance_chead`: `ph + 1` (mutating `operator+`), then, if the index reached
`NE`, wrap the index modulo `NE` and bump the version.  Note the source wraps
at `NE`, not at the block count `B`. -/
def advanceHead (h : Field) (NE : Nat) : Field :=
  let h1 := h.add 1
  if NE ≤ h1.index then
    ⟨(h1.version + 1) % 2 ^ VERSION_BITS, (h1.index % NE) % 2 ^ INDEX_BITS⟩
  else h1

/-- `advance_phead(Field ph)`: inspect the consume cursor of the next ring
block; if it is not fully drained for the expected generation report
`NO_ENTRY`/`NOT_AVAILABLE`, otherwise stamp its `alloc`/`comm` cursors to
`Field(ph.version + 1, 0)` (only raising versions) and advance `phead`. -/
def advance_phead (NE : Nat) (q : Queue) (ph : Field) : RetStatus × Queue :=
  let B := q.blocks.length
  let nbIdx := (ph.index + 1) % B
  let nb := q.blocks.getD nbIdx defaultBlock
  let c := nb.cons
  if c.version < ph.version ∨ (c.version = ph.version ∧ c.index ≠ NE) then
    let r := nb.resv
    if r.index = c.index then (RetStatus.NO_ENTRY, q)
    else (RetStatus.NOT_AVAILABLE, q)
  else
    let f := mkField (ph.version + 1) 0
    let a := nb.alloc
    let nb1 := if a.version < f.version then { nb with alloc := f } else nb
    let co := nb1.comm
    let nb2 := if co.version < f.version then { nb1 with comm := f } else nb1
    let q1 := { q with blocks := q.blocks.set nbIdx nb2 }
    (RetStatus.SUCCESS, { q1 with phead := advanceHead ph NE })

/-- `reserve_entry(Block* b)` with explicit fuel for its retry loop.
Sequential embedding: the three relaxed loads of `b->resv` in one iteration
all read the same value, so the retry branch (taken when the reserve cursor
moved between loads) never fires. -/
def reserve_entry (NE : Nat) : Nat → Block → Option ((RetStatus × Field) × Block)
  | 0, _ => none
  | fuel + 1, b =>
    let r := b.resv
    if r.index < NE then
      let c := b.comm
      if r.index = c.index then some ((RetStatus.NO_ENTRY, r), b)
      else if c.index ≠ NE ∧ b.alloc.index ≠ c.index then
        some ((RetStatus.NOT_AVAILABLE, r), b)
      else
        let res := b.resv
        let mx := max res.index (r.index + 1)
        let newresv := mkField r.version mx
        let oldres := b.resv
        let b1 := { b with resv := newresv }
        if oldres.index = r.index then some ((RetStatus.SUCCESS, r), b1)
        else reserve_entry NE fuel b1
    else some ((RetStatus.BLOCK_DONE, r), b)

/-- `consume_entry(Block* b, Field f)`: read the slot, overwrite it with `0`
(the source's testing aid), advance the consume cursor, return the value. -/
def consume_entry (b : Block) (f : Field) : Nat × Block :=
  let data := b.data.getD f.index 0
  let b1 := { b with data := b.data.set f.index 0 }
  let c := b1.cons
  let b2 := { b1 with cons := c.add 1 }
  (data, b2)

/-- `advance_chead(Field ch, int version)`: succeed iff the next ring block's
commit cursor carries generation `ch.version + 1`; on success stamp its
`cons`/`resv` cursors to `Field(ch.version + 1, 0)` (only raising versions)
and advance `chead`.  The `version` argument is unused, as in the source. -/
def advance_chead (NE : Nat) (q : Queue) (ch : Field) (version : Nat) : Bool × Queue :=
  let B := q.blocks.length
  let nbIdx := (ch.index + 1) % B
  let nb := q.blocks.getD nbIdx defaultBlock
  let c := nb.comm
  if c.version ≠ ch.version + 1 then (false, q)
  else
    let f := mkField (ch.version + 1) 0
    let cons := nb.cons
    let nb1 := if cons.version < f.version then { nb with cons := f } else nb
    let resv := nb1.resv
    let nb2 := if resv.version < f.version then { nb1 with resv := f } else nb1
    let q1 := { q with blocks := q.blocks.set nbIdx nb2 }
    (true, { q1 with chead := advanceHead ch NE })

/-- `enqueue(T t)` with explicit fuel for the outer `while (true)` loop.
Returns the boolean result and the new state; `none` means the fuel ran out
before the loop exited. -/
def enqueue (NE : Nat) : Nat → Queue → Nat → Option (Bool × Queue)
  | 0, _, _ => none
  | fuel + 1, q, t =>
    let ph := q.phead
    let b := q.blocks.getD ph.index defaultBlock
    match allocate_entry NE b with
    | (RetStatus.SUCCESS, idx, b1) =>
      let b2 := commit_entry b1 idx t
      some (true, { q with blocks := q.blocks.set ph.index b2 })
    | (_, _, b1) =>
      let q1 := { q with blocks := q.blocks.set ph.index b1 }
      match advance_phead NE q1 ph with
      | (RetStatus.SUCCESS, q2) => enqueue NE fuel q2 t
      | (_, q2) => some (false, q2)

/-- `dequeue(T& t)` with explicit fuel for the outer `while (true)` loop.
`some v` plays the role of `return true` with `t = v`; the inner
`reserve_entry` loop is given the same fuel. -/
def dequeue (NE : Nat) : Nat → Queue → Option (Option Nat × Queue)
  | 0, _ => none
  | fuel + 1, q =>
    let ch := q.chead
    let b := q.blocks.getD ch.index defaultBlock
    match reserve_entry NE (fuel + 1) b with
    | none => none
    | some ((st, f), b1) =>
      let q1 := { q with blocks := q.blocks.set ch.index b1 }
      match st with
      | RetStatus.SUCCESS =>
        let (t, b2) := consume_entry b1 f
        some (some t, { q1 with blocks := q1.blocks.set ch.index b2 })
      | RetStatus.NO_ENTRY => some (none, q1)
      | RetStatus.NOT_AVAILABLE => some (none, q1)
      | RetStatus.BLOCK_DONE =>
        match advance_chead NE q1 ch f.version with
        | (true, q2) => dequeue NE fuel q2
        | (false, q2) => some (none, q2)

/-- One external operation: a producer call `enqueue v` or a consumer call
`dequeue`. -/
inductive Op where
  | enq (v : Nat)
  | deq
deriving Repr, DecidableEq

/-- Run a list of complete calls from a state.  Returns the final state, the
values accepted by `enqueue` (those that returned `true`) in call order, and
the values returned by successful `dequeue` calls in call order; `none` if
some call ran out of fuel. -/
def runOps (NE fuel : Nat) : Queue → List Op → Option (Queue × List Nat × List Nat)
  | q, [] => some (q, [], [])
  | q, Op.enq v :: ops =>
    match enqueue NE fuel q v with
    | none => none
    | some (ok, q1) =>
      match runOps NE fuel q1 ops with
      | none => none
      | some (q2, acc, outs) => some (q2, (if ok then [v] else []) ++ acc, outs)
  | q, Op.deq :: ops =>
    match dequeue NE fuel q with
    | none => none
    | some (res, q1) =>
      match runOps NE fuel q1 ops with
      | none => none
      | some (q2, acc, outs) => some (q2, acc, res.toList ++ outs)

/-- The items currently held by the queue, read off a quiescent state in
consumption order: global positions run from the consumer's progress
(consumer head plus the reserve cursor of its block) to the producer's
progress (producer head plus the alloc cursor of its block); position `g`
lives in block `(g / NE) % B` at slot `g % NE`. -/
def contents (NE : Nat) (q : Queue) : List Nat :=
  let B := q.blocks.length
  let pb := q.blocks.getD q.phead.index defaultBlock
  let cb := q.blocks.getD q.chead.index defaultBlock
  let ge := (q.phead.version * B + q.phead.index) * NE + pb.alloc.index
  let gd := (q.chead.version * B + q.chead.index) * NE + cb.resv.index
  (List.range' gd (ge - gd)).map fun g =>
    (q.blocks.getD ((g / NE) % B) defaultBlock).data.getD (g % NE) 0

end BBQ

namespace BBQ

/-! ### Structured positions: the closed form of reachable states in the
square regime `NE = B` -/


/-- Structured producer/consumer progress: completed laps, current block in
the ring, and slots handled in that block this generation. -/
structure Pos where
  lap : Nat
  blk : Nat
  pos : Nat
deriving Repr, DecidableEq

/-- Global slot count corresponding to a structured position (`m` is both the
block count and the slots per block in the square regime `NE = B = m`). -/
def Pos.glob (m : Nat) (p : Pos) : Nat := (p.lap * m + p.blk) * m + p.pos

/-- The producer-side (or consumer-side) cursor of block `j` determined by a
structured position: blocks up to `blk` carry this lap's stamp, later blocks
still carry the previous lap's. -/
def pcur (m : Nat) (P : Pos) (j : Nat) : Field :=
  if j ≤ P.blk then
    ⟨(if j = 0 then P.lap else P.lap + 1), (if j = P.blk then P.pos else m)⟩
  else ⟨P.lap, m⟩

/-- Content of slot `p` of block `j`: the last value written there if it has
not been consumed yet, `0` otherwise. -/
def slotVal (m : Nat) (E : List Nat) (d : Nat) (P : Pos) (j p : Nat) : Nat :=
  if j < P.blk ∨ (j = P.blk ∧ p < P.pos) then
    (if d ≤ (P.lap * m + j) * m + p then E.getD ((P.lap * m + j) * m + p) 0 else 0)
  else if 1 ≤ P.lap then
    (if d ≤ ((P.lap - 1) * m + j) * m + p then E.getD (((P.lap - 1) * m + j) * m + p) 0 else 0)
  else 0

/-- Closed form of block `j` in the reachable state determined by the
accepted values `E` and the structured producer/consumer positions. -/
def mkBlock (m : Nat) (E : List Nat) (P C : Pos) (j : Nat) : Block :=
  { alloc := pcur m P j, comm := pcur m P j,
    resv := pcur m C j, cons := pcur m C j,
    data := List.ofFn fun p : Fin m => slotVal m E (C.glob m) P j p }

/-- Closed form of every state reachable in the square regime `NE = B = m`. -/
def mkState (m : Nat) (E : List Nat) (P C : Pos) : Queue :=
  { blocks := List.ofFn fun j : Fin m => mkBlock m E P C (j : Nat),
    phead := ⟨P.lap, P.blk⟩, chead := ⟨C.lap, C.blk⟩ }

/-- Strict lexicographic order on structured positions. -/
def Pos.lexLt (a b : Pos) : Prop :=
  a.lap < b.lap ∨ (a.lap = b.lap ∧ (a.blk < b.blk ∨ (a.blk = b.blk ∧ a.pos < b.pos)))

/-- Lexicographic order on structured positions. -/
def Pos.lexLe (a b : Pos) : Prop :=
  a.lap < b.lap ∨ (a.lap = b.lap ∧ (a.blk < b.blk ∨ (a.blk = b.blk ∧ a.pos ≤ b.pos)))

/-- The structured position after a block-boundary advance. -/
def Pos.adv (m : Nat) (P : Pos) : Pos :=
  if P.blk + 1 = m then ⟨P.lap + 1, 0, 0⟩ else ⟨P.lap, P.blk + 1, 0⟩

/-! ### Cursor-order and block-local invariants -/

/-- Lexicographic order on cursor Fields: generation first, then position. -/
def fieldLe (f g : Field) : Prop :=
  f.version < g.version ∨ (f.version = g.version ∧ f.index ≤ g.index)

/-- All four cursors of `b` are lexicographically at most those of `b'`. -/
def cursorsLe (b b' : Block) : Prop :=
  fieldLe b.alloc b'.alloc ∧ fieldLe b.comm b'.comm ∧
  fieldLe b.resv b'.resv ∧ fieldLe b.cons b'.cons

/-- The block-local invariant maintained by every complete call: producer
cursors agree, consumer cursors agree, positions stay within `NE`, the
consumer never passes the producer, and generations fit the version field. -/
def BlockInv (NE : Nat) (b : Block) : Prop :=
  b.alloc = b.comm ∧ b.resv = b.cons ∧ b.alloc.index ≤ NE ∧ b.cons.index ≤ NE ∧
  fieldLe b.cons b.comm ∧ b.alloc.version < 2 ^ VERSION_BITS

/-- Every block of the queue satisfies the block-local invariant. -/
def QueueInv (NE : Nat) (q : Queue) : Prop :=
  ∀ b ∈ q.blocks, BlockInv NE b

/-- The reachable-state invariant of the square regime `NE = B = m`:
cursor bounds, consumer-behind-producer, the producer's drain gate, the
initial-state normalisation of a fresh producer, and the accepted-value
count. -/
def Good (m : Nat) (E : List Nat) (P C : Pos) : Prop :=
  1 ≤ m ∧ m < 2 ^ INDEX_BITS ∧
  P.blk < m ∧ P.pos ≤ m ∧ C.blk < m ∧ C.pos ≤ m ∧
  Pos.lexLe C P ∧
  (1 ≤ P.lap → Pos.lexLe ⟨P.lap - 1, P.blk, m⟩ C) ∧
  (P.pos = 0 → P = ⟨0, 0, 0⟩) ∧
  E.length = P.glob m

end BBQ

namespace BBQ

/-! ### List access helpers -/

theorem list_set_getD_self {α : Type} (l : List α) (i : Nat) (d : α) :
    l.set i (l.getD i d) = l := by
  by_cases h : i < l.length
  · apply List.ext_getElem
    · simp
    · intro j h1 h2
      rw [List.getElem_set]
      split
      · rename_i hij
        subst j
        rw [List.getD_eq_getElem?_getD, List.getElem?_eq_getElem h]
        simp
      · rfl
  · exact List.set_eq_of_length_le (by omega)

theorem list_getD_set_self {α : Type} (l : List α) (i : Nat) (v d : α) (h : i < l.length) :
    (l.set i v).getD i d = v := by
  rw [List.getD_eq_getElem?_getD, List.getElem?_set_self]
  · simp
  · exact h

theorem list_getD_set_ne {α : Type} (l : List α) (i j : Nat) (v d : α) (h : i ≠ j) :
    (l.set i v).getD j d = l.getD j d := by
  rw [List.getD_eq_getElem?_getD, List.getElem?_set_ne h, ← List.getD_eq_getElem?_getD]

theorem list_getD_of_le {α : Type} (l : List α) (i : Nat) (d : α) (h : l.length ≤ i) :
    l.getD i d = d := by
  rw [List.getD_eq_getElem?_getD, List.getElem?_eq_none h]
  rfl

theorem list_getD_ofFn {α : Type} {n : Nat} (f : Fin n → α) (i : Nat) (d : α) (h : i < n) :
    (List.ofFn f).getD i d = f ⟨i, h⟩ := by
  rw [List.getD_eq_getElem?_getD, List.getElem?_ofFn]
  simp [List.ofFnNthVal, h]

theorem list_set_ofFn {α : Type} {n : Nat} (f : Fin n → α) (g : Fin n → α) (i : Nat) (v : α)
    (hi : i < n) (hg : ∀ j : Fin n, g j = if (j : Nat) = i then v else f j) :
    (List.ofFn f).set i v = List.ofFn g := by
  apply List.ext_getElem
  · simp
  · intro j h1 h2
    simp only [List.length_set, List.length_ofFn] at h1
    rw [List.getElem_set]
    split
    · rename_i hij
      rw [List.getElem_ofFn, hg]
      simp only [Fin.val_mk]
      rw [if_pos hij.symm]
    · rename_i hij
      rw [List.getElem_ofFn, List.getElem_ofFn, hg]
      simp only [Fin.val_mk]
      rw [if_neg (by omega)]

end BBQ

namespace BBQ

/-- C4: `advance_phead` is blocked exactly when the next ring block's consume
cursor is behind the expected generation (`cons.version < ph.version`, or
equal with `cons.index ≠ NE`); when blocked it reports `NO_ENTRY` iff the
consumer's reserve cursor equals its consume cursor and `NOT_AVAILABLE`
otherwise, and the enclosing `enqueue` then returns `false`; when not
blocked it reports `SUCCESS` after raising (never lowering) the next
block's `alloc` and `comm` cursors to `(ph.version + 1, 0)`. -/
theorem C4_advance_phead_behaviour (NE k v : Nat) (q : Queue) (ph : Field)
    (hB : 0 < q.blocks.length) (hv : ph.version + 1 < 2 ^ VERSION_BITS)
    (nb : Block) (hnb : nb = q.blocks.getD ((ph.index + 1) % q.blocks.length) defaultBlock) :
    ((nb.cons.version < ph.version ∨ (nb.cons.version = ph.version ∧ nb.cons.index ≠ NE)) →
      ((advance_phead NE q ph).1 = RetStatus.NO_ENTRY ↔ nb.resv.index = nb.cons.index) ∧
      ((advance_phead NE q ph).1 = RetStatus.NOT_AVAILABLE ↔ nb.resv.index ≠ nb.cons.index) ∧
      (advance_phead NE q ph).1 ≠ RetStatus.SUCCESS ∧
      (q.phead = ph → NE ≤ (q.blocks.getD ph.index defaultBlock).alloc.index →
        enqueue NE (k + 1) q v = some (false, q))) ∧
    (¬(nb.cons.version < ph.version ∨ (nb.cons.version = ph.version ∧ nb.cons.index ≠ NE)) →
      (advance_phead NE q ph).1 = RetStatus.SUCCESS ∧
      ((advance_phead NE q ph).2.blocks.getD ((ph.index + 1) % q.blocks.length) defaultBlock).alloc =
        (if nb.alloc.version < ph.version + 1 then ⟨ph.version + 1, 0⟩ else nb.alloc) ∧
      ((advance_phead NE q ph).2.blocks.getD ((ph.index + 1) % q.blocks.length) defaultBlock).comm =
        (if nb.comm.version < ph.version + 1 then ⟨ph.version + 1, 0⟩ else nb.comm)) := by
  have hlt : (ph.index + 1) % q.blocks.length < q.blocks.length := Nat.mod_lt _ hB
  constructor
  · intro hblocked
    have hadv : advance_phead NE q ph =
        (if nb.resv.index = nb.cons.index then RetStatus.NO_ENTRY else RetStatus.NOT_AVAILABLE, q) := by
      rw [advance_phead]
      rw [← hnb]
      rw [if_pos hblocked]
      split <;> simp_all
    constructor
    · rw [hadv]
      by_cases hr : nb.resv.index = nb.cons.index <;> simp [hr]
    constructor
    · rw [hadv]
      by_cases hr : nb.resv.index = nb.cons.index <;> simp [hr]
    constructor
    · rw [hadv]
      by_cases hr : nb.resv.index = nb.cons.index <;> simp [hr]
    · intro hph hfull
      subst hph
      rw [enqueue]
      have halloc : allocate_entry NE (q.blocks.getD q.phead.index defaultBlock) =
          (RetStatus.BLOCK_DONE, 0, q.blocks.getD q.phead.index defaultBlock) := by
        rw [allocate_entry, if_pos hfull]
      have hq1 : ({ q with blocks := q.blocks.set q.phead.index (q.blocks.getD q.phead.index defaultBlock) } : Queue) = q := by
        rw [list_set_getD_self]
      simp only [halloc, hq1, hadv]
      by_cases hr : nb.resv.index = nb.cons.index
      · rw [if_pos hr]
      · rw [if_neg hr]
  · intro hblocked
    have hf : mkField (ph.version + 1) 0 = (⟨ph.version + 1, 0⟩ : Field) := by
      rw [mkField]
      congr 1
      · exact Nat.mod_eq_of_lt hv
    have hadv : advance_phead NE q ph =
        (RetStatus.SUCCESS,
         { q with
             blocks := q.blocks.set ((ph.index + 1) % q.blocks.length)
               (let nb1 := if nb.alloc.version < ph.version + 1 then { nb with alloc := ⟨ph.version + 1, 0⟩ } else nb
                if nb1.comm.version < ph.version + 1 then { nb1 with comm := ⟨ph.version + 1, 0⟩ } else nb1)
             phead := advanceHead ph NE }) := by
      rw [advance_phead]
      rw [← hnb]
      rw [if_neg hblocked]
      rw [hf]
    rw [hadv]
    refine ⟨rfl, ?_, ?_⟩
    · simp only []
      rw [list_getD_set_self _ _ _ _ hlt]
      split <;> split <;> simp_all
    · simp only []
      rw [list_getD_set_self _ _ _ _ hlt]
      split <;> split <;> simp_all

end BBQ

namespace BBQ

/-- C5: `advance_chead` succeeds iff the next ring block's commit cursor
carries generation `ch.version + 1`; on success it raises (never lowering)
the next block's `cons` and `resv` cursors to `(ch.version + 1, 0)` and
advances the consumer head; on failure it leaves the state unchanged and
the enclosing `dequeue` returns `false`. -/
theorem C5_advance_chead_behaviour (NE k ver : Nat) (q : Queue) (ch : Field)
    (hB : 0 < q.blocks.length) (hv : ch.version + 1 < 2 ^ VERSION_BITS)
    (nb : Block) (hnb : nb = q.blocks.getD ((ch.index + 1) % q.blocks.length) defaultBlock) :
    ((advance_chead NE q ch ver).1 = true ↔ nb.comm.version = ch.version + 1) ∧
    (nb.comm.version = ch.version + 1 →
      ((advance_chead NE q ch ver).2.blocks.getD ((ch.index + 1) % q.blocks.length) defaultBlock).cons =
        (if nb.cons.version < ch.version + 1 then ⟨ch.version + 1, 0⟩ else nb.cons) ∧
      ((advance_chead NE q ch ver).2.blocks.getD ((ch.index + 1) % q.blocks.length) defaultBlock).resv =
        (if nb.resv.version < ch.version + 1 then ⟨ch.version + 1, 0⟩ else nb.resv) ∧
      (advance_chead NE q ch ver).2.chead = advanceHead ch NE) ∧
    (nb.comm.version ≠ ch.version + 1 →
      (advance_chead NE q ch ver).2 = q ∧
      (q.chead = ch → NE ≤ (q.blocks.getD ch.index defaultBlock).resv.index →
        dequeue NE (k + 1) q = some (none, q))) := by
  have hlt : (ch.index + 1) % q.blocks.length < q.blocks.length := Nat.mod_lt _ hB
  have hf : mkField (ch.version + 1) 0 = (⟨ch.version + 1, 0⟩ : Field) := by
    rw [mkField]
    congr 1
    exact Nat.mod_eq_of_lt hv
  by_cases hcv : nb.comm.version = ch.version + 1
  · have hadv : advance_chead NE q ch ver =
        (true,
         { q with
             blocks := q.blocks.set ((ch.index + 1) % q.blocks.length)
               (let nb1 := if nb.cons.version < ch.version + 1 then { nb with cons := ⟨ch.version + 1, 0⟩ } else nb
                if nb1.resv.version < ch.version + 1 then { nb1 with resv := ⟨ch.version + 1, 0⟩ } else nb1)
             chead := advanceHead ch NE }) := by
      rw [advance_chead]
      rw [← hnb]
      rw [if_neg (by simp [hcv])]
      rw [hf]
    refine ⟨by simp [hadv, hcv], fun _ => ?_, fun hne => absurd hcv hne⟩
    rw [hadv]
    refine ⟨?_, ?_, rfl⟩
    · simp only []
      rw [list_getD_set_self _ _ _ _ hlt]
      split <;> split <;> simp_all
    · simp only []
      rw [list_getD_set_self _ _ _ _ hlt]
      split <;> split <;> simp_all
  · have hadv : ∀ w : Nat, advance_chead NE q ch w = (false, q) := by
      intro w
      rw [advance_chead]
      rw [← hnb]
      rw [if_pos (by simp [hcv])]
    refine ⟨by simp [hadv, hcv], fun hc => absurd hc hcv, fun _ => ⟨by rw [hadv], ?_⟩⟩
    intro hch hfull
    subst hch
    rw [dequeue]
    have hres : reserve_entry NE (k + 1) (q.blocks.getD q.chead.index defaultBlock) =
        some ((RetStatus.BLOCK_DONE, (q.blocks.getD q.chead.index defaultBlock).resv),
              q.blocks.getD q.chead.index defaultBlock) := by
      rw [reserve_entry]
      rw [if_neg (by omega)]
    have hq1 : ({ q with blocks := q.blocks.set q.chead.index (q.blocks.getD q.chead.index defaultBlock) } : Queue) = q := by
      rw [list_set_getD_self]
    simp only [hres, hq1, hadv]

end BBQ

namespace BBQ

/-- C6: in the reserve step with `resv.index < NE`, the outcome is
`NO_ENTRY` exactly when the reserve cursor equals the commit cursor,
`NOT_AVAILABLE` exactly when additionally the block is not fully committed
and an allocation is in flight, and `dequeue` maps both to an immediate
`false` return without looping. -/
theorem C6_reserve_step_behaviour (NE k : Nat) (b : Block) (hr : b.resv.index < NE) :
    (b.resv.index = b.comm.index →
      reserve_entry NE (k + 1) b = some ((RetStatus.NO_ENTRY, b.resv), b)) ∧
    (b.resv.index ≠ b.comm.index → b.comm.index ≠ NE → b.alloc.index ≠ b.comm.index →
      reserve_entry NE (k + 1) b = some ((RetStatus.NOT_AVAILABLE, b.resv), b)) ∧
    (b.resv.index ≠ b.comm.index → ¬(b.comm.index ≠ NE ∧ b.alloc.index ≠ b.comm.index) →
      reserve_entry NE (k + 1) b =
        some ((RetStatus.SUCCESS, b.resv),
              { b with resv := mkField b.resv.version (b.resv.index + 1) })) ∧
    (∀ q : Queue, q.blocks.getD q.chead.index defaultBlock = b →
      (b.resv.index = b.comm.index ∨ (b.comm.index ≠ NE ∧ b.alloc.index ≠ b.comm.index)) →
      dequeue NE (k + 1) q = some (none, q)) := by
  refine ⟨?_, ?_, ?_, ?_⟩
  · intro h
    rw [reserve_entry, if_pos hr, if_pos h]
  · intro h1 h2 h3
    rw [reserve_entry, if_pos hr, if_neg h1, if_pos ⟨h2, h3⟩]
  · intro h1 h2
    rw [reserve_entry, if_pos hr, if_neg h1, if_neg h2]
    rw [if_pos rfl]
    have : max b.resv.index (b.resv.index + 1) = b.resv.index + 1 := by omega
    rw [this]
  · intro q hq hcase
    rw [dequeue]
    rw [hq]
    have hq1 : ({ q with blocks := q.blocks.set q.chead.index b } : Queue) = q := by
      rw [← hq, list_set_getD_self]
    by_cases h1 : b.resv.index = b.comm.index
    · have hres : reserve_entry NE (k + 1) b = some ((RetStatus.NO_ENTRY, b.resv), b) := by
        rw [reserve_entry, if_pos hr, if_pos h1]
      simp only [hres, hq1]
    · have h2 : b.comm.index ≠ NE ∧ b.alloc.index ≠ b.comm.index := by
        rcases hcase with h | h
        · exact absurd h h1
        · exact h
      have hres : reserve_entry NE (k + 1) b = some ((RetStatus.NOT_AVAILABLE, b.resv), b) := by
        rw [reserve_entry, if_pos hr, if_neg h1, if_pos h2]
      simp only [hres, hq1]

end BBQ

namespace BBQ

/-- The reserve retry loop always finishes in its first iteration in the
sequential embedding: the three loads of `resv` coincide. -/
theorem reserve_entry_eq (NE k : Nat) (b : Block) :
    reserve_entry NE (k + 1) b =
      (if b.resv.index < NE then
        if b.resv.index = b.comm.index then some ((RetStatus.NO_ENTRY, b.resv), b)
        else if b.comm.index ≠ NE ∧ b.alloc.index ≠ b.comm.index then
          some ((RetStatus.NOT_AVAILABLE, b.resv), b)
        else some ((RetStatus.SUCCESS, b.resv),
                   { b with resv := mkField b.resv.version (max b.resv.index (b.resv.index + 1)) })
      else some ((RetStatus.BLOCK_DONE, b.resv), b)) := by
  rw [reserve_entry]
  by_cases h1 : b.resv.index < NE
  · rw [if_pos h1, if_pos h1]
    by_cases h2 : b.resv.index = b.comm.index
    · rw [if_pos h2, if_pos h2]
    · rw [if_neg h2, if_neg h2]
      by_cases h3 : b.comm.index ≠ NE ∧ b.alloc.index ≠ b.comm.index
      · rw [if_pos h3, if_pos h3]
      · rw [if_neg h3, if_neg h3, if_pos rfl]
  · rw [if_neg h1, if_neg h1]

/-- `advance_chead` never touches slot contents and preserves the shape of
the block list. -/
theorem advance_chead_data (NE ver : Nat) (q : Queue) (ch : Field) (i : Nat) :
    (((advance_chead NE q ch ver).2).blocks.getD i defaultBlock).data =
      (q.blocks.getD i defaultBlock).data ∧
    ((advance_chead NE q ch ver).2).blocks.length = q.blocks.length ∧
    ((advance_chead NE q ch ver).2).chead = (if (advance_chead NE q ch ver).1 = true then advanceHead ch NE else q.chead) := by
  by_cases hc : (q.blocks.getD ((ch.index + 1) % q.blocks.length) defaultBlock).comm.version ≠ ch.version + 1
  · have hadv : advance_chead NE q ch ver = (false, q) := by
      rw [advance_chead, if_pos hc]
    rw [hadv]
    simp
  · have hadv : advance_chead NE q ch ver =
        (true,
         { q with
             blocks := q.blocks.set ((ch.index + 1) % q.blocks.length)
               (let nb := q.blocks.getD ((ch.index + 1) % q.blocks.length) defaultBlock
                let f := mkField (ch.version + 1) 0
                let nb1 := if nb.cons.version < f.version then { nb with cons := f } else nb
                if nb1.resv.version < f.version then { nb1 with resv := f } else nb1)
             chead := advanceHead ch NE }) := by
      rw [advance_chead, if_neg hc]
    rw [hadv]
    refine ⟨?_, by simp, by simp⟩
    simp only []
    by_cases hi : i = (ch.index + 1) % q.blocks.length
    · rw [hi]
      by_cases hin : (ch.index + 1) % q.blocks.length < q.blocks.length
      · rw [list_getD_set_self _ _ _ _ hin]
        split <;> split <;> rfl
      · rw [List.set_eq_of_length_le (by omega)]
    · rw [list_getD_set_ne _ _ _ _ _ (by omega)]

end BBQ

namespace BBQ

/-- After a successful `dequeue`, the consumed slot (position `resv.index - 1`
of the block under the final consumer head) holds `0`, and the returned value
is what that slot held at entry. -/
theorem dequeue_success_slot (NE : Nat) (hNE : NE < 2 ^ INDEX_BITS) :
    ∀ (fuel : Nat) (q : Queue), (∀ bl ∈ q.blocks, bl.data.length = NE) →
    ∀ x q', dequeue NE fuel q = some (some x, q') →
      x = (q.blocks.getD q'.chead.index defaultBlock).data.getD
            ((q'.blocks.getD q'.chead.index defaultBlock).resv.index - 1) 0 ∧
      (q'.blocks.getD q'.chead.index defaultBlock).data.getD
        ((q'.blocks.getD q'.chead.index defaultBlock).resv.index - 1) 0 = 0 := by
  intro fuel
  induction fuel with
  | zero =>
    intro q hlen x q' h
    simp [dequeue] at h
  | succ n ih =>
    intro q hlen x q' h
    rw [dequeue] at h
    rw [reserve_entry_eq] at h
    by_cases h1 : (q.blocks.getD q.chead.index defaultBlock).resv.index < NE
    · rw [if_pos h1] at h
      by_cases h2 : (q.blocks.getD q.chead.index defaultBlock).resv.index =
          (q.blocks.getD q.chead.index defaultBlock).comm.index
      · rw [if_pos h2] at h
        simp at h
      · rw [if_neg h2] at h
        by_cases h3 : (q.blocks.getD q.chead.index defaultBlock).comm.index ≠ NE ∧
            (q.blocks.getD q.chead.index defaultBlock).alloc.index ≠
              (q.blocks.getD q.chead.index defaultBlock).comm.index
        · rw [if_pos h3] at h
          simp at h
        · rw [if_neg h3] at h
          -- SUCCESS: the slot under the consumer head is consumed in place
          have hch : q.chead.index < q.blocks.length := by
            by_contra hc
            rw [list_getD_of_le _ _ _ (by omega)] at h2
            simp [defaultBlock] at h2
          simp only [consume_entry, Option.some.injEq, Prod.mk.injEq] at h
          obtain ⟨hx, hq'⟩ := h
          have hlenb : (q.blocks.getD q.chead.index defaultBlock).data.length = NE := by
            apply hlen
            rw [List.getD_eq_getElem?_getD, List.getElem?_eq_getElem hch]
            simp only [Option.getD_some]
            exact List.getElem_mem hch
          have hmod : ((q.blocks.getD q.chead.index defaultBlock).resv.index + 1) % 2 ^ INDEX_BITS =
              (q.blocks.getD q.chead.index defaultBlock).resv.index + 1 := by
            apply Nat.mod_eq_of_lt
            omega
          subst hq'
          constructor
          · simp only [List.set_set]
            rw [list_getD_set_self _ _ _ _ hch]
            simp only [mkField]
            rw [Nat.max_eq_right (Nat.le_succ _)]
            simp only [Nat.succ_eq_add_one]
            rw [hmod]
            simp only [Nat.add_sub_cancel]
            exact hx.symm
          · simp only [List.set_set]
            rw [list_getD_set_self _ _ _ _ hch]
            simp only [mkField]
            rw [Nat.max_eq_right (Nat.le_succ _)]
            simp only [Nat.succ_eq_add_one]
            rw [hmod]
            simp only [Nat.add_sub_cancel]
            rw [list_getD_set_self]
            omega
    · rw [if_neg h1] at h
      simp only [] at h
      have hq1 : ({ q with blocks := q.blocks.set q.chead.index (q.blocks.getD q.chead.index defaultBlock) } : Queue) = q := by
        rw [list_set_getD_self]
      rw [hq1] at h
      rcases hadv : advance_chead NE q q.chead (q.blocks.getD q.chead.index defaultBlock).resv.version
        with ⟨ok, q2⟩
      rw [hadv] at h
      cases ok
      · simp at h
      · -- advance succeeded: recurse; data and lengths are preserved
        have hdata := fun i => advance_chead_data NE
          (q.blocks.getD q.chead.index defaultBlock).resv.version q q.chead i
        rw [hadv] at hdata
        have hlen2 : ∀ bl ∈ q2.blocks, bl.data.length = NE := by
          intro bl hbl
          obtain ⟨i, hi, hbi⟩ := List.getElem_of_mem hbl
          have h2 := (hdata i).1
          have hlenq2 : q2.blocks.length = q.blocks.length := (hdata 0).2.1
          rw [List.getD_eq_getElem?_getD, List.getElem?_eq_getElem hi] at h2
          simp only [Option.getD_some] at h2
          rw [hbi] at h2
          rw [h2]
          have hiq : i < q.blocks.length := by omega
          have : q.blocks.getD i defaultBlock = q.blocks[i] := by
            rw [List.getD_eq_getElem?_getD, List.getElem?_eq_getElem hiq]
            simp
          rw [this]
          apply hlen
          exact List.getElem_mem hiq
        obtain ⟨ihx, ihz⟩ := ih q2 hlen2 x q' h
        refine ⟨?_, ihz⟩
        rw [ihx, (hdata q'.chead.index).1]

end BBQ

namespace BBQ

/-- C8: `consume_entry` returns the slot's value and overwrites the slot
with `0`; after any successful `dequeue`, the consumed slot of the
consumer's block holds `0`. -/
theorem C8_consume_overwrites_slot (NE : Nat) (b : Block) (f : Field)
    (hNE : NE < 2 ^ INDEX_BITS) (hf : f.index < b.data.length) :
    (consume_entry b f).1 = b.data.getD f.index 0 ∧
    (consume_entry b f).2.data.getD f.index 0 = 0 ∧
    (∀ (fuel : Nat) (q q' : Queue) (x : Nat), (∀ bl ∈ q.blocks, bl.data.length = NE) →
      dequeue NE fuel q = some (some x, q') →
      x = (q.blocks.getD q'.chead.index defaultBlock).data.getD
            ((q'.blocks.getD q'.chead.index defaultBlock).resv.index - 1) 0 ∧
      (q'.blocks.getD q'.chead.index defaultBlock).data.getD
        ((q'.blocks.getD q'.chead.index defaultBlock).resv.index - 1) 0 = 0) := by
  refine ⟨rfl, ?_, ?_⟩
  · simp only [consume_entry]
    exact list_getD_set_self _ _ _ _ hf
  · intro fuel q q' x hlen h
    exact dequeue_success_slot NE hNE fuel q hlen x q' h

/-- C8 witness: consuming slot 2 of a fresh block zeroes it. -/
theorem C8_consume_overwrites_slot_witness :
    (consume_entry (Block.init 4 0) ⟨0, 2⟩).2.data.getD 2 0 = 0 :=
  (C8_consume_overwrites_slot 4 (Block.init 4 0) ⟨0, 2⟩ (by decide) (by decide)).2.1

/-- C4 witness: on the fresh 4-by-4 queue the producer advance out of
block 0 succeeds. -/
theorem C4_advance_phead_behaviour_witness :
    (advance_phead 4 (Queue.mkInit 4 4) ⟨0, 0⟩).1 = RetStatus.SUCCESS :=
  ((C4_advance_phead_behaviour 4 0 0 (Queue.mkInit 4 4) ⟨0, 0⟩ (by decide) (by decide) _ rfl).2
    (by decide)).1

/-- C5 witness: on the fresh 4-by-4 queue the consumer advance fails (the
next block is uncommitted) and leaves the state unchanged. -/
theorem C5_advance_chead_behaviour_witness :
    (advance_chead 4 (Queue.mkInit 4 4) ⟨0, 0⟩ 0).2 = Queue.mkInit 4 4 :=
  ((C5_advance_chead_behaviour 4 0 0 (Queue.mkInit 4 4) ⟨0, 0⟩ (by decide) (by decide) _ rfl).2.2
    (by decide)).1

/-- C6 witness: reserving on a fresh block reports `NO_ENTRY` and changes
nothing. -/
theorem C6_reserve_step_behaviour_witness :
    reserve_entry 4 1 (Block.init 4 0) =
      some ((RetStatus.NO_ENTRY, (Block.init 4 0).resv), Block.init 4 0) :=
  (C6_reserve_step_behaviour 4 0 (Block.init 4 0) (by decide)).1 (by decide)

/-- C3 is violated in the code: with `Queue<uint64_t,8,2>` (NE = 4, B = 2),
after 8 accepted enqueues, 4 dequeues and one further enqueue the producer
head's index is 2, outside the 2-block ring — the head wrap in
`advance_phead`/`advance_chead` reduces modulo NE instead of modulo B. -/
theorem C3_head_wrap_out_of_ring :
    ((runOps 4 2 (Queue.mkInit 4 2)
        (((List.range 8).map Op.enq) ++ (List.replicate 4 Op.deq) ++ [Op.enq 8])).map
      fun r => (r.1.phead.index, r.1.blocks.length)) = some (2, 2) := by decide

/-- C1 counterexample (NE = 4, B = 2): a 9-value run loses the value 8 —
the dequeued outputs together with the still-pending contents are 0..7. -/
theorem C1_counterexample :
    ((runOps 4 2 (Queue.mkInit 4 2)
        (((List.range 8).map Op.enq) ++ (List.replicate 4 Op.deq) ++ [Op.enq 8] ++
          List.replicate 5 Op.deq)).map
      fun r => (r.2.1, r.2.2 ++ contents 4 r.1)) =
      some ([0, 1, 2, 3, 4, 5, 6, 7, 8], [0, 1, 2, 3, 4, 5, 6, 7]) := by decide

/-- C2 counterexample (NE = 1, B = 4, so N = 4): the second of N
consecutive enqueues is already rejected. -/
theorem C2_counterexample :
    ((runOps 1 2 (Queue.mkInit 1 4) [Op.enq 0, Op.enq 1]).map fun r => (r.2.1, r.2.2)) =
      some ([0], []) := by decide

/-- C9 counterexample (NE = 2, B = 4): after four accepted enqueues a
rejected enqueue returns `false` yet mutates the queue state. -/
theorem C9_counterexample :
    ((runOps 2 2 (Queue.mkInit 2 4) ((List.range 4).map Op.enq)).map
      fun r => ((enqueue 2 2 r.1 99).map Prod.fst,
                decide (enqueue 2 2 r.1 99 = some (false, r.1)))) =
      some (some false, false) := by decide

/-- C10 counterexample (NE = 2, B = 4): on a reachable state `enqueue`
still runs out of fuel after two outer iterations and needs a third. -/
theorem C10_counterexample :
    ((runOps 2 2 (Queue.mkInit 2 4) ((List.range 4).map Op.enq ++ List.replicate 4 Op.deq)).map
      fun r => (enqueue 2 2 r.1 9, (enqueue 2 3 r.1 9).map Prod.fst)) =
      some (none, some true) := by decide

end BBQ

namespace BBQ

theorem fieldLe_refl (f : Field) : fieldLe f f := Or.inr ⟨rfl, le_refl _⟩

theorem fieldLe_trans {f g h : Field} (h1 : fieldLe f g) (h2 : fieldLe g h) : fieldLe f h := by
  rcases h1 with h1 | ⟨h1, h1'⟩ <;> rcases h2 with h2 | ⟨h2, h2'⟩ <;>
    simp only [fieldLe] <;> omega

theorem cursorsLe_refl (b : Block) : cursorsLe b b :=
  ⟨fieldLe_refl _, fieldLe_refl _, fieldLe_refl _, fieldLe_refl _⟩

theorem cursorsLe_trans {a b c : Block} (h1 : cursorsLe a b) (h2 : cursorsLe b c) :
    cursorsLe a c :=
  ⟨fieldLe_trans h1.1 h2.1, fieldLe_trans h1.2.1 h2.2.1,
   fieldLe_trans h1.2.2.1 h2.2.2.1, fieldLe_trans h1.2.2.2 h2.2.2.2⟩

theorem list_getD_mem {α : Type} (l : List α) (i : Nat) (d : α) (h : i < l.length) :
    l.getD i d ∈ l := by
  rw [List.getD_eq_getElem?_getD, List.getElem?_eq_getElem h]
  simp only [Option.getD_some]
  exact List.getElem_mem h

/-- `allocate_entry` in closed form: the two guards read the same cursor. -/
theorem allocate_entry_eq (NE : Nat) (b : Block) :
    allocate_entry NE b =
      (if NE ≤ b.alloc.index then (RetStatus.BLOCK_DONE, 0, b)
       else (RetStatus.SUCCESS, b.alloc.index, { b with alloc := b.alloc.add 1 })) := by
  rw [allocate_entry]
  by_cases h : NE ≤ b.alloc.index
  · rw [if_pos h, if_pos h]
  · rw [if_neg h, if_neg h, if_neg h]

theorem queueInv_set (NE : Nat) (q : Queue) (i : Nat) (b : Block)
    (hq : QueueInv NE q) (hb : BlockInv NE b) :
    ∀ bl ∈ q.blocks.set i b, BlockInv NE bl := by
  intro bl hbl
  rcases List.mem_or_eq_of_mem_set hbl with h | h
  · exact hq bl h
  · rw [h]; exact hb

end BBQ

namespace BBQ

/-- The two conditional producer stamps collapse to one when `alloc = comm`. -/
theorem pstamp_eq (nb : Block) (f : Field) (hac : nb.alloc = nb.comm) :
    (let nb1 := if nb.alloc.version < f.version then { nb with alloc := f } else nb
     if nb1.comm.version < f.version then { nb1 with comm := f } else nb1) =
    (if nb.alloc.version < f.version then { nb with alloc := f, comm := f } else nb) := by
  simp only []
  by_cases h : nb.alloc.version < f.version
  · rw [if_pos h]
    rw [if_pos (show nb.comm.version < f.version by rw [← hac]; exact h)]
    rw [if_pos h]
  · rw [if_neg h]
    rw [if_neg (show ¬nb.comm.version < f.version by rw [← hac]; exact h)]
    rw [if_neg h]

/-- The two conditional consumer stamps collapse to one when `resv = cons`. -/
theorem cstamp_eq (nb : Block) (f : Field) (hrc : nb.resv = nb.cons) :
    (let nb1 := if nb.cons.version < f.version then { nb with cons := f } else nb
     if nb1.resv.version < f.version then { nb1 with resv := f } else nb1) =
    (if nb.cons.version < f.version then { nb with cons := f, resv := f } else nb) := by
  simp only []
  by_cases h : nb.cons.version < f.version
  · rw [if_pos h]
    rw [if_pos (show nb.resv.version < f.version by rw [hrc]; exact h)]
    rw [if_pos h]
  · rw [if_neg h]
    rw [if_neg (show ¬nb.resv.version < f.version by rw [hrc]; exact h)]
    rw [if_neg h]

/-- Stamping a block for the next producer generation preserves the invariant
and only raises cursors. -/
theorem pstamp_inv (NE : Nat) (nb : Block) (f : Field) (hnb : BlockInv NE nb)
    (hfi : f.index = 0) (hfv : f.version < 2 ^ VERSION_BITS) :
    BlockInv NE (if nb.alloc.version < f.version then { nb with alloc := f, comm := f } else nb) ∧
    cursorsLe nb (if nb.alloc.version < f.version then { nb with alloc := f, comm := f } else nb) := by
  obtain ⟨hac, hrc, hai, hci, hcc, hav⟩ := hnb
  by_cases h : nb.alloc.version < f.version
  · rw [if_pos h]
    have hcomm : nb.comm.version < f.version := by rw [← hac]; exact h
    have hcons : nb.cons.version < f.version := by
      rcases hcc with h1 | ⟨h1, h2⟩ <;> omega
    constructor
    · exact ⟨rfl, hrc, show f.index ≤ NE by omega, hci, Or.inl hcons,
        show f.version < 2 ^ VERSION_BITS from hfv⟩
    · exact ⟨Or.inl h, Or.inl hcomm, fieldLe_refl _, fieldLe_refl _⟩
  · rw [if_neg h]
    exact ⟨⟨hac, hrc, hai, hci, hcc, hav⟩, cursorsLe_refl _⟩

/-- Stamping a block for the next consumer generation preserves the invariant
and only raises cursors, provided the new generation is exactly the one the
producer committed (`f.version = comm.version`). -/
theorem cstamp_inv (NE : Nat) (nb : Block) (f : Field) (hnb : BlockInv NE nb)
    (hfi : f.index = 0) (hfc : f.version = nb.comm.version) :
    BlockInv NE (if nb.cons.version < f.version then { nb with cons := f, resv := f } else nb) ∧
    cursorsLe nb (if nb.cons.version < f.version then { nb with cons := f, resv := f } else nb) := by
  obtain ⟨hac, hrc, hai, hci, hcc, hav⟩ := hnb
  by_cases h : nb.cons.version < f.version
  · rw [if_pos h]
    constructor
    · refine ⟨hac, rfl, hai, show f.index ≤ NE by omega, Or.inr ⟨hfc, by rw [hfi]; omega⟩, hav⟩
    · refine ⟨fieldLe_refl _, fieldLe_refl _, ?_, Or.inl h⟩
      rw [hrc]
      exact Or.inl h
  · rw [if_neg h]
    exact ⟨⟨hac, hrc, hai, hci, hcc, hav⟩, cursorsLe_refl _⟩

/-- `advance_phead` preserves the queue invariant, the ring size, and only
ever raises block cursors. -/
theorem advance_phead_inv (NE : Nat) (q : Queue) (ph : Field) (hq : QueueInv NE q) :
    QueueInv NE (advance_phead NE q ph).2 ∧
    (advance_phead NE q ph).2.blocks.length = q.blocks.length ∧
    (∀ i, cursorsLe (q.blocks.getD i defaultBlock)
      ((advance_phead NE q ph).2.blocks.getD i defaultBlock)) := by
  rw [advance_phead]
  by_cases hc : (q.blocks.getD ((ph.index + 1) % q.blocks.length) defaultBlock).cons.version < ph.version ∨
      ((q.blocks.getD ((ph.index + 1) % q.blocks.length) defaultBlock).cons.version = ph.version ∧
       (q.blocks.getD ((ph.index + 1) % q.blocks.length) defaultBlock).cons.index ≠ NE)
  · rw [if_pos hc]
    simp only []
    by_cases hr : (q.blocks.getD ((ph.index + 1) % q.blocks.length) defaultBlock).resv.index =
        (q.blocks.getD ((ph.index + 1) % q.blocks.length) defaultBlock).cons.index
    · rw [if_pos hr]
      exact ⟨hq, rfl, fun i => cursorsLe_refl _⟩
    · rw [if_neg hr]
      exact ⟨hq, rfl, fun i => cursorsLe_refl _⟩
  · rw [if_neg hc]
    simp only [List.length_set]
    by_cases hin : (ph.index + 1) % q.blocks.length < q.blocks.length
    case neg =>
      rw [List.set_eq_of_length_le (by omega)]
      exact ⟨hq, by trivial, fun i => cursorsLe_refl _⟩
    case pos =>
      have hnb : BlockInv NE (q.blocks.getD ((ph.index + 1) % q.blocks.length) defaultBlock) :=
        hq _ (list_getD_mem _ _ _ hin)
      rw [pstamp_eq _ _ hnb.1]
      have hst := pstamp_inv NE (q.blocks.getD ((ph.index + 1) % q.blocks.length) defaultBlock)
        (mkField (ph.version + 1) 0) hnb (by simp [mkField]) (Nat.mod_lt _ (by norm_num))
      refine ⟨?_, by trivial, ?_⟩
      · intro bl hbl
        exact queueInv_set NE q _ _ hq hst.1 bl hbl
      · intro i
        by_cases hi : i = (ph.index + 1) % q.blocks.length
        · rw [hi]
          rw [list_getD_set_self _ _ _ _ hin]
          exact hst.2
        · rw [list_getD_set_ne _ _ _ _ _ (by omega)]
          exact cursorsLe_refl _

end BBQ

namespace BBQ

/-- `advance_chead` preserves the queue invariant, the ring size, and only
ever raises block cursors. -/
theorem advance_chead_inv (NE ver : Nat) (q : Queue) (ch : Field) (hq : QueueInv NE q) :
    QueueInv NE (advance_chead NE q ch ver).2 ∧
    (advance_chead NE q ch ver).2.blocks.length = q.blocks.length ∧
    (∀ i, cursorsLe (q.blocks.getD i defaultBlock)
      ((advance_chead NE q ch ver).2.blocks.getD i defaultBlock)) := by
  rw [advance_chead]
  by_cases hc : (q.blocks.getD ((ch.index + 1) % q.blocks.length) defaultBlock).comm.version ≠ ch.version + 1
  · rw [if_pos hc]
    exact ⟨hq, rfl, fun i => cursorsLe_refl _⟩
  · rw [if_neg hc]
    simp only [List.length_set]
    by_cases hin : (ch.index + 1) % q.blocks.length < q.blocks.length
    case neg =>
      rw [List.set_eq_of_length_le (by omega)]
      exact ⟨hq, by trivial, fun i => cursorsLe_refl _⟩
    case pos =>
      have hnb : BlockInv NE (q.blocks.getD ((ch.index + 1) % q.blocks.length) defaultBlock) :=
        hq _ (list_getD_mem _ _ _ hin)
      rw [cstamp_eq _ _ hnb.2.1]
      have hver : (q.blocks.getD ((ch.index + 1) % q.blocks.length) defaultBlock).comm.version =
          ch.version + 1 := by omega
      have hcv : (q.blocks.getD ((ch.index + 1) % q.blocks.length) defaultBlock).comm.version <
          2 ^ VERSION_BITS := by
        have h1 := hnb.1
        have h2 := hnb.2.2.2.2.2
        rw [← h1]
        exact h2
      have hfver : (mkField (ch.version + 1) 0).version =
          (q.blocks.getD ((ch.index + 1) % q.blocks.length) defaultBlock).comm.version := by
        simp only [mkField]
        rw [hver]
        exact Nat.mod_eq_of_lt (by omega)
      have hst := cstamp_inv NE (q.blocks.getD ((ch.index + 1) % q.blocks.length) defaultBlock)
        (mkField (ch.version + 1) 0) hnb (by simp [mkField]) hfver
      refine ⟨?_, by trivial, ?_⟩
      · intro bl hbl
        exact queueInv_set NE q _ _ hq hst.1 bl hbl
      · intro i
        by_cases hi : i = (ch.index + 1) % q.blocks.length
        · rw [hi]
          rw [list_getD_set_self _ _ _ _ hin]
          exact hst.2
        · rw [list_getD_set_ne _ _ _ _ _ (by omega)]
          exact cursorsLe_refl _

end BBQ

namespace BBQ

/-- A successful allocate-and-commit step preserves the block invariant and
raises cursors. -/
theorem alloc_commit_inv (NE v : Nat) (b : Block) (hb : BlockInv NE b)
    (hNE : NE < 2 ^ INDEX_BITS) (hlt : b.alloc.index < NE) :
    BlockInv NE (commit_entry { b with alloc := b.alloc.add 1 } b.alloc.index v) ∧
    cursorsLe b (commit_entry { b with alloc := b.alloc.add 1 } b.alloc.index v) := by
  obtain ⟨hac, hrc, hai, hci, hcc, hav⟩ := hb
  have hvv : b.alloc.version = b.comm.version := by rw [hac]
  have hii : b.alloc.index = b.comm.index := by rw [hac]
  have hmod : (b.alloc.index + 1) % 2 ^ INDEX_BITS = b.alloc.index + 1 :=
    Nat.mod_eq_of_lt (by omega)
  have hmod2 : (b.comm.index + 1) % 2 ^ INDEX_BITS = b.comm.index + 1 :=
    Nat.mod_eq_of_lt (by omega)
  simp only [commit_entry, Field.add]
  constructor
  · refine ⟨?_, hrc, ?_, hci, ?_, ?_⟩
    · show (⟨b.alloc.version, (b.alloc.index + 1) % 2 ^ INDEX_BITS⟩ : Field) =
        ⟨b.comm.version, (b.comm.index + 1) % 2 ^ INDEX_BITS⟩
      rw [hmod, hmod2, hvv, hii]
    · show (b.alloc.index + 1) % 2 ^ INDEX_BITS ≤ NE
      omega
    · show fieldLe b.cons ⟨b.comm.version, (b.comm.index + 1) % 2 ^ INDEX_BITS⟩
      rcases hcc with h | ⟨h, h'⟩
      · exact Or.inl h
      · refine Or.inr ⟨h, ?_⟩
        show b.cons.index ≤ (b.comm.index + 1) % 2 ^ INDEX_BITS
        rw [hmod2]
        omega
    · show b.alloc.version < 2 ^ VERSION_BITS
      exact hav
  · refine ⟨?_, ?_, fieldLe_refl _, fieldLe_refl _⟩
    · refine Or.inr ⟨rfl, ?_⟩
      show b.alloc.index ≤ (b.alloc.index + 1) % 2 ^ INDEX_BITS
      rw [hmod]
      omega
    · refine Or.inr ⟨rfl, ?_⟩
      show b.comm.index ≤ (b.comm.index + 1) % 2 ^ INDEX_BITS
      rw [hmod2]
      omega

/-- A successful reserve-and-consume step preserves the block invariant and
raises cursors. -/
theorem resv_consume_inv (NE : Nat) (b : Block) (hb : BlockInv NE b)
    (hNE : NE < 2 ^ INDEX_BITS) (hlt : b.resv.index < NE)
    (hne : b.resv.index ≠ b.comm.index) :
    BlockInv NE
      ((consume_entry { b with resv := mkField b.resv.version (max b.resv.index (b.resv.index + 1)) }
        b.resv).2) ∧
    cursorsLe b
      ((consume_entry { b with resv := mkField b.resv.version (max b.resv.index (b.resv.index + 1)) }
        b.resv).2) := by
  obtain ⟨hac, hrc, hai, hci, hcc, hcv⟩ := hb
  have hvv : b.resv.version = b.cons.version := by rw [hrc]
  have hii : b.resv.index = b.cons.index := by rw [hrc]
  have hmax : max b.resv.index (b.resv.index + 1) = b.resv.index + 1 :=
    Nat.max_eq_right (Nat.le_succ _)
  have hmod : (b.resv.index + 1) % 2 ^ INDEX_BITS = b.resv.index + 1 :=
    Nat.mod_eq_of_lt (by omega)
  have hmod2 : (b.cons.index + 1) % 2 ^ INDEX_BITS = b.cons.index + 1 :=
    Nat.mod_eq_of_lt (by omega)
  simp only [consume_entry, Field.add, mkField, hmax]
  constructor
  · refine ⟨hac, ?_, hai, ?_, ?_, hcv⟩
    · show (⟨b.resv.version % 2 ^ VERSION_BITS, (b.resv.index + 1) % 2 ^ INDEX_BITS⟩ : Field) =
        ⟨b.cons.version, (b.cons.index + 1) % 2 ^ INDEX_BITS⟩
      have hrv : b.resv.version % 2 ^ VERSION_BITS = b.resv.version := by
        apply Nat.mod_eq_of_lt
        rcases hcc with h | ⟨h, h'⟩ <;> rw [hvv] <;> rw [← hac] at * <;> omega
      rw [hrv, hmod, hmod2, hvv, hii]
    · show (b.cons.index + 1) % 2 ^ INDEX_BITS ≤ NE
      omega
    · show fieldLe ⟨b.cons.version, (b.cons.index + 1) % 2 ^ INDEX_BITS⟩ b.comm
      rcases hcc with h | ⟨h, h'⟩
      · exact Or.inl h
      · refine Or.inr ⟨h, ?_⟩
        show (b.cons.index + 1) % 2 ^ INDEX_BITS ≤ b.comm.index
        rw [hmod2]
        omega
  · refine ⟨fieldLe_refl _, fieldLe_refl _, ?_, ?_⟩
    · refine Or.inr ⟨?_, ?_⟩
      · show b.resv.version = b.resv.version % 2 ^ VERSION_BITS
        symm
        apply Nat.mod_eq_of_lt
        rcases hcc with h | ⟨h, h'⟩ <;> rw [hvv] <;> rw [← hac] at * <;> omega
      · show b.resv.index ≤ (b.resv.index + 1) % 2 ^ INDEX_BITS
        omega
    · refine Or.inr ⟨rfl, ?_⟩
      show b.cons.index ≤ (b.cons.index + 1) % 2 ^ INDEX_BITS
      omega

end BBQ

namespace BBQ

/-- A complete `enqueue` call preserves the queue invariant, never changes
the ring size, and only raises block cursors. -/
theorem enqueue_inv (NE : Nat) (hNE : NE < 2 ^ INDEX_BITS) :
    ∀ (fuel : Nat) (q : Queue) (v : Nat) (r : Bool) (q2 : Queue), QueueInv NE q →
    enqueue NE fuel q v = some (r, q2) →
    QueueInv NE q2 ∧ q2.blocks.length = q.blocks.length ∧
    (∀ i, cursorsLe (q.blocks.getD i defaultBlock) (q2.blocks.getD i defaultBlock)) := by
  intro fuel
  induction fuel with
  | zero =>
    intro q v r q2 hq h
    simp [enqueue] at h
  | succ n ih =>
    intro q v r q2 hq h
    rw [enqueue] at h
    rw [allocate_entry_eq] at h
    by_cases hfull : NE ≤ (q.blocks.getD q.phead.index defaultBlock).alloc.index
    · rw [if_pos hfull] at h
      simp only [] at h
      have hq1 : (Queue.mk (q.blocks.set q.phead.index (q.blocks.getD q.phead.index defaultBlock)) q.phead q.chead) = q := by
        rw [list_set_getD_self]
      rw [hq1] at h
      rcases hadv : advance_phead NE q q.phead with ⟨st, q2'⟩
      rw [hadv] at h
      have hai := advance_phead_inv NE q q.phead hq
      rw [hadv] at hai
      cases st
      · simp only [Option.some.injEq, Prod.mk.injEq] at h
        rw [← h.2]
        exact hai
      · simp only [Option.some.injEq, Prod.mk.injEq] at h
        rw [← h.2]
        exact hai
      · simp only [] at h
        obtain ⟨hinv2, hlen2, hmono2⟩ := ih q2' v r q2 hai.1 h
        have h2 : q2'.blocks.length = q.blocks.length := hai.2.1
        have h3 : ∀ i, cursorsLe (q.blocks.getD i defaultBlock) (q2'.blocks.getD i defaultBlock) := hai.2.2
        refine ⟨hinv2, by omega, fun i => cursorsLe_trans (h3 i) (hmono2 i)⟩
      · simp only [Option.some.injEq, Prod.mk.injEq] at h
        rw [← h.2]
        exact hai
    · rw [if_neg hfull] at h
      simp only [] at h
      simp only [Option.some.injEq, Prod.mk.injEq] at h
      obtain ⟨hr, hq2⟩ := h
      by_cases hin : q.phead.index < q.blocks.length
      case neg =>
        rw [← hq2]
        rw [List.set_eq_of_length_le (by omega)]
        exact ⟨hq, by trivial, fun i => cursorsLe_refl _⟩
      case pos =>
        have hb : BlockInv NE (q.blocks.getD q.phead.index defaultBlock) :=
          hq _ (list_getD_mem _ _ _ hin)
        have hstep := alloc_commit_inv NE v (q.blocks.getD q.phead.index defaultBlock) hb hNE
          (by omega)
        rw [← hq2]
        refine ⟨?_, by simp, ?_⟩
        · intro bl hbl
          exact queueInv_set NE q _ _ hq hstep.1 bl hbl
        · intro i
          by_cases hi : i = q.phead.index
          · rw [hi]
            rw [list_getD_set_self _ _ _ _ hin]
            exact hstep.2
          · rw [list_getD_set_ne _ _ _ _ _ (by omega)]
            exact cursorsLe_refl _

end BBQ

namespace BBQ

/-- A complete `dequeue` call preserves the queue invariant, never changes
the ring size, and only raises block cursors. -/
theorem dequeue_inv (NE : Nat) (hNE : NE < 2 ^ INDEX_BITS) :
    ∀ (fuel : Nat) (q : Queue) (r : Option Nat) (q2 : Queue), QueueInv NE q →
    dequeue NE fuel q = some (r, q2) →
    QueueInv NE q2 ∧ q2.blocks.length = q.blocks.length ∧
    (∀ i, cursorsLe (q.blocks.getD i defaultBlock) (q2.blocks.getD i defaultBlock)) := by
  intro fuel
  induction fuel with
  | zero =>
    intro q r q2 hq h
    simp [dequeue] at h
  | succ n ih =>
    intro q r q2 hq h
    rw [dequeue] at h
    rw [reserve_entry_eq] at h
    by_cases h1 : (q.blocks.getD q.chead.index defaultBlock).resv.index < NE
    · rw [if_pos h1] at h
      by_cases h2 : (q.blocks.getD q.chead.index defaultBlock).resv.index =
          (q.blocks.getD q.chead.index defaultBlock).comm.index
      · rw [if_pos h2] at h
        simp only [] at h
        simp only [Option.some.injEq, Prod.mk.injEq] at h
        have hq1 : (Queue.mk (q.blocks.set q.chead.index (q.blocks.getD q.chead.index defaultBlock)) q.phead q.chead) = q := by
          rw [list_set_getD_self]
        rw [hq1] at h
        rw [← h.2]
        exact ⟨hq, rfl, fun i => cursorsLe_refl _⟩
      · rw [if_neg h2] at h
        by_cases h3 : (q.blocks.getD q.chead.index defaultBlock).comm.index ≠ NE ∧
            (q.blocks.getD q.chead.index defaultBlock).alloc.index ≠
              (q.blocks.getD q.chead.index defaultBlock).comm.index
        · rw [if_pos h3] at h
          simp only [] at h
          simp only [Option.some.injEq, Prod.mk.injEq] at h
          have hq1 : (Queue.mk (q.blocks.set q.chead.index (q.blocks.getD q.chead.index defaultBlock)) q.phead q.chead) = q := by
            rw [list_set_getD_self]
          rw [hq1] at h
          rw [← h.2]
          exact ⟨hq, rfl, fun i => cursorsLe_refl _⟩
        · rw [if_neg h3] at h
          have hch : q.chead.index < q.blocks.length := by
            by_contra hc
            rw [list_getD_of_le _ _ _ (by omega)] at h2
            simp [defaultBlock] at h2
          simp only [consume_entry] at h
          simp only [Option.some.injEq, Prod.mk.injEq] at h
          obtain ⟨hr, hq2⟩ := h
          have hb : BlockInv NE (q.blocks.getD q.chead.index defaultBlock) :=
            hq _ (list_getD_mem _ _ _ hch)
          have hstep := resv_consume_inv NE (q.blocks.getD q.chead.index defaultBlock) hb hNE h1 h2
          simp only [consume_entry] at hstep
          rw [← hq2]
          refine ⟨?_, by simp, ?_⟩
          · intro bl hbl
            simp only [List.set_set] at hbl ⊢
            exact queueInv_set NE q _ _ hq hstep.1 bl hbl
          · intro i
            simp only [List.set_set]
            by_cases hi : i = q.chead.index
            · rw [hi]
              rw [list_getD_set_self _ _ _ _ hch]
              exact hstep.2
            · rw [list_getD_set_ne _ _ _ _ _ (by omega)]
              exact cursorsLe_refl _
    · rw [if_neg h1] at h
      simp only [] at h
      have hq1 : (Queue.mk (q.blocks.set q.chead.index (q.blocks.getD q.chead.index defaultBlock)) q.phead q.chead) = q := by
        rw [list_set_getD_self]
      rw [hq1] at h
      rcases hadv : advance_chead NE q q.chead (q.blocks.getD q.chead.index defaultBlock).resv.version
        with ⟨ok, q2'⟩
      rw [hadv] at h
      have hai := advance_chead_inv NE (q.blocks.getD q.chead.index defaultBlock).resv.version q
        q.chead hq
      rw [hadv] at hai
      cases ok
      · simp only [Option.some.injEq, Prod.mk.injEq] at h
        rw [← h.2]
        exact hai
      · simp only [] at h
        obtain ⟨hinv2, hlen2, hmono2⟩ := ih q2' r q2 hai.1 h
        have h2 : q2'.blocks.length = q.blocks.length := hai.2.1
        have h3 : ∀ i, cursorsLe (q.blocks.getD i defaultBlock) (q2'.blocks.getD i defaultBlock) := hai.2.2
        refine ⟨hinv2, by omega, fun i => cursorsLe_trans (h3 i) (hmono2 i)⟩

end BBQ

namespace BBQ

/-- Running any list of complete calls from an invariant state keeps the
invariant. -/
theorem runOps_inv (NE : Nat) (hNE : NE < 2 ^ INDEX_BITS) :
    ∀ (ops : List Op) (fuel : Nat) (q : Queue) (q2 : Queue) (acc outs : List Nat), QueueInv NE q →
    runOps NE fuel q ops = some (q2, acc, outs) → QueueInv NE q2 := by
  intro ops
  induction ops with
  | nil =>
    intro fuel q q2 acc outs hq h
    simp only [runOps, Option.some.injEq, Prod.mk.injEq] at h
    rw [← h.1]
    exact hq
  | cons op rest ih =>
    intro fuel q q2 acc outs hq h
    cases op with
    | enq v =>
      rw [runOps] at h
      rcases he : enqueue NE fuel q v with _ | ⟨ok, q1⟩
      · rw [he] at h
        simp at h
      · rw [he] at h
        simp only [] at h
        have h1 := (enqueue_inv NE hNE fuel q v ok q1 hq he).1
        rcases hrun : runOps NE fuel q1 rest with _ | ⟨⟨q3, acc3, outs3⟩⟩
        · rw [hrun] at h
          simp at h
        · rw [hrun] at h
          simp only [Option.some.injEq, Prod.mk.injEq] at h
          rw [← h.1]
          exact ih fuel q1 q3 acc3 outs3 h1 hrun
    | deq =>
      rw [runOps] at h
      rcases he : dequeue NE fuel q with _ | ⟨res, q1⟩
      · rw [he] at h
        simp at h
      · rw [he] at h
        simp only [] at h
        have h1 := (dequeue_inv NE hNE fuel q res q1 hq he).1
        rcases hrun : runOps NE fuel q1 rest with _ | ⟨⟨q3, acc3, outs3⟩⟩
        · rw [hrun] at h
          simp at h
        · rw [hrun] at h
          simp only [Option.some.injEq, Prod.mk.injEq] at h
          rw [← h.1]
          exact ih fuel q1 q3 acc3 outs3 h1 hrun

/-- The fresh queue satisfies the invariant. -/
theorem queueInv_init (NE B : Nat) (hNE : NE < 2 ^ INDEX_BITS) :
    QueueInv NE (Queue.mkInit NE B) := by
  intro bl hbl
  simp only [Queue.mkInit] at hbl
  rw [List.mem_ofFn] at hbl
  obtain ⟨i, hi⟩ := hbl
  have hmk : ∀ idx : Nat, idx ≤ NE → BlockInv NE (Block.init NE idx) := by
    intro idx hidx
    have hmod : idx % 2 ^ INDEX_BITS = idx := Nat.mod_eq_of_lt (by omega)
    refine ⟨rfl, rfl, ?_, ?_, ?_, ?_⟩
    · show idx % 2 ^ INDEX_BITS ≤ NE
      omega
    · show idx % 2 ^ INDEX_BITS ≤ NE
      omega
    · exact Or.inr ⟨rfl, le_refl _⟩
    · show (0 : Nat) % 2 ^ VERSION_BITS < 2 ^ VERSION_BITS
      exact Nat.mod_lt _ (by norm_num)
  rw [← hi]
  simp only []
  split
  · exact hmk 0 (by omega)
  · exact hmk NE (by omega)

end BBQ

namespace BBQ

/-- C7: in every state reachable from a fresh queue, every block satisfies
the cursor chain `cons ≤ resv`, `comm ≤ alloc`, `alloc ≤ NE` (and
`resv ≤ comm` within a generation), and every complete call only advances
the four cursors of every block in generation-then-position order. -/
theorem C7_cursor_chain_monotone (NE B fuel : Nat) (ops : List Op)
    (hNE : NE < 2 ^ INDEX_BITS) (q : Queue) (acc outs : List Nat)
    (hrun : runOps NE fuel (Queue.mkInit NE B) ops = some (q, acc, outs)) :
    (∀ b ∈ q.blocks,
       b.cons.index ≤ b.resv.index ∧ b.comm.index ≤ b.alloc.index ∧ b.alloc.index ≤ NE ∧
       (b.resv.version = b.comm.version → b.resv.index ≤ b.comm.index)) ∧
    (∀ (k v : Nat) (r : Bool) (q2 : Queue), enqueue NE k q v = some (r, q2) →
       ∀ i, cursorsLe (q.blocks.getD i defaultBlock) (q2.blocks.getD i defaultBlock)) ∧
    (∀ (k : Nat) (r : Option Nat) (q2 : Queue), dequeue NE k q = some (r, q2) →
       ∀ i, cursorsLe (q.blocks.getD i defaultBlock) (q2.blocks.getD i defaultBlock)) := by
  have hinv : QueueInv NE q :=
    runOps_inv NE hNE ops fuel (Queue.mkInit NE B) q acc outs (queueInv_init NE B hNE) hrun
  refine ⟨?_, ?_, ?_⟩
  · intro b hb
    obtain ⟨hac, hrc, hai, hci, hcc, hav⟩ := hinv b hb
    refine ⟨Nat.le_of_eq (by rw [hrc]), Nat.le_of_eq (by rw [hac]), hai, ?_⟩
    intro hv
    rw [hrc] at hv ⊢
    rcases hcc with h | ⟨h, h'⟩
    · omega
    · exact h'
  · intro k v r q2 he
    exact (enqueue_inv NE hNE k q v r q2 hinv he).2.2
  · intro k r q2 hd
    exact (dequeue_inv NE hNE k q r q2 hinv hd).2.2

/-- C7 witness: the cursor chain on block 0 of the fresh 4-by-4 queue. -/
theorem C7_cursor_chain_monotone_witness :
    (Block.init 4 0).cons.index ≤ (Block.init 4 0).resv.index ∧
    (Block.init 4 0).comm.index ≤ (Block.init 4 0).alloc.index ∧
    (Block.init 4 0).alloc.index ≤ 4 ∧
    ((Block.init 4 0).resv.version = (Block.init 4 0).comm.version →
      (Block.init 4 0).resv.index ≤ (Block.init 4 0).comm.index) :=
  (C7_cursor_chain_monotone 4 4 2 [] (by decide) (Queue.mkInit 4 4) [] [] rfl).1
    (Block.init 4 0) (by decide)

end BBQ

namespace BBQ

theorem glob_le (m : Nat) (a b : Pos) (hblk : a.blk < m) (hpos : a.pos ≤ m)
    (h : a.lexLe b) : a.glob m ≤ b.glob m := by
  rcases h with h | ⟨h1, h | ⟨h2, h3⟩⟩
  · calc (a.lap * m + a.blk) * m + a.pos
        ≤ (a.lap * m + a.blk) * m + m := by omega
      _ = (a.lap * m + a.blk + 1) * m := by ring
      _ ≤ (a.lap * m + m) * m := mul_le_mul_right' (by omega) m
      _ = ((a.lap + 1) * m) * m := by ring
      _ ≤ (b.lap * m) * m := mul_le_mul_right' (mul_le_mul_right' (by omega) m) m
      _ ≤ (b.lap * m + b.blk) * m := mul_le_mul_right' (by omega) m
      _ ≤ (b.lap * m + b.blk) * m + b.pos := Nat.le_add_right _ _
  · rw [Pos.glob, Pos.glob, h1]
    calc (b.lap * m + a.blk) * m + a.pos
        ≤ (b.lap * m + a.blk) * m + m := by omega
      _ = (b.lap * m + a.blk + 1) * m := by ring
      _ ≤ (b.lap * m + b.blk) * m := mul_le_mul_right' (by omega) m
      _ ≤ (b.lap * m + b.blk) * m + b.pos := Nat.le_add_right _ _
  · rw [Pos.glob, Pos.glob, h1, h2]
    omega

theorem glob_lt (m : Nat) (a b : Pos) (hblk : a.blk < m) (hpos : a.pos < m)
    (h : a.lexLt b) : a.glob m < b.glob m := by
  rcases h with h | ⟨h1, h | ⟨h2, h3⟩⟩
  · calc (a.lap * m + a.blk) * m + a.pos
        < (a.lap * m + a.blk) * m + m := by omega
      _ = (a.lap * m + a.blk + 1) * m := by ring
      _ ≤ (a.lap * m + m) * m := mul_le_mul_right' (by omega) m
      _ = ((a.lap + 1) * m) * m := by ring
      _ ≤ (b.lap * m) * m := mul_le_mul_right' (mul_le_mul_right' (by omega) m) m
      _ ≤ (b.lap * m + b.blk) * m := mul_le_mul_right' (by omega) m
      _ ≤ (b.lap * m + b.blk) * m + b.pos := Nat.le_add_right _ _
  · rw [Pos.glob, Pos.glob, h1]
    calc (b.lap * m + a.blk) * m + a.pos
        < (b.lap * m + a.blk) * m + m := by omega
      _ = (b.lap * m + a.blk + 1) * m := by ring
      _ ≤ (b.lap * m + b.blk) * m := mul_le_mul_right' (by omega) m
      _ ≤ (b.lap * m + b.blk) * m + b.pos := Nat.le_add_right _ _
  · rw [Pos.glob, Pos.glob, h1, h2]
    omega

theorem lex_total (a b : Pos) : a.lexLe b ∨ b.lexLt a := by
  rw [Pos.lexLe, Pos.lexLt]
  omega

theorem lexLt_of_glob_lt (m : Nat) (a b : Pos) (hblk : b.blk < m) (hpos : b.pos ≤ m)
    (h : a.glob m < b.glob m) : a.lexLt b := by
  rcases lex_total b a with hle | hlt
  · have := glob_le m b a hblk hpos hle
    omega
  · exact hlt

theorem lexLe_of_glob_le (m : Nat) (a b : Pos) (hblk : b.blk < m) (hpos : b.pos < m)
    (h : a.glob m ≤ b.glob m) : a.lexLe b := by
  rcases lex_total a b with hle | hlt
  · exact hle
  · have := glob_lt m b a hblk hpos hlt
    omega

theorem list_getD_append {α : Type} (E l : List α) (g : Nat) (d : α) (h : g < E.length) :
    (E ++ l).getD g d = E.getD g d := by
  rw [List.getD_eq_getElem?_getD, List.getD_eq_getElem?_getD]
  rw [List.getElem?_append_left h]

theorem list_getD_concat_self {α : Type} (E : List α) (v : α) (d : α) :
    (E ++ [v]).getD E.length d = v := by
  rw [List.getD_eq_getElem?_getD]
  rw [List.getElem?_concat_length]
  rfl

end BBQ

namespace BBQ

/-- One non-full `enqueue` iteration in closed form. -/
theorem enqueue_succ_eq (NE k v : Nat) (q : Queue)
    (hlt : ¬ NE ≤ (q.blocks.getD q.phead.index defaultBlock).alloc.index) :
    enqueue NE (k + 1) q v =
      some (true, Queue.mk
        (q.blocks.set q.phead.index
          (commit_entry
            { q.blocks.getD q.phead.index defaultBlock with
                alloc := (q.blocks.getD q.phead.index defaultBlock).alloc.add 1 }
            (q.blocks.getD q.phead.index defaultBlock).alloc.index v))
        q.phead q.chead) := by
  rw [enqueue, allocate_entry_eq, if_neg hlt]

/-- A full-block `enqueue` iteration defers to `advance_phead` and either
retries or gives up. -/
theorem enqueue_full_eq (NE k v : Nat) (q : Queue)
    (hfull : NE ≤ (q.blocks.getD q.phead.index defaultBlock).alloc.index) :
    enqueue NE (k + 1) q v =
      (match advance_phead NE q q.phead with
       | (RetStatus.SUCCESS, q2) => enqueue NE k q2 v
       | (_, q2) => some (false, q2)) := by
  rw [enqueue, allocate_entry_eq, if_pos hfull]
  have hq1 : (Queue.mk (q.blocks.set q.phead.index (q.blocks.getD q.phead.index defaultBlock))
      q.phead q.chead) = q := by
    rw [list_set_getD_self]
  simp only [hq1]

/-- `advance_phead` in closed form when the next ring block is reusable. -/
theorem advance_phead_success_eq (NE : Nat) (q : Queue) (ph : Field)
    (hok : ¬((q.blocks.getD ((ph.index + 1) % q.blocks.length) defaultBlock).cons.version < ph.version ∨
      ((q.blocks.getD ((ph.index + 1) % q.blocks.length) defaultBlock).cons.version = ph.version ∧
       (q.blocks.getD ((ph.index + 1) % q.blocks.length) defaultBlock).cons.index ≠ NE)))
    (hac : (q.blocks.getD ((ph.index + 1) % q.blocks.length) defaultBlock).alloc =
           (q.blocks.getD ((ph.index + 1) % q.blocks.length) defaultBlock).comm) :
    advance_phead NE q ph =
      (RetStatus.SUCCESS, Queue.mk
        (q.blocks.set ((ph.index + 1) % q.blocks.length)
          (if (q.blocks.getD ((ph.index + 1) % q.blocks.length) defaultBlock).alloc.version <
              (mkField (ph.version + 1) 0).version then
            { q.blocks.getD ((ph.index + 1) % q.blocks.length) defaultBlock with
                alloc := mkField (ph.version + 1) 0, comm := mkField (ph.version + 1) 0 }
          else q.blocks.getD ((ph.index + 1) % q.blocks.length) defaultBlock))
        (advanceHead ph NE) q.chead) := by
  rw [advance_phead, if_neg hok]
  simp only []
  by_cases hst : (q.blocks.getD ((ph.index + 1) % q.blocks.length) defaultBlock).alloc.version <
      (mkField (ph.version + 1) 0).version
  · rw [if_pos hst]
    rw [if_pos (show (q.blocks.getD ((ph.index + 1) % q.blocks.length) defaultBlock).comm.version <
        (mkField (ph.version + 1) 0).version by rw [← hac]; exact hst)]
    rw [if_pos hst]
  · rw [if_neg hst]
    rw [if_neg (show ¬(q.blocks.getD ((ph.index + 1) % q.blocks.length) defaultBlock).comm.version <
        (mkField (ph.version + 1) 0).version by rw [← hac]; exact hst)]
    rw [if_neg hst]

/-- `advance_phead` in closed form when the next ring block is not reusable. -/
theorem advance_phead_blocked_eq (NE : Nat) (q : Queue) (ph : Field)
    (hblocked : (q.blocks.getD ((ph.index + 1) % q.blocks.length) defaultBlock).cons.version < ph.version ∨
      ((q.blocks.getD ((ph.index + 1) % q.blocks.length) defaultBlock).cons.version = ph.version ∧
       (q.blocks.getD ((ph.index + 1) % q.blocks.length) defaultBlock).cons.index ≠ NE)) :
    advance_phead NE q ph =
      ((if (q.blocks.getD ((ph.index + 1) % q.blocks.length) defaultBlock).resv.index =
          (q.blocks.getD ((ph.index + 1) % q.blocks.length) defaultBlock).cons.index then
         RetStatus.NO_ENTRY else RetStatus.NOT_AVAILABLE), q) := by
  rw [advance_phead, if_pos hblocked]
  split
  · rename_i h
    rw [if_pos h]
  · rename_i h
    rw [if_neg h]

end BBQ

namespace BBQ

/-- One successful reserve-and-consume `dequeue` iteration in closed form. -/
theorem dequeue_succ_eq (NE k : Nat) (q : Queue)
    (h1 : (q.blocks.getD q.chead.index defaultBlock).resv.index < NE)
    (h2 : (q.blocks.getD q.chead.index defaultBlock).resv.index ≠
          (q.blocks.getD q.chead.index defaultBlock).comm.index)
    (h3 : ¬((q.blocks.getD q.chead.index defaultBlock).comm.index ≠ NE ∧
            (q.blocks.getD q.chead.index defaultBlock).alloc.index ≠
            (q.blocks.getD q.chead.index defaultBlock).comm.index)) :
    dequeue NE (k + 1) q =
      some (some ((q.blocks.getD q.chead.index defaultBlock).data.getD
                    (q.blocks.getD q.chead.index defaultBlock).resv.index 0),
        Queue.mk
          (q.blocks.set q.chead.index
            ((consume_entry
              { q.blocks.getD q.chead.index defaultBlock with
                  resv := mkField (q.blocks.getD q.chead.index defaultBlock).resv.version
                    (max (q.blocks.getD q.chead.index defaultBlock).resv.index
                         ((q.blocks.getD q.chead.index defaultBlock).resv.index + 1)) }
              (q.blocks.getD q.chead.index defaultBlock).resv).2))
          q.phead q.chead) := by
  rw [dequeue, reserve_entry_eq, if_pos h1, if_neg h2, if_neg h3]
  simp only [List.set_set]
  rfl

/-- An empty reserve step: `dequeue` returns `false` and changes nothing. -/
theorem dequeue_noentry_eq (NE k : Nat) (q : Queue)
    (h1 : (q.blocks.getD q.chead.index defaultBlock).resv.index < NE)
    (h2 : (q.blocks.getD q.chead.index defaultBlock).resv.index =
          (q.blocks.getD q.chead.index defaultBlock).comm.index) :
    dequeue NE (k + 1) q = some (none, q) := by
  rw [dequeue, reserve_entry_eq, if_pos h1, if_pos h2]
  have hq1 : (Queue.mk (q.blocks.set q.chead.index (q.blocks.getD q.chead.index defaultBlock))
      q.phead q.chead) = q := by
    rw [list_set_getD_self]
  simp only [hq1]

/-- A finished consumer block: `dequeue` defers to `advance_chead`. -/
theorem dequeue_bd_eq (NE k : Nat) (q : Queue)
    (h1 : ¬(q.blocks.getD q.chead.index defaultBlock).resv.index < NE) :
    dequeue NE (k + 1) q =
      (match advance_chead NE q q.chead (q.blocks.getD q.chead.index defaultBlock).resv.version with
       | (true, q2) => dequeue NE k q2
       | (false, q2) => some (none, q2)) := by
  rw [dequeue, reserve_entry_eq, if_neg h1]
  have hq1 : (Queue.mk (q.blocks.set q.chead.index (q.blocks.getD q.chead.index defaultBlock))
      q.phead q.chead) = q := by
    rw [list_set_getD_self]
  simp only [hq1]

/-- `advance_chead` in closed form when the next block is committed for the
expected generation. -/
theorem advance_chead_success_eq (NE ver : Nat) (q : Queue) (ch : Field)
    (hok : (q.blocks.getD ((ch.index + 1) % q.blocks.length) defaultBlock).comm.version = ch.version + 1)
    (hrc : (q.blocks.getD ((ch.index + 1) % q.blocks.length) defaultBlock).resv =
           (q.blocks.getD ((ch.index + 1) % q.blocks.length) defaultBlock).cons) :
    advance_chead NE q ch ver =
      (true, Queue.mk
        (q.blocks.set ((ch.index + 1) % q.blocks.length)
          (if (q.blocks.getD ((ch.index + 1) % q.blocks.length) defaultBlock).cons.version <
              (mkField (ch.version + 1) 0).version then
            { q.blocks.getD ((ch.index + 1) % q.blocks.length) defaultBlock with
                cons := mkField (ch.version + 1) 0, resv := mkField (ch.version + 1) 0 }
          else q.blocks.getD ((ch.index + 1) % q.blocks.length) defaultBlock))
        q.phead (advanceHead ch NE)) := by
  rw [advance_chead, if_neg (by omega)]
  simp only []
  by_cases hst : (q.blocks.getD ((ch.index + 1) % q.blocks.length) defaultBlock).cons.version <
      (mkField (ch.version + 1) 0).version
  · rw [if_pos hst]
    rw [if_pos (show (q.blocks.getD ((ch.index + 1) % q.blocks.length) defaultBlock).resv.version <
        (mkField (ch.version + 1) 0).version by rw [hrc]; exact hst)]
    rw [if_pos hst]
  · rw [if_neg hst]
    rw [if_neg (show ¬(q.blocks.getD ((ch.index + 1) % q.blocks.length) defaultBlock).resv.version <
        (mkField (ch.version + 1) 0).version by rw [hrc]; exact hst)]
    rw [if_neg hst]

/-- `advance_chead` fails when the next block's committed generation is not
the expected one. -/
theorem advance_chead_failed_eq (NE ver : Nat) (q : Queue) (ch : Field)
    (hne : (q.blocks.getD ((ch.index + 1) % q.blocks.length) defaultBlock).comm.version ≠ ch.version + 1) :
    advance_chead NE q ch ver = (false, q) := by
  rw [advance_chead, if_pos hne]

end BBQ

namespace BBQ

theorem mkState_getD (m : Nat) (E : List Nat) (P C : Pos) (j : Nat) (hj : j < m) :
    (mkState m E P C).blocks.getD j defaultBlock = mkBlock m E P C j := by
  simp only [mkState]
  rw [list_getD_ofFn _ _ _ hj]

theorem mkState_phead (m : Nat) (E : List Nat) (P C : Pos) :
    (mkState m E P C).phead = ⟨P.lap, P.blk⟩ := rfl

theorem mkState_chead (m : Nat) (E : List Nat) (P C : Pos) :
    (mkState m E P C).chead = ⟨C.lap, C.blk⟩ := rfl

theorem mkState_length (m : Nat) (E : List Nat) (P C : Pos) :
    (mkState m E P C).blocks.length = m := by
  simp [mkState]

/-- `pcur` does not depend on the position for other blocks. -/
theorem pcur_other (m : Nat) (P : Pos) (j x : Nat) (hj : j ≠ P.blk) :
    pcur m ⟨P.lap, P.blk, x⟩ j = pcur m P j := by
  simp only [pcur]
  split_ifs <;> first | rfl | omega

theorem pcur_cur (m : Nat) (P : Pos) :
    pcur m P P.blk = ⟨if P.blk = 0 then P.lap else P.lap + 1, P.pos⟩ := by
  simp [pcur]

/-- Mid-block write: the current block's slots, other than the one written,
are unchanged, and the written one takes the new value. -/
theorem slotVal_write_cur (m v : Nat) (E : List Nat) (P : Pos) (d p : Nat)
    (hm : 1 ≤ m) (hPb : P.blk < m) (hPp : P.pos < m) (hp : p < m)
    (hE : E.length = P.glob m) (hd : d ≤ P.glob m) :
    slotVal m (E ++ [v]) d ⟨P.lap, P.blk, P.pos + 1⟩ P.blk p =
      if p = P.pos then v else slotVal m E d P P.blk p := by
  by_cases hpp : p = P.pos
  · rw [if_pos hpp]
    rw [slotVal, if_pos (by right; exact ⟨rfl, by show p < P.pos + 1; omega⟩)]
    have hg : (P.lap * m + P.blk) * m + p = P.glob m := by
      rw [Pos.glob, hpp]
    rw [hg, if_pos hd, ← hE, list_getD_concat_self]
  · rw [if_neg hpp]
    by_cases hlt : p < P.pos
    · have hc1 : (P.blk < P.blk ∨ (P.blk = P.blk ∧ p < P.pos + 1)) := by omega
      have hc2 : (P.blk < P.blk ∨ (P.blk = P.blk ∧ p < P.pos)) := by omega
      rw [slotVal, if_pos hc1, slotVal, if_pos hc2]
      have hglt : (P.lap * m + P.blk) * m + p < E.length := by
        rw [hE]
        exact glob_lt m ⟨P.lap, P.blk, p⟩ P hPb hp (Or.inr ⟨rfl, Or.inr ⟨rfl, hlt⟩⟩)
      rw [list_getD_append _ _ _ _ hglt]
    · have hc1 : ¬(P.blk < P.blk ∨ (P.blk = P.blk ∧ p < P.pos + 1)) := by omega
      have hc2 : ¬(P.blk < P.blk ∨ (P.blk = P.blk ∧ p < P.pos)) := by omega
      rw [slotVal, if_neg hc1, slotVal, if_neg hc2]
      by_cases hlap : 1 ≤ P.lap
      · rw [if_pos hlap, if_pos hlap]
        have hglt : ((P.lap - 1) * m + P.blk) * m + p < E.length := by
          rw [hE]
          exact glob_lt m ⟨P.lap - 1, P.blk, p⟩ P hPb hp (by left; show P.lap - 1 < P.lap; omega)
        rw [list_getD_append _ _ _ _ hglt]
      · rw [if_neg hlap, if_neg hlap]

/-- Mid-block write: the other blocks' slots are unchanged. -/
theorem slotVal_write_other (m v : Nat) (E : List Nat) (P : Pos) (d j p : Nat)
    (hm : 1 ≤ m) (hPb : P.blk < m) (hj : j < m) (hjne : j ≠ P.blk) (hp : p < m)
    (hE : E.length = P.glob m) :
    slotVal m (E ++ [v]) d ⟨P.lap, P.blk, P.pos + 1⟩ j p = slotVal m E d P j p := by
  by_cases hlt : j < P.blk
  · have hc1 : (j < P.blk ∨ (j = P.blk ∧ p < P.pos + 1)) := by omega
    have hc2 : (j < P.blk ∨ (j = P.blk ∧ p < P.pos)) := by omega
    rw [slotVal, if_pos hc1, slotVal, if_pos hc2]
    have hglt : (P.lap * m + j) * m + p < E.length := by
      rw [hE]
      exact glob_lt m ⟨P.lap, j, p⟩ P hj hp (Or.inr ⟨rfl, Or.inl hlt⟩)
    rw [list_getD_append _ _ _ _ hglt]
  · have hc1 : ¬(j < P.blk ∨ (j = P.blk ∧ p < P.pos + 1)) := by omega
    have hc2 : ¬(j < P.blk ∨ (j = P.blk ∧ p < P.pos)) := by omega
    rw [slotVal, if_neg hc1, slotVal, if_neg hc2]
    by_cases hlap : 1 ≤ P.lap
    · rw [if_pos hlap, if_pos hlap]
      have hglt : ((P.lap - 1) * m + j) * m + p < E.length := by
        rw [hE]
        exact glob_lt m ⟨P.lap - 1, j, p⟩ P hj hp (by left; show P.lap - 1 < P.lap; omega)
      rw [list_getD_append _ _ _ _ hglt]
    · rw [if_neg hlap, if_neg hlap]

end BBQ

namespace BBQ

/-- Bumping the current position by one bumps the current block's producer
cursor by one. -/
theorem pcur_bump (m : Nat) (P : Pos) (hm2 : m < 2 ^ INDEX_BITS) (hPp : P.pos < m) :
    pcur m ⟨P.lap, P.blk, P.pos + 1⟩ P.blk = (pcur m P P.blk).add 1 := by
  have h1 : pcur m ⟨P.lap, P.blk, P.pos + 1⟩ P.blk =
      ⟨if P.blk = 0 then P.lap else P.lap + 1, P.pos + 1⟩ := by
    simp [pcur]
  rw [h1, pcur_cur]
  simp only [Field.add]
  rw [Field.mk.injEq]
  exact ⟨rfl, (Nat.mod_eq_of_lt (by omega)).symm⟩

/-- Mid-block enqueue, current block: allocate, write and commit produce the
closed-form block at position `pos + 1`. -/
theorem mkBlock_enq_cur (m v : Nat) (E : List Nat) (P C : Pos)
    (hm : 1 ≤ m) (hm2 : m < 2 ^ INDEX_BITS) (hPb : P.blk < m) (hPp : P.pos < m)
    (hE : E.length = P.glob m) (hd : C.glob m ≤ P.glob m) :
    mkBlock m (E ++ [v]) ⟨P.lap, P.blk, P.pos + 1⟩ C P.blk =
      commit_entry { mkBlock m E P C P.blk with alloc := (mkBlock m E P C P.blk).alloc.add 1 }
        (mkBlock m E P C P.blk).alloc.index v := by
  have hidx : (mkBlock m E P C P.blk).alloc.index = P.pos := by
    show (pcur m P P.blk).index = P.pos
    rw [pcur_cur]
  rw [hidx]
  simp only [commit_entry, mkBlock]
  rw [Block.mk.injEq]
  refine ⟨?_, ?_, rfl, rfl, ?_⟩
  · exact pcur_bump m P hm2 hPp
  · exact pcur_bump m P hm2 hPp
  · symm
    apply list_set_ofFn _ _ P.pos v hPp
    intro p
    rw [slotVal_write_cur m v E P (C.glob m) p hm hPb hPp p.isLt hE hd]

/-- Mid-block enqueue, other blocks: unchanged. -/
theorem mkBlock_enq_other (m v : Nat) (E : List Nat) (P C : Pos) (j : Nat)
    (hm : 1 ≤ m) (hPb : P.blk < m) (hj : j < m) (hjne : j ≠ P.blk)
    (hE : E.length = P.glob m) :
    mkBlock m (E ++ [v]) ⟨P.lap, P.blk, P.pos + 1⟩ C j = mkBlock m E P C j := by
  simp only [mkBlock]
  rw [Block.mk.injEq]
  refine ⟨pcur_other m P j (P.pos + 1) hjne, pcur_other m P j (P.pos + 1) hjne, rfl, rfl, ?_⟩
  congr 1
  funext p
  exact slotVal_write_other m v E P (C.glob m) j p hm hPb hj hjne p.isLt hE

/-- Mid-block enqueue at the state level. -/
theorem mkState_enq_write (m v : Nat) (E : List Nat) (P C : Pos)
    (hm : 1 ≤ m) (hm2 : m < 2 ^ INDEX_BITS)
    (hPb : P.blk < m) (hPp : P.pos < m)
    (hE : E.length = P.glob m) (hd : C.glob m ≤ P.glob m) :
    Queue.mk
      ((mkState m E P C).blocks.set (mkState m E P C).phead.index
        (commit_entry
          { (mkState m E P C).blocks.getD (mkState m E P C).phead.index defaultBlock with
              alloc := ((mkState m E P C).blocks.getD (mkState m E P C).phead.index
                defaultBlock).alloc.add 1 }
          ((mkState m E P C).blocks.getD (mkState m E P C).phead.index defaultBlock).alloc.index v))
      (mkState m E P C).phead (mkState m E P C).chead
    = mkState m (E ++ [v]) ⟨P.lap, P.blk, P.pos + 1⟩ C := by
  have hphi : (mkState m E P C).phead.index = P.blk := rfl
  rw [hphi]
  rw [mkState_getD m E P C P.blk hPb]
  rw [Queue.mk.injEq]
  refine ⟨?_, rfl, rfl⟩
  show (List.ofFn fun j : Fin m => mkBlock m E P C (j : Nat)).set P.blk _ =
    List.ofFn fun j : Fin m => mkBlock m (E ++ [v]) ⟨P.lap, P.blk, P.pos + 1⟩ C (j : Nat)
  apply list_set_ofFn _ _ P.blk _ hPb
  intro j
  by_cases hj : (j : Nat) = P.blk
  · rw [if_pos hj, hj]
    exact mkBlock_enq_cur m v E P C hm hm2 hPb hPp hE hd
  · rw [if_neg hj]
    exact mkBlock_enq_other m v E P C j hm hPb j.isLt hj hE

end BBQ

namespace BBQ

/-- Enqueue step, current block not full: succeeds, appends the value. -/
theorem enqueue_mid (m k v : Nat) (E : List Nat) (P C : Pos)
    (hm : 1 ≤ m) (hm2 : m < 2 ^ INDEX_BITS)
    (hPb : P.blk < m) (hPp : P.pos < m)
    (hE : E.length = P.glob m) (hd : C.glob m ≤ P.glob m) :
    enqueue m (k + 1) (mkState m E P C) v =
      some (true, mkState m (E ++ [v]) ⟨P.lap, P.blk, P.pos + 1⟩ C) := by
  have h1 : ((mkState m E P C).blocks.getD (mkState m E P C).phead.index
      defaultBlock).alloc.index = P.pos := by
    have hphi : (mkState m E P C).phead.index = P.blk := rfl
    rw [hphi, mkState_getD m E P C P.blk hPb]
    show (pcur m P P.blk).index = P.pos
    rw [pcur_cur]
  rw [enqueue_succ_eq]
  · rw [mkState_enq_write m v E P C hm hm2 hPb hPp hE hd]
  · rw [h1]
    omega

end BBQ

namespace BBQ

theorem pcur_version (m : Nat) (C : Pos) (j : Nat) :
    (pcur m C j).version = if j ≤ C.blk then (if j = 0 then C.lap else C.lap + 1) else C.lap := by
  simp only [pcur]
  split_ifs <;> rfl

theorem pcur_index (m : Nat) (C : Pos) (j : Nat) :
    (pcur m C j).index = if j ≤ C.blk then (if j = C.blk then C.pos else m) else m := by
  simp only [pcur]
  split_ifs <;> rfl

theorem nbIdx_eq (m : Nat) (b : Nat) (hb : b < m) :
    (b + 1) % m = if b + 1 = m then 0 else b + 1 := by
  split
  · rename_i h
    rw [h, Nat.mod_self]
  · exact Nat.mod_eq_of_lt (by omega)

/-- The producer's advance gate: if the consumer has fully drained the
previous generation of the next ring block, the block is reusable. -/
theorem advance_unblocked (m : Nat) (P C : Pos) (hm : 1 ≤ m)
    (hPb : P.blk < m) (hCb : C.blk < m) (hCp : C.pos ≤ m)
    (hwrap : P.blk + 1 = m → Pos.lexLe ⟨P.lap, 0, m⟩ C)
    (hnw : P.blk + 1 < m → 1 ≤ P.lap → Pos.lexLe ⟨P.lap - 1, P.blk + 1, m⟩ C) :
    ¬((pcur m C ((P.blk + 1) % m)).version < P.lap ∨
      ((pcur m C ((P.blk + 1) % m)).version = P.lap ∧
       (pcur m C ((P.blk + 1) % m)).index ≠ m)) := by
  rw [nbIdx_eq m P.blk hPb, pcur_version, pcur_index]
  by_cases hw : P.blk + 1 = m
  · have hdr : P.lap < C.lap ∨ (P.lap = C.lap ∧ (0 < C.blk ∨ (0 = C.blk ∧ m ≤ C.pos))) :=
      hwrap hw
    rw [if_pos hw]
    split_ifs <;> first | omega | exact (by assumption : False).elim
  · have hlt : P.blk + 1 < m := by omega
    rw [if_neg hw]
    by_cases hlap : 1 ≤ P.lap
    · have hdr : P.lap - 1 < C.lap ∨ (P.lap - 1 = C.lap ∧
          (P.blk + 1 < C.blk ∨ (P.blk + 1 = C.blk ∧ m ≤ C.pos))) :=
        hnw hlt hlap
      split_ifs <;> first | omega | exact (by assumption : False).elim
    · split_ifs <;> first | omega | exact (by assumption : False).elim

/-- Slot contents are untouched by a producer block-boundary advance out of a
full block. -/
theorem slotVal_adv (m : Nat) (E : List Nat) (P : Pos) (d j p : Nat)
    (hPb : P.blk < m) (hPp : P.pos = m) (hj : j < m) (hp : p < m) :
    slotVal m E d (Pos.adv m P) j p = slotVal m E d P j p := by
  rw [Pos.adv]
  by_cases hw : P.blk + 1 = m
  · rw [if_pos hw]
    have hc1 : ¬(j < (⟨P.lap + 1, 0, 0⟩ : Pos).blk ∨ (j = (⟨P.lap + 1, 0, 0⟩ : Pos).blk ∧
        p < (⟨P.lap + 1, 0, 0⟩ : Pos).pos)) := by
      show ¬(j < 0 ∨ (j = 0 ∧ p < 0))
      omega
    have hc2 : (j < P.blk ∨ (j = P.blk ∧ p < P.pos)) := by omega
    rw [slotVal, if_neg hc1, slotVal, if_pos hc2]
    rw [if_pos (show 1 ≤ (⟨P.lap + 1, 0, 0⟩ : Pos).lap by show 1 ≤ P.lap + 1; omega)]
    have hg : ((⟨P.lap + 1, 0, 0⟩ : Pos).lap - 1) = P.lap := by
      show P.lap + 1 - 1 = P.lap
      omega
    rw [hg]
  · rw [if_neg hw]
    by_cases hle : j ≤ P.blk
    · have hc1 : (j < (⟨P.lap, P.blk + 1, 0⟩ : Pos).blk ∨ (j = (⟨P.lap, P.blk + 1, 0⟩ : Pos).blk ∧
          p < (⟨P.lap, P.blk + 1, 0⟩ : Pos).pos)) := by
        show (j < P.blk + 1 ∨ (j = P.blk + 1 ∧ p < 0))
        omega
      have hc2 : (j < P.blk ∨ (j = P.blk ∧ p < P.pos)) := by omega
      rw [slotVal, if_pos hc1, slotVal, if_pos hc2]
    · have hc1 : ¬(j < (⟨P.lap, P.blk + 1, 0⟩ : Pos).blk ∨ (j = (⟨P.lap, P.blk + 1, 0⟩ : Pos).blk ∧
          p < (⟨P.lap, P.blk + 1, 0⟩ : Pos).pos)) := by
        show ¬(j < P.blk + 1 ∨ (j = P.blk + 1 ∧ p < 0))
        omega
      have hc2 : ¬(j < P.blk ∨ (j = P.blk ∧ p < P.pos)) := by omega
      rw [slotVal, if_neg hc1, slotVal, if_neg hc2]

/-- Producer cursors of the other ring blocks are untouched by an advance out
of a full block. -/
theorem pcur_adv_other (m : Nat) (P : Pos) (j : Nat)
    (hPb : P.blk < m) (hPp : P.pos = m) (hj : j < m) (hjne : j ≠ (P.blk + 1) % m) :
    pcur m (Pos.adv m P) j = pcur m P j := by
  rw [nbIdx_eq m P.blk hPb] at hjne
  rw [Pos.adv]
  by_cases hw : P.blk + 1 = m
  · rw [if_pos hw] at hjne ⊢
    simp only [pcur]
    split_ifs <;> rw [Field.mk.injEq] <;> omega
  · rw [if_neg hw] at hjne ⊢
    simp only [pcur]
    split_ifs <;> rw [Field.mk.injEq] <;> omega

/-- The advanced producer cursor of the next ring block. -/
theorem pcur_adv_cur (m : Nat) (P : Pos) (hPb : P.blk < m) :
    pcur m (Pos.adv m P) ((P.blk + 1) % m) = ⟨P.lap + 1, 0⟩ := by
  rw [nbIdx_eq m P.blk hPb, Pos.adv]
  by_cases hw : P.blk + 1 = m
  · rw [if_pos hw, if_pos hw]
    simp [pcur]
  · rw [if_neg hw, if_neg hw]
    simp [pcur]

end BBQ

namespace BBQ

/-- An advanced position starts at slot `0` of its block. -/
theorem adv_pos (m : Nat) (P : Pos) : (Pos.adv m P).pos = 0 := by
  rw [Pos.adv]
  split_ifs <;> rfl

/-- An advanced position's block stays inside the ring. -/
theorem adv_blk_lt (m : Nat) (P : Pos) (hm : 1 ≤ m) (hPb : P.blk < m) :
    (Pos.adv m P).blk < m := by
  rw [Pos.adv]
  split_ifs with hw
  · show 0 < m
    omega
  · show P.blk + 1 < m
    omega

/-- Advancing out of a full block preserves the global slot count. -/
theorem glob_adv (m : Nat) (P : Pos) (hPp : P.pos = m) :
    (Pos.adv m P).glob m = P.glob m := by
  rw [Pos.adv]
  by_cases hw : P.blk + 1 = m
  · rw [if_pos hw]
    subst hw
    show ((P.lap + 1) * (P.blk + 1) + 0) * (P.blk + 1) + 0 =
      (P.lap * (P.blk + 1) + P.blk) * (P.blk + 1) + P.pos
    rw [hPp]
    ring
  · rw [if_neg hw]
    show (P.lap * m + (P.blk + 1)) * m + 0 = (P.lap * m + P.blk) * m + P.pos
    rw [hPp]
    ring

/-- The source head-advance helper realises the structured advance. -/
theorem advanceHead_adv (m : Nat) (P : Pos) (hm2 : m < 2 ^ INDEX_BITS)
    (hv : P.lap + 1 < 2 ^ VERSION_BITS) (hPb : P.blk < m) :
    advanceHead ⟨P.lap, P.blk⟩ m = ⟨(Pos.adv m P).lap, (Pos.adv m P).blk⟩ := by
  have h1 : (Field.add ⟨P.lap, P.blk⟩ 1) = (⟨P.lap, P.blk + 1⟩ : Field) := by
    simp only [Field.add]
    rw [Field.mk.injEq]
    exact ⟨rfl, Nat.mod_eq_of_lt (by omega)⟩
  simp only [advanceHead, h1]
  by_cases hw : P.blk + 1 = m
  · rw [if_pos (show m ≤ (⟨P.lap, P.blk + 1⟩ : Field).index by show m ≤ P.blk + 1; omega)]
    rw [Pos.adv, if_pos hw]
    show (⟨(P.lap + 1) % 2 ^ VERSION_BITS, ((P.blk + 1) % m) % 2 ^ INDEX_BITS⟩ : Field) =
      ⟨P.lap + 1, 0⟩
    rw [Field.mk.injEq]
    constructor
    · exact Nat.mod_eq_of_lt hv
    · rw [hw, Nat.mod_self]
      exact Nat.zero_mod _
  · rw [if_neg (show ¬ m ≤ (⟨P.lap, P.blk + 1⟩ : Field).index by show ¬ m ≤ P.blk + 1; omega)]
    rw [Pos.adv, if_neg hw]

/-- The producer stamp written on the next ring block. -/
theorem mkBlock_adv_cur (m : Nat) (E : List Nat) (P C : Pos)
    (hm : 1 ≤ m) (hv : P.lap + 1 < 2 ^ VERSION_BITS)
    (hPb : P.blk < m) (hPp : P.pos = m) :
    { mkBlock m E P C ((P.blk + 1) % m) with
        alloc := mkField (P.lap + 1) 0, comm := mkField (P.lap + 1) 0 } =
      mkBlock m E (Pos.adv m P) C ((P.blk + 1) % m) := by
  have hnb : (P.blk + 1) % m < m := Nat.mod_lt _ (by omega)
  have hf : mkField (P.lap + 1) 0 = (⟨P.lap + 1, 0⟩ : Field) := by
    simp only [mkField]
    rw [Field.mk.injEq]
    exact ⟨Nat.mod_eq_of_lt hv, Nat.zero_mod _⟩
  simp only [mkBlock]
  rw [Block.mk.injEq]
  refine ⟨?_, ?_, rfl, rfl, ?_⟩
  · rw [hf, pcur_adv_cur m P hPb]
  · rw [hf, pcur_adv_cur m P hPb]
  · congr 1
    funext p
    exact (slotVal_adv m E P (C.glob m) _ p hPb hPp hnb p.isLt).symm

/-- A producer advance leaves the other ring blocks unchanged. -/
theorem mkBlock_adv_other (m : Nat) (E : List Nat) (P C : Pos) (j : Nat)
    (hm : 1 ≤ m) (hPb : P.blk < m) (hPp : P.pos = m) (hj : j < m)
    (hjne : j ≠ (P.blk + 1) % m) :
    mkBlock m E (Pos.adv m P) C j = mkBlock m E P C j := by
  simp only [mkBlock]
  rw [Block.mk.injEq]
  refine ⟨pcur_adv_other m P j hPb hPp hj hjne,
    pcur_adv_other m P j hPb hPp hj hjne, rfl, rfl, ?_⟩
  congr 1
  funext p
  exact slotVal_adv m E P (C.glob m) j p hPb hPp hj p.isLt

/-- The pre-advance generation stamp of the next ring block. -/
theorem pcur_nb_version (m : Nat) (P : Pos) (hPb : P.blk < m) :
    (pcur m P ((P.blk + 1) % m)).version = P.lap := by
  rw [nbIdx_eq m P.blk hPb, pcur_version]
  split_ifs <;> first | omega | exact (by assumption : False).elim

end BBQ

namespace BBQ

/-- Producer head advance on a reachable state: when the consumer has drained
the next ring block's previous generation, `advance_phead` succeeds and the
state advances to the structured successor position. -/
theorem advance_phead_mkState (m : Nat) (E : List Nat) (P C : Pos)
    (hm : 1 ≤ m) (hm2 : m < 2 ^ INDEX_BITS) (hv : P.lap + 1 < 2 ^ VERSION_BITS)
    (hPb : P.blk < m) (hPp : P.pos = m)
    (hok : ¬((pcur m C ((P.blk + 1) % m)).version < P.lap ∨
      ((pcur m C ((P.blk + 1) % m)).version = P.lap ∧
       (pcur m C ((P.blk + 1) % m)).index ≠ m))) :
    advance_phead m (mkState m E P C) (⟨P.lap, P.blk⟩ : Field) =
      (RetStatus.SUCCESS, mkState m E (Pos.adv m P) C) := by
  have hnb : (P.blk + 1) % m < m := Nat.mod_lt _ (by omega)
  have hlen : (mkState m E P C).blocks.length = m := mkState_length m E P C
  have hgd : (mkState m E P C).blocks.getD
      (((⟨P.lap, P.blk⟩ : Field).index + 1) % (mkState m E P C).blocks.length) defaultBlock =
      mkBlock m E P C ((P.blk + 1) % m) := by
    show (mkState m E P C).blocks.getD
      ((P.blk + 1) % (mkState m E P C).blocks.length) defaultBlock = _
    rw [hlen]
    exact mkState_getD m E P C _ hnb
  have h1 : ¬(((mkState m E P C).blocks.getD
        (((⟨P.lap, P.blk⟩ : Field).index + 1) % (mkState m E P C).blocks.length)
        defaultBlock).cons.version < (⟨P.lap, P.blk⟩ : Field).version ∨
      (((mkState m E P C).blocks.getD
        (((⟨P.lap, P.blk⟩ : Field).index + 1) % (mkState m E P C).blocks.length)
        defaultBlock).cons.version = (⟨P.lap, P.blk⟩ : Field).version ∧
       ((mkState m E P C).blocks.getD
        (((⟨P.lap, P.blk⟩ : Field).index + 1) % (mkState m E P C).blocks.length)
        defaultBlock).cons.index ≠ m)) := by
    rw [hgd]
    exact hok
  have h2 : ((mkState m E P C).blocks.getD
        (((⟨P.lap, P.blk⟩ : Field).index + 1) % (mkState m E P C).blocks.length)
        defaultBlock).alloc =
      ((mkState m E P C).blocks.getD
        (((⟨P.lap, P.blk⟩ : Field).index + 1) % (mkState m E P C).blocks.length)
        defaultBlock).comm := by
    rw [hgd]
    rfl
  rw [advance_phead_success_eq m (mkState m E P C) ⟨P.lap, P.blk⟩ h1 h2]
  rw [Prod.mk.injEq]
  refine ⟨rfl, ?_⟩
  rw [hgd]
  have hsetidx : ((⟨P.lap, P.blk⟩ : Field).index + 1) % (mkState m E P C).blocks.length =
      (P.blk + 1) % m := by
    show (P.blk + 1) % (mkState m E P C).blocks.length = (P.blk + 1) % m
    rw [hlen]
  rw [hsetidx]
  have hstamp : (mkBlock m E P C ((P.blk + 1) % m)).alloc.version <
      (mkField ((⟨P.lap, P.blk⟩ : Field).version + 1) 0).version := by
    show (pcur m P ((P.blk + 1) % m)).version < (P.lap + 1) % 2 ^ VERSION_BITS
    rw [pcur_nb_version m P hPb, Nat.mod_eq_of_lt hv]
    omega
  rw [if_pos hstamp]
  rw [show (⟨P.lap, P.blk⟩ : Field).version = P.lap from rfl]
  rw [mkBlock_adv_cur m E P C hm hv hPb hPp]
  simp only [mkState]
  rw [Queue.mk.injEq]
  refine ⟨?_, advanceHead_adv m P hm2 hv hPb, rfl⟩
  apply list_set_ofFn _ _ _ _ hnb
  intro j
  by_cases hj : (j : Nat) = (P.blk + 1) % m
  · rw [if_pos hj, hj]
  · rw [if_neg hj]
    exact mkBlock_adv_other m E P C j hm hPb hPp j.isLt hj

/-- Full-block enqueue with a drained next block: the producer advances and
writes into slot `0` of the next block. -/
theorem enqueue_advance (m k v : Nat) (E : List Nat) (P C : Pos)
    (hm : 1 ≤ m) (hm2 : m < 2 ^ INDEX_BITS) (hv : P.lap + 1 < 2 ^ VERSION_BITS)
    (hPb : P.blk < m) (hPp : P.pos = m)
    (hE : E.length = P.glob m) (hd : C.glob m ≤ P.glob m)
    (hok : ¬((pcur m C ((P.blk + 1) % m)).version < P.lap ∨
      ((pcur m C ((P.blk + 1) % m)).version = P.lap ∧
       (pcur m C ((P.blk + 1) % m)).index ≠ m))) :
    enqueue m (k + 2) (mkState m E P C) v =
      some (true, mkState m (E ++ [v]) ⟨(Pos.adv m P).lap, (Pos.adv m P).blk, 1⟩ C) := by
  have hfull : m ≤ ((mkState m E P C).blocks.getD (mkState m E P C).phead.index
      defaultBlock).alloc.index := by
    have hphi : (mkState m E P C).phead.index = P.blk := rfl
    rw [hphi, mkState_getD m E P C P.blk hPb]
    show m ≤ (pcur m P P.blk).index
    rw [pcur_cur]
    show m ≤ P.pos
    omega
  rw [enqueue_full_eq m (k + 1) v (mkState m E P C) hfull]
  have hph : (mkState m E P C).phead = (⟨P.lap, P.blk⟩ : Field) := rfl
  rw [hph, advance_phead_mkState m E P C hm hm2 hv hPb hPp hok]
  simp only []
  have hposadv : (Pos.adv m P).pos = 0 := adv_pos m P
  rw [enqueue_mid m k v E (Pos.adv m P) C hm hm2 (adv_blk_lt m P hm hPb)
    (by rw [hposadv]; omega)
    (by rw [glob_adv m P hPp]; exact hE)
    (by rw [glob_adv m P hPp]; exact hd)]
  rw [hposadv, Nat.zero_add]

/-- Full-block enqueue with an undrained next block: the enqueue fails and
the state is unchanged. -/
theorem enqueue_blocked (m k v : Nat) (E : List Nat) (P C : Pos)
    (hm : 1 ≤ m) (hPb : P.blk < m) (hPp : P.pos = m)
    (hblk : (pcur m C ((P.blk + 1) % m)).version < P.lap ∨
      ((pcur m C ((P.blk + 1) % m)).version = P.lap ∧
       (pcur m C ((P.blk + 1) % m)).index ≠ m)) :
    enqueue m (k + 1) (mkState m E P C) v = some (false, mkState m E P C) := by
  have hfull : m ≤ ((mkState m E P C).blocks.getD (mkState m E P C).phead.index
      defaultBlock).alloc.index := by
    have hphi : (mkState m E P C).phead.index = P.blk := rfl
    rw [hphi, mkState_getD m E P C P.blk hPb]
    show m ≤ (pcur m P P.blk).index
    rw [pcur_cur]
    show m ≤ P.pos
    omega
  rw [enqueue_full_eq m k v (mkState m E P C) hfull]
  have hph : (mkState m E P C).phead = (⟨P.lap, P.blk⟩ : Field) := rfl
  rw [hph]
  have hnb : (P.blk + 1) % m < m := Nat.mod_lt _ (by omega)
  have hlen : (mkState m E P C).blocks.length = m := mkState_length m E P C
  have hgd : (mkState m E P C).blocks.getD
      (((⟨P.lap, P.blk⟩ : Field).index + 1) % (mkState m E P C).blocks.length) defaultBlock =
      mkBlock m E P C ((P.blk + 1) % m) := by
    show (mkState m E P C).blocks.getD
      ((P.blk + 1) % (mkState m E P C).blocks.length) defaultBlock = _
    rw [hlen]
    exact mkState_getD m E P C _ hnb
  have hb' : ((mkState m E P C).blocks.getD
        (((⟨P.lap, P.blk⟩ : Field).index + 1) % (mkState m E P C).blocks.length)
        defaultBlock).cons.version < (⟨P.lap, P.blk⟩ : Field).version ∨
      (((mkState m E P C).blocks.getD
        (((⟨P.lap, P.blk⟩ : Field).index + 1) % (mkState m E P C).blocks.length)
        defaultBlock).cons.version = (⟨P.lap, P.blk⟩ : Field).version ∧
       ((mkState m E P C).blocks.getD
        (((⟨P.lap, P.blk⟩ : Field).index + 1) % (mkState m E P C).blocks.length)
        defaultBlock).cons.index ≠ m) := by
    rw [hgd]
    exact hblk
  rw [advance_phead_blocked_eq m (mkState m E P C) ⟨P.lap, P.blk⟩ hb']
  by_cases hre : ((mkState m E P C).blocks.getD
        (((⟨P.lap, P.blk⟩ : Field).index + 1) % (mkState m E P C).blocks.length)
        defaultBlock).resv.index =
      ((mkState m E P C).blocks.getD
        (((⟨P.lap, P.blk⟩ : Field).index + 1) % (mkState m E P C).blocks.length)
        defaultBlock).cons.index
  · rw [if_pos hre]
  · rw [if_neg hre]

end BBQ

namespace BBQ

/-- Base-`m` decomposition of a global slot count is unique. -/
theorem glob_inj (m L1 j1 p1 L2 j2 p2 : Nat)
    (hj1 : j1 < m) (hp1 : p1 < m) (hj2 : j2 < m) (hp2 : p2 < m)
    (h : (L1 * m + j1) * m + p1 = (L2 * m + j2) * m + p2) :
    L1 = L2 ∧ j1 = j2 ∧ p1 = p2 := by
  have hm0 : 0 < m := by omega
  have e1 : ((L1 * m + j1) * m + p1) % m = p1 := by
    rw [Nat.mul_add_mod']
    exact Nat.mod_eq_of_lt hp1
  have e2 : ((L2 * m + j2) * m + p2) % m = p2 := by
    rw [Nat.mul_add_mod']
    exact Nat.mod_eq_of_lt hp2
  have hp : p1 = p2 := by rw [← e1, ← e2, h]
  have hmul : (L1 * m + j1) * m = (L2 * m + j2) * m := by omega
  have hmid : L1 * m + j1 = L2 * m + j2 := Nat.eq_of_mul_eq_mul_right hm0 hmul
  have f1 : (L1 * m + j1) % m = j1 := by
    rw [Nat.mul_add_mod']
    exact Nat.mod_eq_of_lt hj1
  have f2 : (L2 * m + j2) % m = j2 := by
    rw [Nat.mul_add_mod']
    exact Nat.mod_eq_of_lt hj2
  have hj : j1 = j2 := by rw [← f1, ← f2, hmid]
  have hmul2 : L1 * m = L2 * m := by omega
  exact ⟨Nat.eq_of_mul_eq_mul_right hm0 hmul2, hj, hp⟩

/-- Structured positions with equal components are equal. -/
theorem pos_ext (a b : Pos) (h1 : a.lap = b.lap) (h2 : a.blk = b.blk)
    (h3 : a.pos = b.pos) : a = b := by
  cases a
  cases b
  simp_all

/-- The lexicographic order on structured positions is transitive. -/
theorem lexLe_trans (a b c : Pos) (h1 : a.lexLe b) (h2 : b.lexLe c) : a.lexLe c := by
  have h1' : a.lap < b.lap ∨ (a.lap = b.lap ∧ (a.blk < b.blk ∨ (a.blk = b.blk ∧ a.pos ≤ b.pos))) := h1
  have h2' : b.lap < c.lap ∨ (b.lap = c.lap ∧ (b.blk < c.blk ∨ (b.blk = c.blk ∧ b.pos ≤ c.pos))) := h2
  show a.lap < c.lap ∨ (a.lap = c.lap ∧ (a.blk < c.blk ∨ (a.blk = c.blk ∧ a.pos ≤ c.pos)))
  omega

/-- A consumer strictly behind an equal-count producer coincides with it. -/
theorem eq_of_glob_eq (m : Nat) (C P : Pos) (hCb : C.blk < m) (hCp : C.pos < m)
    (hle : Pos.lexLe C P) (he : C.glob m = P.glob m) : C = P := by
  have hle' : C.lap < P.lap ∨ (C.lap = P.lap ∧ (C.blk < P.blk ∨ (C.blk = P.blk ∧ C.pos ≤ P.pos))) := hle
  by_cases hq : C.lap = P.lap ∧ C.blk = P.blk ∧ C.pos = P.pos
  · exact pos_ext C P hq.1 hq.2.1 hq.2.2
  · exfalso
    have hlt : Pos.lexLt C P := by
      show C.lap < P.lap ∨ (C.lap = P.lap ∧ (C.blk < P.blk ∨ (C.blk = P.blk ∧ C.pos < P.pos)))
      omega
    have := glob_lt m C P hCb hCp hlt
    omega

/-- Under the drain gate, the consumer slot is strictly inside the
producer's progress, so the reserve cursor differs from the commit cursor. -/
theorem deq_ready (m : Nat) (P C : Pos) (hm : 1 ≤ m)
    (hPb : P.blk < m) (hCb : C.blk < m) (hCp : C.pos < m)
    (hlt : C.glob m < P.glob m) (hle : Pos.lexLe C P)
    (hgate : 1 ≤ P.lap → Pos.lexLe ⟨P.lap - 1, P.blk, m⟩ C) :
    C.pos ≠ (pcur m P C.blk).index := by
  have hle' : C.lap < P.lap ∨ (C.lap = P.lap ∧ (C.blk < P.blk ∨ (C.blk = P.blk ∧ C.pos ≤ P.pos))) := hle
  rw [pcur_index]
  by_cases h1 : C.blk ≤ P.blk
  · rw [if_pos h1]
    by_cases h2 : C.blk = P.blk
    · rw [if_pos h2]
      by_cases h3 : C.lap = P.lap
      · have hlt' : (P.lap * m + P.blk) * m + C.pos < (P.lap * m + P.blk) * m + P.pos := by
          have e1 : C.glob m = (P.lap * m + P.blk) * m + C.pos := by
            show (C.lap * m + C.blk) * m + C.pos = _
            rw [h2, h3]
          have e2 : P.glob m = (P.lap * m + P.blk) * m + P.pos := rfl
          omega
        omega
      · have hlap : C.lap < P.lap := by omega
        have hg : P.lap - 1 < C.lap ∨ (P.lap - 1 = C.lap ∧
            (P.blk < C.blk ∨ (P.blk = C.blk ∧ m ≤ C.pos))) := hgate (by omega)
        omega
    · rw [if_neg h2]
      omega
  · rw [if_neg h1]
    omega

/-- Which `slotVal` branch is live at the consumer's own slot: the consumer
is either on the producer's lap (block written this generation) or exactly
one lap behind. -/
theorem cons_branch (m : Nat) (P C : Pos) (hm : 1 ≤ m)
    (hPb : P.blk < m) (hPp : P.pos ≤ m) (hCb : C.blk < m) (hCp : C.pos < m)
    (hlt : C.glob m < P.glob m) (hle : Pos.lexLe C P)
    (hgate : 1 ≤ P.lap → Pos.lexLe ⟨P.lap - 1, P.blk, m⟩ C) :
    ((C.blk < P.blk ∨ (C.blk = P.blk ∧ C.pos < P.pos)) ∧ C.lap = P.lap) ∨
    (¬(C.blk < P.blk ∨ (C.blk = P.blk ∧ C.pos < P.pos)) ∧ 1 ≤ P.lap ∧ C.lap = P.lap - 1) := by
  have hle' : C.lap < P.lap ∨ (C.lap = P.lap ∧ (C.blk < P.blk ∨ (C.blk = P.blk ∧ C.pos ≤ P.pos))) := hle
  by_cases hb : C.blk < P.blk ∨ (C.blk = P.blk ∧ C.pos < P.pos)
  · left
    refine ⟨hb, ?_⟩
    rcases hle' with hl | ⟨heq, -⟩
    · have hg : P.lap - 1 < C.lap ∨ (P.lap - 1 = C.lap ∧
          (P.blk < C.blk ∨ (P.blk = C.blk ∧ m ≤ C.pos))) := hgate (by omega)
      omega
    · exact heq
  · right
    refine ⟨hb, ?_⟩
    rcases hle' with hl | ⟨heq, hrest⟩
    · have hg : P.lap - 1 < C.lap ∨ (P.lap - 1 = C.lap ∧
          (P.blk < C.blk ∨ (P.blk = C.blk ∧ m ≤ C.pos))) := hgate (by omega)
      omega
    · exfalso
      have hblk : C.blk = P.blk := by omega
      have hpos : C.pos = P.pos := by omega
      have he : C.glob m = P.glob m := by
        show (C.lap * m + C.blk) * m + C.pos = (P.lap * m + P.blk) * m + P.pos
        rw [heq, hblk, hpos]
      omega

/-- The slot at the consumer's own position holds the value accepted at the
consumer's global count. -/
theorem slotVal_at_cons (m : Nat) (E : List Nat) (P C : Pos) (hm : 1 ≤ m)
    (hPb : P.blk < m) (hPp : P.pos ≤ m) (hCb : C.blk < m) (hCp : C.pos < m)
    (hlt : C.glob m < P.glob m) (hle : Pos.lexLe C P)
    (hgate : 1 ≤ P.lap → Pos.lexLe ⟨P.lap - 1, P.blk, m⟩ C) :
    slotVal m E (C.glob m) P C.blk C.pos = E.getD (C.glob m) 0 := by
  rcases cons_branch m P C hm hPb hPp hCb hCp hlt hle hgate with ⟨hb, hlap⟩ | ⟨hb, hP1, hlap⟩
  · rw [slotVal, if_pos hb]
    have hg : (P.lap * m + C.blk) * m + C.pos = C.glob m := by
      show _ = (C.lap * m + C.blk) * m + C.pos
      rw [hlap]
    rw [hg, if_pos (le_refl _)]
  · rw [slotVal, if_neg hb, if_pos hP1]
    have hg : ((P.lap - 1) * m + C.blk) * m + C.pos = C.glob m := by
      show _ = (C.lap * m + C.blk) * m + C.pos
      rw [hlap]
    rw [hg, if_pos (le_refl _)]

/-- Consuming the slot at the consumer's own position zeroes it in the
closed form with the advanced consumption count. -/
theorem slotVal_deq_cur (m : Nat) (E : List Nat) (P C : Pos) (hm : 1 ≤ m)
    (hPb : P.blk < m) (hPp : P.pos ≤ m) (hCb : C.blk < m) (hCp : C.pos < m)
    (hlt : C.glob m < P.glob m) (hle : Pos.lexLe C P)
    (hgate : 1 ≤ P.lap → Pos.lexLe ⟨P.lap - 1, P.blk, m⟩ C) :
    slotVal m E (C.glob m + 1) P C.blk C.pos = 0 := by
  rcases cons_branch m P C hm hPb hPp hCb hCp hlt hle hgate with ⟨hb, hlap⟩ | ⟨hb, hP1, hlap⟩
  · rw [slotVal, if_pos hb]
    have hg : (P.lap * m + C.blk) * m + C.pos = C.glob m := by
      show _ = (C.lap * m + C.blk) * m + C.pos
      rw [hlap]
    rw [hg, if_neg (by omega)]
  · rw [slotVal, if_neg hb, if_pos hP1]
    have hg : ((P.lap - 1) * m + C.blk) * m + C.pos = C.glob m := by
      show _ = (C.lap * m + C.blk) * m + C.pos
      rw [hlap]
    rw [hg, if_neg (by omega)]

/-- Advancing the consumption count past the consumed slot leaves every
other slot's closed-form value unchanged. -/
theorem slotVal_deq_other (m : Nat) (E : List Nat) (P C : Pos) (j p : Nat)
    (hm : 1 ≤ m) (hCb : C.blk < m) (hCp : C.pos < m) (hj : j < m) (hp : p < m)
    (hne : ¬(j = C.blk ∧ p = C.pos)) :
    slotVal m E (C.glob m + 1) P j p = slotVal m E (C.glob m) P j p := by
  have key : ∀ L : Nat, (L * m + j) * m + p ≠ C.glob m := by
    intro L h
    have h' : (L * m + j) * m + p = (C.lap * m + C.blk) * m + C.pos := h
    have := glob_inj m L j p C.lap C.blk C.pos hj hp hCb hCp h'
    exact hne ⟨this.2.1, this.2.2⟩
  have k1 : (P.lap * m + j) * m + p ≠ C.glob m := key P.lap
  have k2 : ((P.lap - 1) * m + j) * m + p ≠ C.glob m := key (P.lap - 1)
  rw [slotVal, slotVal]
  split_ifs <;> first | rfl | omega

/-- The consumer's block after a successful consume, in closed form. -/
theorem mkBlock_deq_cur (m : Nat) (E : List Nat) (P C : Pos) (hm : 1 ≤ m)
    (hm2 : m < 2 ^ INDEX_BITS) (hv : C.lap + 1 < 2 ^ VERSION_BITS)
    (hPb : P.blk < m) (hPp : P.pos ≤ m) (hCb : C.blk < m) (hCp : C.pos < m)
    (hlt : C.glob m < P.glob m) (hle : Pos.lexLe C P)
    (hgate : 1 ≤ P.lap → Pos.lexLe ⟨P.lap - 1, P.blk, m⟩ C) :
    mkBlock m E P ⟨C.lap, C.blk, C.pos + 1⟩ C.blk =
      { mkBlock m E P C C.blk with
          resv := mkField (pcur m C C.blk).version
            (max (pcur m C C.blk).index ((pcur m C C.blk).index + 1)),
          cons := (pcur m C C.blk).add 1,
          data := (mkBlock m E P C C.blk).data.set (pcur m C C.blk).index 0 } := by
  have hg1 : Pos.glob m ⟨C.lap, C.blk, C.pos + 1⟩ = C.glob m + 1 := rfl
  have hix0 : (pcur m C C.blk).index = C.pos := by
    rw [pcur_cur]
  have hP' : pcur m ⟨C.lap, C.blk, C.pos + 1⟩ C.blk =
      (⟨if C.blk = 0 then C.lap else C.lap + 1, C.pos + 1⟩ : Field) := by
    simp [pcur]
  have hvv : (pcur m C C.blk).version = if C.blk = 0 then C.lap else C.lap + 1 := by
    rw [pcur_cur]
  have hrv : mkField (pcur m C C.blk).version
      (max (pcur m C C.blk).index ((pcur m C C.blk).index + 1)) =
      pcur m ⟨C.lap, C.blk, C.pos + 1⟩ C.blk := by
    rw [hix0, max_eq_right (show C.pos ≤ C.pos + 1 by omega), hvv, hP']
    rw [mkField, Field.mk.injEq]
    constructor
    · exact Nat.mod_eq_of_lt (by split_ifs <;> omega)
    · exact Nat.mod_eq_of_lt (by omega)
  have hcn : (pcur m C C.blk).add 1 = pcur m ⟨C.lap, C.blk, C.pos + 1⟩ C.blk :=
    (pcur_bump m C hm2 hCp).symm
  have hix : (pcur m C C.blk).index = C.pos := by rw [pcur_cur]
  simp only [mkBlock]
  rw [Block.mk.injEq]
  refine ⟨rfl, rfl, ?_, ?_, ?_⟩
  · rw [hrv]
  · rw [hcn]
  · rw [hix]
    symm
    apply list_set_ofFn _ _ C.pos 0 hCp
    intro p
    by_cases hp : (p : Nat) = C.pos
    · rw [if_pos hp, hg1, hp]
      exact slotVal_deq_cur m E P C hm hPb hPp hCb hCp hlt hle hgate
    · rw [if_neg hp, hg1]
      exact slotVal_deq_other m E P C C.blk p hm hCb hCp hCb p.isLt
        (fun hc => hp hc.2)

/-- A successful consume leaves the other ring blocks' closed forms
unchanged. -/
theorem mkBlock_deq_other (m : Nat) (E : List Nat) (P C : Pos) (j : Nat)
    (hm : 1 ≤ m) (hCb : C.blk < m) (hCp : C.pos < m) (hj : j < m)
    (hjne : j ≠ C.blk) :
    mkBlock m E P ⟨C.lap, C.blk, C.pos + 1⟩ j = mkBlock m E P C j := by
  have hg1 : Pos.glob m ⟨C.lap, C.blk, C.pos + 1⟩ = C.glob m + 1 := rfl
  simp only [mkBlock]
  rw [Block.mk.injEq]
  refine ⟨rfl, rfl, pcur_other m C j (C.pos + 1) hjne, pcur_other m C j (C.pos + 1) hjne, ?_⟩
  congr 1
  funext p
  rw [hg1]
  exact slotVal_deq_other m E P C j p hm hCb hCp hj p.isLt (fun hc => hjne hc.1)

end BBQ

namespace BBQ

/-- The consumer stamp written on the next ring block. -/
theorem mkBlock_cadv_cur (m : Nat) (E : List Nat) (P C : Pos)
    (hm : 1 ≤ m) (hv : C.lap + 1 < 2 ^ VERSION_BITS)
    (hCb : C.blk < m) (hCp : C.pos = m) :
    { mkBlock m E P C ((C.blk + 1) % m) with
        cons := mkField (C.lap + 1) 0, resv := mkField (C.lap + 1) 0 } =
      mkBlock m E P (Pos.adv m C) ((C.blk + 1) % m) := by
  have hf : mkField (C.lap + 1) 0 = (⟨C.lap + 1, 0⟩ : Field) := by
    simp only [mkField]
    rw [Field.mk.injEq]
    exact ⟨Nat.mod_eq_of_lt hv, Nat.zero_mod _⟩
  simp only [mkBlock]
  rw [Block.mk.injEq]
  refine ⟨rfl, rfl, ?_, ?_, ?_⟩
  · rw [hf, pcur_adv_cur m C hCb]
  · rw [hf, pcur_adv_cur m C hCb]
  · rw [glob_adv m C hCp]

/-- A consumer advance leaves the other ring blocks' closed forms
unchanged. -/
theorem mkBlock_cadv_other (m : Nat) (E : List Nat) (P C : Pos) (j : Nat)
    (hm : 1 ≤ m) (hCb : C.blk < m) (hCp : C.pos = m) (hj : j < m)
    (hjne : j ≠ (C.blk + 1) % m) :
    mkBlock m E P (Pos.adv m C) j = mkBlock m E P C j := by
  simp only [mkBlock]
  rw [Block.mk.injEq]
  refine ⟨rfl, rfl, pcur_adv_other m C j hCb hCp hj hjne,
    pcur_adv_other m C j hCb hCp hj hjne, ?_⟩
  rw [glob_adv m C hCp]

/-- Consumer head advance on a reachable state: when the producer has
committed the next ring block for the expected generation `advance_chead`
succeeds and the consumer state advances to its structured successor. -/
theorem advance_chead_mkState (m ver : Nat) (E : List Nat) (P C : Pos)
    (hm : 1 ≤ m) (hm2 : m < 2 ^ INDEX_BITS) (hv : C.lap + 1 < 2 ^ VERSION_BITS)
    (hCb : C.blk < m) (hCp : C.pos = m)
    (hcm : (pcur m P ((C.blk + 1) % m)).version = C.lap + 1) :
    advance_chead m (mkState m E P C) (⟨C.lap, C.blk⟩ : Field) ver =
      (true, mkState m E P (Pos.adv m C)) := by
  have hnb : (C.blk + 1) % m < m := Nat.mod_lt _ (by omega)
  have hlen : (mkState m E P C).blocks.length = m := mkState_length m E P C
  have hgd : (mkState m E P C).blocks.getD
      (((⟨C.lap, C.blk⟩ : Field).index + 1) % (mkState m E P C).blocks.length) defaultBlock =
      mkBlock m E P C ((C.blk + 1) % m) := by
    show (mkState m E P C).blocks.getD
      ((C.blk + 1) % (mkState m E P C).blocks.length) defaultBlock = _
    rw [hlen]
    exact mkState_getD m E P C _ hnb
  have h1 : ((mkState m E P C).blocks.getD
        (((⟨C.lap, C.blk⟩ : Field).index + 1) % (mkState m E P C).blocks.length)
        defaultBlock).comm.version = (⟨C.lap, C.blk⟩ : Field).version + 1 := by
    rw [hgd]
    exact hcm
  have h2 : ((mkState m E P C).blocks.getD
        (((⟨C.lap, C.blk⟩ : Field).index + 1) % (mkState m E P C).blocks.length)
        defaultBlock).resv =
      ((mkState m E P C).blocks.getD
        (((⟨C.lap, C.blk⟩ : Field).index + 1) % (mkState m E P C).blocks.length)
        defaultBlock).cons := by
    rw [hgd]
    rfl
  rw [advance_chead_success_eq m ver (mkState m E P C) ⟨C.lap, C.blk⟩ h1 h2]
  rw [Prod.mk.injEq]
  refine ⟨rfl, ?_⟩
  rw [hgd]
  have hsetidx : ((⟨C.lap, C.blk⟩ : Field).index + 1) % (mkState m E P C).blocks.length =
      (C.blk + 1) % m := by
    show (C.blk + 1) % (mkState m E P C).blocks.length = (C.blk + 1) % m
    rw [hlen]
  rw [hsetidx]
  have hstamp : (mkBlock m E P C ((C.blk + 1) % m)).cons.version <
      (mkField ((⟨C.lap, C.blk⟩ : Field).version + 1) 0).version := by
    show (pcur m C ((C.blk + 1) % m)).version < (C.lap + 1) % 2 ^ VERSION_BITS
    rw [pcur_nb_version m C hCb, Nat.mod_eq_of_lt hv]
    omega
  rw [if_pos hstamp]
  rw [show (⟨C.lap, C.blk⟩ : Field).version = C.lap from rfl]
  rw [mkBlock_cadv_cur m E P C hm hv hCb hCp]
  simp only [mkState]
  rw [Queue.mk.injEq]
  refine ⟨?_, rfl, advanceHead_adv m C hm2 hv hCb⟩
  apply list_set_ofFn _ _ _ _ hnb
  intro j
  by_cases hj : (j : Nat) = (C.blk + 1) % m
  · rw [if_pos hj, hj]
  · rw [if_neg hj]
    exact mkBlock_cadv_other m E P C j hm hCb hCp j.isLt hj

/-- Block-boundary dequeue with a committed next block: the consumer head
advances and the call retries on the advanced state. -/
theorem dequeue_adv (m k ver : Nat) (E : List Nat) (P C : Pos)
    (hm : 1 ≤ m) (hm2 : m < 2 ^ INDEX_BITS) (hv : C.lap + 1 < 2 ^ VERSION_BITS)
    (hCb : C.blk < m) (hCp : C.pos = m)
    (hcm : (pcur m P ((C.blk + 1) % m)).version = C.lap + 1) :
    dequeue m (k + 1) (mkState m E P C) = dequeue m k (mkState m E P (Pos.adv m C)) := by
  have hgd : (mkState m E P C).blocks.getD (mkState m E P C).chead.index defaultBlock =
      mkBlock m E P C C.blk := by
    show (mkState m E P C).blocks.getD C.blk defaultBlock = _
    exact mkState_getD m E P C C.blk hCb
  have h1 : ¬((mkState m E P C).blocks.getD (mkState m E P C).chead.index
      defaultBlock).resv.index < m := by
    rw [hgd]
    show ¬(pcur m C C.blk).index < m
    have hix : (pcur m C C.blk).index = C.pos := by rw [pcur_cur]
    rw [hix]
    omega
  rw [dequeue_bd_eq m k (mkState m E P C) h1]
  have hch : (mkState m E P C).chead = (⟨C.lap, C.blk⟩ : Field) := rfl
  rw [hch, advance_chead_mkState m _ E P C hm hm2 hv hCb hCp hcm]

/-- A dequeue on the empty queue (consumer has caught the producer) reports
nothing and changes nothing. -/
theorem dequeue_empty (m k : Nat) (E : List Nat) (P : Pos)
    (hm : 1 ≤ m) (hPb : P.blk < m) (hPp : P.pos ≤ m) :
    dequeue m (k + 1) (mkState m E P P) = some (none, mkState m E P P) := by
  have hgd : (mkState m E P P).blocks.getD (mkState m E P P).chead.index defaultBlock =
      mkBlock m E P P P.blk := by
    show (mkState m E P P).blocks.getD P.blk defaultBlock = _
    exact mkState_getD m E P P P.blk hPb
  have hix : (pcur m P P.blk).index = P.pos := by rw [pcur_cur]
  by_cases hp : P.pos < m
  · have h1 : ((mkState m E P P).blocks.getD (mkState m E P P).chead.index
        defaultBlock).resv.index < m := by
      rw [hgd]
      show (pcur m P P.blk).index < m
      rw [hix]
      exact hp
    have h2 : ((mkState m E P P).blocks.getD (mkState m E P P).chead.index
        defaultBlock).resv.index =
        ((mkState m E P P).blocks.getD (mkState m E P P).chead.index
        defaultBlock).comm.index := by
      rw [hgd]
      rfl
    exact dequeue_noentry_eq m k (mkState m E P P) h1 h2
  · have h1 : ¬((mkState m E P P).blocks.getD (mkState m E P P).chead.index
        defaultBlock).resv.index < m := by
      rw [hgd]
      show ¬(pcur m P P.blk).index < m
      rw [hix]
      exact hp
    rw [dequeue_bd_eq m k (mkState m E P P) h1]
    have hch : (mkState m E P P).chead = (⟨P.lap, P.blk⟩ : Field) := rfl
    rw [hch]
    have hne : ((mkState m E P P).blocks.getD
        (((⟨P.lap, P.blk⟩ : Field).index + 1) % (mkState m E P P).blocks.length)
        defaultBlock).comm.version ≠ (⟨P.lap, P.blk⟩ : Field).version + 1 := by
      have hnb : (P.blk + 1) % m < m := Nat.mod_lt _ (by omega)
      have hlen : (mkState m E P P).blocks.length = m := mkState_length m E P P
      have hgd2 : (mkState m E P P).blocks.getD
          (((⟨P.lap, P.blk⟩ : Field).index + 1) % (mkState m E P P).blocks.length)
          defaultBlock = mkBlock m E P P ((P.blk + 1) % m) := by
        show (mkState m E P P).blocks.getD
          ((P.blk + 1) % (mkState m E P P).blocks.length) defaultBlock = _
        rw [hlen]
        exact mkState_getD m E P P _ hnb
      rw [hgd2]
      show (pcur m P ((P.blk + 1) % m)).version ≠ P.lap + 1
      rw [pcur_nb_version m P hPb]
      omega
    rw [advance_chead_failed_eq m _ (mkState m E P P) ⟨P.lap, P.blk⟩ hne]

/-- A block-boundary dequeue with an uncommitted next block reports nothing
and changes nothing. -/
theorem dequeue_notcomm (m k : Nat) (E : List Nat) (P C : Pos)
    (hm : 1 ≤ m) (hCb : C.blk < m) (hCp : C.pos = m)
    (hncm : (pcur m P ((C.blk + 1) % m)).version ≠ C.lap + 1) :
    dequeue m (k + 1) (mkState m E P C) = some (none, mkState m E P C) := by
  have hgd : (mkState m E P C).blocks.getD (mkState m E P C).chead.index defaultBlock =
      mkBlock m E P C C.blk := by
    show (mkState m E P C).blocks.getD C.blk defaultBlock = _
    exact mkState_getD m E P C C.blk hCb
  have h1 : ¬((mkState m E P C).blocks.getD (mkState m E P C).chead.index
      defaultBlock).resv.index < m := by
    rw [hgd]
    show ¬(pcur m C C.blk).index < m
    have hix : (pcur m C C.blk).index = C.pos := by rw [pcur_cur]
    rw [hix]
    omega
  rw [dequeue_bd_eq m k (mkState m E P C) h1]
  have hch : (mkState m E P C).chead = (⟨C.lap, C.blk⟩ : Field) := rfl
  rw [hch]
  have hne : ((mkState m E P C).blocks.getD
      (((⟨C.lap, C.blk⟩ : Field).index + 1) % (mkState m E P C).blocks.length)
      defaultBlock).comm.version ≠ (⟨C.lap, C.blk⟩ : Field).version + 1 := by
    have hnb : (C.blk + 1) % m < m := Nat.mod_lt _ (by omega)
    have hlen : (mkState m E P C).blocks.length = m := mkState_length m E P C
    have hgd2 : (mkState m E P C).blocks.getD
        (((⟨C.lap, C.blk⟩ : Field).index + 1) % (mkState m E P C).blocks.length)
        defaultBlock = mkBlock m E P C ((C.blk + 1) % m) := by
      show (mkState m E P C).blocks.getD
        ((C.blk + 1) % (mkState m E P C).blocks.length) defaultBlock = _
      rw [hlen]
      exact mkState_getD m E P C _ hnb
    rw [hgd2]
    exact hncm
  rw [advance_chead_failed_eq m _ (mkState m E P C) ⟨C.lap, C.blk⟩ hne]

end BBQ

namespace BBQ

/-- A successful mid-block dequeue returns the value at the consumer's
global count and advances the consumer position by one slot. -/
theorem dequeue_mid (m k : Nat) (E : List Nat) (P C : Pos)
    (hm : 1 ≤ m) (hm2 : m < 2 ^ INDEX_BITS) (hv : C.lap + 1 < 2 ^ VERSION_BITS)
    (hPb : P.blk < m) (hPp : P.pos ≤ m) (hCb : C.blk < m) (hCp : C.pos < m)
    (hlt : C.glob m < P.glob m) (hle : Pos.lexLe C P)
    (hgate : 1 ≤ P.lap → Pos.lexLe ⟨P.lap - 1, P.blk, m⟩ C) :
    dequeue m (k + 1) (mkState m E P C) =
      some (some (E.getD (C.glob m) 0), mkState m E P ⟨C.lap, C.blk, C.pos + 1⟩) := by
  have hgd : (mkState m E P C).blocks.getD (mkState m E P C).chead.index defaultBlock =
      mkBlock m E P C C.blk := by
    show (mkState m E P C).blocks.getD C.blk defaultBlock = _
    exact mkState_getD m E P C C.blk hCb
  have hix : (pcur m C C.blk).index = C.pos := by rw [pcur_cur]
  have h1 : ((mkState m E P C).blocks.getD (mkState m E P C).chead.index
      defaultBlock).resv.index < m := by
    rw [hgd]
    show (pcur m C C.blk).index < m
    rw [hix]
    exact hCp
  have h2 : ((mkState m E P C).blocks.getD (mkState m E P C).chead.index
      defaultBlock).resv.index ≠
      ((mkState m E P C).blocks.getD (mkState m E P C).chead.index
      defaultBlock).comm.index := by
    rw [hgd]
    show (pcur m C C.blk).index ≠ (pcur m P C.blk).index
    rw [hix]
    exact deq_ready m P C hm hPb hCb hCp hlt hle hgate
  have h3 : ¬(((mkState m E P C).blocks.getD (mkState m E P C).chead.index
      defaultBlock).comm.index ≠ m ∧
      ((mkState m E P C).blocks.getD (mkState m E P C).chead.index
      defaultBlock).alloc.index ≠
      ((mkState m E P C).blocks.getD (mkState m E P C).chead.index
      defaultBlock).comm.index) := by
    rw [hgd]
    rintro ⟨-, hne⟩
    exact hne rfl
  rw [dequeue_succ_eq m k (mkState m E P C) h1 h2 h3]
  rw [hgd]
  rw [show (mkState m E P C).chead.index = C.blk from rfl]
  have hval : (mkBlock m E P C C.blk).data.getD (mkBlock m E P C C.blk).resv.index 0 =
      E.getD (C.glob m) 0 := by
    rw [show (mkBlock m E P C C.blk).resv = pcur m C C.blk from rfl, hix]
    show (List.ofFn fun p : Fin m => slotVal m E (C.glob m) P C.blk (p : Nat)).getD C.pos 0 = _
    rw [list_getD_ofFn _ _ _ hCp]
    show slotVal m E (C.glob m) P C.blk C.pos = _
    exact slotVal_at_cons m E P C hm hPb hPp hCb hCp hlt hle hgate
  rw [hval]
  have hstate : Queue.mk
      ((mkState m E P C).blocks.set C.blk
        ((consume_entry
          { mkBlock m E P C C.blk with
              resv := mkField (mkBlock m E P C C.blk).resv.version
                (max (mkBlock m E P C C.blk).resv.index
                     ((mkBlock m E P C C.blk).resv.index + 1)) }
          (mkBlock m E P C C.blk).resv).2))
      (mkState m E P C).phead (mkState m E P C).chead =
      mkState m E P ⟨C.lap, C.blk, C.pos + 1⟩ := by
    simp only [mkState]
    rw [Queue.mk.injEq]
    refine ⟨?_, rfl, rfl⟩
    apply list_set_ofFn _ _ C.blk _ hCb
    intro j
    by_cases hj : (j : Nat) = C.blk
    · rw [if_pos hj, hj]
      rw [mkBlock_deq_cur m E P C hm hm2 hv hPb hPp hCb hCp hlt hle hgate]
      rfl
    · rw [if_neg hj]
      exact mkBlock_deq_other m E P C j hm hCb hCp j.isLt hj
  rw [hstate]

end BBQ

namespace BBQ

theorem lexLe_pos_succ (P : Pos) : Pos.lexLe P ⟨P.lap, P.blk, P.pos + 1⟩ := by
  show P.lap < P.lap ∨ (P.lap = P.lap ∧ (P.blk < P.blk ∨ (P.blk = P.blk ∧ P.pos ≤ P.pos + 1)))
  omega

theorem lexLe_adv_self (m : Nat) (P : Pos) : Pos.lexLe P (Pos.adv m P) := by
  rw [Pos.adv]
  split_ifs with hw
  · show P.lap < P.lap + 1 ∨ (P.lap = P.lap + 1 ∧ (P.blk < 0 ∨ (P.blk = 0 ∧ P.pos ≤ 0)))
    omega
  · show P.lap < P.lap ∨ (P.lap = P.lap ∧ (P.blk < P.blk + 1 ∨ (P.blk = P.blk + 1 ∧ P.pos ≤ 0)))
    omega

theorem lexLe_adv1 (m : Nat) (P : Pos) :
    Pos.lexLe P ⟨(Pos.adv m P).lap, (Pos.adv m P).blk, 1⟩ := by
  rw [Pos.adv]
  split_ifs with hw
  · show P.lap < P.lap + 1 ∨ (P.lap = P.lap + 1 ∧ (P.blk < 0 ∨ (P.blk = 0 ∧ P.pos ≤ 1)))
    omega
  · show P.lap < P.lap ∨ (P.lap = P.lap ∧ (P.blk < P.blk + 1 ∨ (P.blk = P.blk + 1 ∧ P.pos ≤ 1)))
    omega

theorem lexLe_of_lexLt (a b : Pos) (h : a.lexLt b) : a.lexLe b := by
  have h' : a.lap < b.lap ∨ (a.lap = b.lap ∧ (a.blk < b.blk ∨ (a.blk = b.blk ∧ a.pos < b.pos))) := h
  show a.lap < b.lap ∨ (a.lap = b.lap ∧ (a.blk < b.blk ∨ (a.blk = b.blk ∧ a.pos ≤ b.pos)))
  omega

theorem lap_le_glob (m : Nat) (P : Pos) (hm : 1 ≤ m) : P.lap ≤ P.glob m := by
  show P.lap ≤ (P.lap * m + P.blk) * m + P.pos
  calc P.lap ≤ P.lap * m := Nat.le_mul_of_pos_right _ (by omega)
    _ ≤ (P.lap * m + P.blk) * m := by
        calc P.lap * m ≤ P.lap * m + P.blk := by omega
          _ ≤ (P.lap * m + P.blk) * m := Nat.le_mul_of_pos_right _ (by omega)
    _ ≤ (P.lap * m + P.blk) * m + P.pos := by omega

/-- A successful producer advance re-establishes the drain gate for the new
producer block. -/
theorem gate_after_adv (m : Nat) (P C : Pos) (hm : 1 ≤ m)
    (hPb : P.blk < m) (hCb : C.blk < m) (hCp : C.pos ≤ m)
    (hok : ¬((pcur m C ((P.blk + 1) % m)).version < P.lap ∨
      ((pcur m C ((P.blk + 1) % m)).version = P.lap ∧
       (pcur m C ((P.blk + 1) % m)).index ≠ m))) :
    1 ≤ (Pos.adv m P).lap → Pos.lexLe ⟨(Pos.adv m P).lap - 1, (Pos.adv m P).blk, m⟩ C := by
  rw [nbIdx_eq m P.blk hPb, pcur_version, pcur_index] at hok
  rw [Pos.adv]
  by_cases hw : P.blk + 1 = m
  · rw [if_pos hw] at hok ⊢
    intro h1
    show P.lap + 1 - 1 < C.lap ∨ (P.lap + 1 - 1 = C.lap ∧ (0 < C.blk ∨ (0 = C.blk ∧ m ≤ C.pos)))
    split_ifs at hok <;> first | omega | exact (by assumption : False).elim
  · rw [if_neg hw] at hok ⊢
    intro h1
    have h1' : 1 ≤ P.lap := h1
    show P.lap - 1 < C.lap ∨ (P.lap - 1 = C.lap ∧
      (P.blk + 1 < C.blk ∨ (P.blk + 1 = C.blk ∧ m ≤ C.pos)))
    split_ifs at hok <;> first | omega | exact (by assumption : False).elim

/-- A consumer at a block boundary whose next block carries the expected
commit generation is strictly behind the producer. -/
theorem deq_bd_lt (m : Nat) (P C : Pos) (hm : 1 ≤ m) (hPb : P.blk < m) (hPp : P.pos ≤ m)
    (hCb : C.blk < m) (hCp : C.pos = m) (hle : Pos.lexLe C P)
    (hP0 : P.pos = 0 → P = ⟨0, 0, 0⟩)
    (hcm : (pcur m P ((C.blk + 1) % m)).version = C.lap + 1) :
    C.glob m < P.glob m := by
  have hdle : C.glob m ≤ P.glob m := glob_le m C P hCb (by omega) hle
  by_contra hcon
  have he : C.glob m = P.glob m := by omega
  by_cases hpp : P.pos = m
  · have d1 : C.glob m = (C.lap * m + C.blk) * m + m := by
      show (C.lap * m + C.blk) * m + C.pos = _
      rw [hCp]
    have d2 : P.glob m = (P.lap * m + P.blk) * m + m := by
      show (P.lap * m + P.blk) * m + P.pos = _
      rw [hpp]
    have e0 : (C.lap * m + C.blk) * m + 0 = (P.lap * m + P.blk) * m + 0 := by omega
    obtain ⟨hl, hb, -⟩ := glob_inj m C.lap C.blk 0 P.lap P.blk 0 hCb (by omega) hPb (by omega) e0
    rw [hb] at hcm
    rw [pcur_nb_version m P hPb] at hcm
    omega
  · have hppl : P.pos < m := by omega
    have d1 : (Pos.adv m C).glob m =
        ((Pos.adv m C).lap * m + (Pos.adv m C).blk) * m + 0 := by
      show ((Pos.adv m C).lap * m + (Pos.adv m C).blk) * m + (Pos.adv m C).pos = _
      rw [adv_pos]
    have d2 : (Pos.adv m C).glob m = C.glob m := glob_adv m C hCp
    have d3 : P.glob m = (P.lap * m + P.blk) * m + P.pos := rfl
    have e1 : ((Pos.adv m C).lap * m + (Pos.adv m C).blk) * m + 0 =
        (P.lap * m + P.blk) * m + P.pos := by omega
    obtain ⟨hl, hb, hp⟩ := glob_inj m (Pos.adv m C).lap (Pos.adv m C).blk 0 P.lap P.blk P.pos
      (adv_blk_lt m C hm hCb) (by omega) hPb hppl e1
    have hP00 := hP0 hp.symm
    have hl' : (Pos.adv m C).lap = 0 := by rw [hl, hP00]
    have hb' : (Pos.adv m C).blk = 0 := by rw [hb, hP00]
    rw [Pos.adv] at hl' hb'
    by_cases hw : C.blk + 1 = m
    · rw [if_pos hw] at hl'
      have h0 : C.lap + 1 = 0 := hl'
      omega
    · rw [if_neg hw] at hb'
      have h0 : C.blk + 1 = 0 := hb'
      omega

end BBQ

namespace BBQ

/-- One complete `enqueue` call on a reachable state, fuel 2: it either
accepts the value (appending it to the accepted list and advancing the
producer) or rejects it leaving the state unchanged. -/
theorem enqueue_step (m v : Nat) (E : List Nat) (P C : Pos) (hG : Good m E P C)
    (hv : P.lap + 1 < 2 ^ VERSION_BITS) :
    (∃ P', enqueue m 2 (mkState m E P C) v = some (true, mkState m (E ++ [v]) P' C) ∧
        Good m (E ++ [v]) P' C) ∨
    (enqueue m 2 (mkState m E P C) v = some (false, mkState m E P C)) := by
  obtain ⟨hm, hm2, hPb, hPp, hCb, hCp, hle, hgate, hP0, hE⟩ := hG
  have hd : C.glob m ≤ P.glob m := glob_le m C P hCb hCp hle
  by_cases hp : P.pos < m
  · left
    refine ⟨⟨P.lap, P.blk, P.pos + 1⟩, enqueue_mid m 1 v E P C hm hm2 hPb hp hE hd, ?_⟩
    refine ⟨hm, hm2, hPb, ?_, hCb, hCp, ?_, ?_, ?_, ?_⟩
    · show P.pos + 1 ≤ m
      omega
    · exact lexLe_trans C P ⟨P.lap, P.blk, P.pos + 1⟩ hle (lexLe_pos_succ P)
    · exact hgate
    · intro h
      exact absurd (show P.pos + 1 = 0 from h) (by omega)
    · have hlen : (E ++ [v]).length = E.length + 1 := by simp
      rw [hlen]
      show E.length + 1 = (P.lap * m + P.blk) * m + (P.pos + 1)
      have hE' : E.length = (P.lap * m + P.blk) * m + P.pos := hE
      omega
  · have hpm : P.pos = m := by omega
    by_cases hblk : (pcur m C ((P.blk + 1) % m)).version < P.lap ∨
        ((pcur m C ((P.blk + 1) % m)).version = P.lap ∧
         (pcur m C ((P.blk + 1) % m)).index ≠ m)
    · right
      exact enqueue_blocked m 1 v E P C hm hPb hpm hblk
    · left
      refine ⟨⟨(Pos.adv m P).lap, (Pos.adv m P).blk, 1⟩,
        enqueue_advance m 0 v E P C hm hm2 hv hPb hpm hE hd hblk, ?_⟩
      have hgl : Pos.glob m ⟨(Pos.adv m P).lap, (Pos.adv m P).blk, 1⟩ = P.glob m + 1 := by
        have g1 : Pos.glob m ⟨(Pos.adv m P).lap, (Pos.adv m P).blk, 1⟩ =
            ((Pos.adv m P).lap * m + (Pos.adv m P).blk) * m + 1 := rfl
        have g2 : (Pos.adv m P).glob m =
            ((Pos.adv m P).lap * m + (Pos.adv m P).blk) * m + 0 := by
          show ((Pos.adv m P).lap * m + (Pos.adv m P).blk) * m + (Pos.adv m P).pos = _
          rw [adv_pos]
        have g3 : (Pos.adv m P).glob m = P.glob m := glob_adv m P hpm
        omega
      refine ⟨hm, hm2, ?_, ?_, hCb, hCp, ?_, ?_, ?_, ?_⟩
      · show (Pos.adv m P).blk < m
        exact adv_blk_lt m P hm hPb
      · show (1 : Nat) ≤ m
        omega
      · exact lexLe_trans C P ⟨(Pos.adv m P).lap, (Pos.adv m P).blk, 1⟩ hle (lexLe_adv1 m P)
      · exact gate_after_adv m P C hm hPb hCb hCp hblk
      · intro h
        exact absurd (show (1 : Nat) = 0 from h) (by omega)
      · show (E ++ [v]).length = Pos.glob m ⟨(Pos.adv m P).lap, (Pos.adv m P).blk, 1⟩
        rw [List.length_append, hgl]
        show E.length + 1 = P.glob m + 1
        omega

/-- One complete `dequeue` call on a reachable state, fuel 2: it either
returns the value at the consumer's global count (advancing the consumer by
one slot, possibly across a block boundary) or returns nothing leaving the
state unchanged. -/
theorem dequeue_step (m : Nat) (E : List Nat) (P C : Pos) (hG : Good m E P C)
    (hv : C.lap + 2 < 2 ^ VERSION_BITS) :
    (∃ C', dequeue m 2 (mkState m E P C) =
        some (some (E.getD (C.glob m) 0), mkState m E P C') ∧
        Good m E P C' ∧ C'.glob m = C.glob m + 1 ∧ C.glob m < E.length) ∨
    (dequeue m 2 (mkState m E P C) = some (none, mkState m E P C)) := by
  obtain ⟨hm, hm2, hPb, hPp, hCb, hCp, hle, hgate, hP0, hE⟩ := hG
  have hd : C.glob m ≤ P.glob m := glob_le m C P hCb hCp hle
  by_cases hcp : C.pos < m
  · by_cases hlt : C.glob m < P.glob m
    · left
      have hclt : Pos.lexLt C P := lexLt_of_glob_lt m C P hPb hPp hlt
      have hclt' : C.lap < P.lap ∨ (C.lap = P.lap ∧
          (C.blk < P.blk ∨ (C.blk = P.blk ∧ C.pos < P.pos))) := hclt
      refine ⟨⟨C.lap, C.blk, C.pos + 1⟩,
        dequeue_mid m 1 E P C hm hm2 (by omega) hPb hPp hCb hcp hlt hle hgate, ?_, ?_, ?_⟩
      · refine ⟨hm, hm2, hPb, hPp, hCb, ?_, ?_, ?_, hP0, hE⟩
        · show C.pos + 1 ≤ m
          omega
        · show C.lap < P.lap ∨ (C.lap = P.lap ∧
            (C.blk < P.blk ∨ (C.blk = P.blk ∧ C.pos + 1 ≤ P.pos)))
          omega
        · intro h
          exact lexLe_trans _ C ⟨C.lap, C.blk, C.pos + 1⟩ (hgate h) (lexLe_pos_succ C)
      · show (C.lap * m + C.blk) * m + (C.pos + 1) = C.glob m + 1
        show (C.lap * m + C.blk) * m + (C.pos + 1) = (C.lap * m + C.blk) * m + C.pos + 1
        omega
      · omega
    · right
      have he : C.glob m = P.glob m := by omega
      have hcp2 : C = P := eq_of_glob_eq m C P hCb hcp hle he
      rw [hcp2]
      exact dequeue_empty m 1 E P hm hPb hPp
  · have hcm0 : C.pos = m := by omega
    by_cases hcm : (pcur m P ((C.blk + 1) % m)).version = C.lap + 1
    · left
      have hlt : C.glob m < P.glob m :=
        deq_bd_lt m P C hm hPb hPp hCb hcm0 hle hP0 hcm
      have hC2b : (Pos.adv m C).blk < m := adv_blk_lt m C hm hCb
      have hC2p : (Pos.adv m C).pos = 0 := adv_pos m C
      have hC2g : (Pos.adv m C).glob m = C.glob m := glob_adv m C hcm0
      have hC2lap : (Pos.adv m C).lap ≤ C.lap + 1 := by
        rw [Pos.adv]
        split_ifs with hw
        · show C.lap + 1 ≤ C.lap + 1
          omega
        · show C.lap ≤ C.lap + 1
          omega
      have hlt2 : (Pos.adv m C).glob m < P.glob m := by omega
      have hle2 : Pos.lexLe (Pos.adv m C) P :=
        lexLe_of_lexLt _ _ (lexLt_of_glob_lt m (Pos.adv m C) P hPb hPp hlt2)
      have hgate2 : 1 ≤ P.lap → Pos.lexLe ⟨P.lap - 1, P.blk, m⟩ (Pos.adv m C) :=
        fun h => lexLe_trans _ C (Pos.adv m C) (hgate h) (lexLe_adv_self m C)
      have hstep := dequeue_mid m 0 E P (Pos.adv m C) hm hm2 (by omega) hPb hPp
        hC2b (by omega) hlt2 hle2 hgate2
      refine ⟨⟨(Pos.adv m C).lap, (Pos.adv m C).blk, (Pos.adv m C).pos + 1⟩, ?_, ?_, ?_, ?_⟩
      · rw [show (2 : Nat) = 1 + 1 from rfl,
          dequeue_adv m 1 0 E P C hm hm2 (by omega) hCb hcm0 hcm, hstep, hC2g]
      · have hle2' : (Pos.adv m C).lap < P.lap ∨ ((Pos.adv m C).lap = P.lap ∧
            ((Pos.adv m C).blk < P.blk ∨ ((Pos.adv m C).blk = P.blk ∧
             (Pos.adv m C).pos < P.pos))) := lexLt_of_glob_lt m (Pos.adv m C) P hPb hPp hlt2
        refine ⟨hm, hm2, hPb, hPp, ?_, ?_, ?_, ?_, hP0, hE⟩
        · exact hC2b
        · show (Pos.adv m C).pos + 1 ≤ m
          omega
        · show (Pos.adv m C).lap < P.lap ∨ ((Pos.adv m C).lap = P.lap ∧
            ((Pos.adv m C).blk < P.blk ∨ ((Pos.adv m C).blk = P.blk ∧
             (Pos.adv m C).pos + 1 ≤ P.pos)))
          omega
        · intro h
          exact lexLe_trans _ (Pos.adv m C) ⟨(Pos.adv m C).lap, (Pos.adv m C).blk,
            (Pos.adv m C).pos + 1⟩ (hgate2 h) (lexLe_pos_succ (Pos.adv m C))
      · show ((Pos.adv m C).lap * m + (Pos.adv m C).blk) * m + ((Pos.adv m C).pos + 1) =
          C.glob m + 1
        have g2 : (Pos.adv m C).glob m =
            ((Pos.adv m C).lap * m + (Pos.adv m C).blk) * m + (Pos.adv m C).pos := rfl
        omega
      · omega
    · right
      exact dequeue_notcomm m 1 E P C hm hCb hcm0 hcm

end BBQ

namespace BBQ

theorem drop_take_self {α : Type} (E : List α) (d : Nat) : (E.take d).drop d = [] :=
  List.drop_eq_nil_of_le (by rw [List.length_take]; omega)

theorem drop_take_cons (E : List Nat) (d e : Nat) (h1 : d < e) (h2 : d < E.length) :
    (E.take e).drop d = E.getD d 0 :: (E.take e).drop (d + 1) := by
  have hlen : d < (E.take e).length := by
    rw [List.length_take]
    omega
  rw [List.drop_eq_getElem_cons hlen]
  congr 1
  rw [List.getElem_take]
  rw [List.getD_eq_getElem?_getD, List.getElem?_eq_getElem h2]
  rfl

/-- Running any list of complete calls with fuel 2 from a reachable state of
the square regime succeeds, stays reachable, appends exactly the accepted
values to the history, and returns as dequeued values the slice of the
history between the consumer's starting and final global counts. -/
theorem runOps_good (m : Nat) (ops : List Op) :
    ∀ (E : List Nat) (P C : Pos),
      Good m E P C →
      E.length + ops.length + 2 < 2 ^ VERSION_BITS →
      ∃ (A : List Nat) (P' C' : Pos),
        runOps m 2 (mkState m E P C) ops =
          some (mkState m (E ++ A) P' C', A,
                ((E ++ A).take (C'.glob m)).drop (C.glob m)) ∧
        Good m (E ++ A) P' C' ∧
        A.length ≤ ops.length ∧
        C.glob m ≤ C'.glob m := by
  induction ops with
  | nil =>
    intro E P C hG hbud
    refine ⟨[], P, C, ?_, ?_, ?_, le_refl _⟩
    · rw [List.append_nil, drop_take_self]
      rfl
    · rw [List.append_nil]
      exact hG
    · simp
  | cons op rest ih =>
    intro E P C hG hbud
    have hm : 1 ≤ m := hG.1
    have hlexr : C.lap < P.lap ∨ (C.lap = P.lap ∧
        (C.blk < P.blk ∨ (C.blk = P.blk ∧ C.pos ≤ P.pos))) := hG.2.2.2.2.2.2.1
    have hElen : E.length = P.glob m := hG.2.2.2.2.2.2.2.2.2
    have hPlap : P.lap ≤ P.glob m := lap_le_glob m P hm
    cases op with
    | enq v =>
      rcases enqueue_step m v E P C hG (by simp only [List.length_cons] at hbud; omega)
        with ⟨P2, henq, hG2⟩ | henq
      · have hbud2 : (E ++ [v]).length + rest.length + 2 < 2 ^ VERSION_BITS := by
          rw [List.length_append]
          simp only [List.length_cons] at hbud
          simp
          omega
        obtain ⟨A, P', C', hrun, hG', hAlen, hCle⟩ := ih (E ++ [v]) P2 C hG2 hbud2
        have hEq : (E ++ [v]) ++ A = E ++ v :: A := by
          rw [List.append_assoc]
          rfl
        refine ⟨v :: A, P', C', ?_, ?_, ?_, hCle⟩
        · rw [runOps, henq]
          simp only []
          rw [hrun]
          simp only []
          rw [hEq]
          simp
        · rw [← hEq]
          exact hG'
        · simp only [List.length_cons]
          omega
      · have hbud2 : E.length + rest.length + 2 < 2 ^ VERSION_BITS := by
          simp only [List.length_cons] at hbud
          omega
        obtain ⟨A, P', C', hrun, hG', hAlen, hCle⟩ := ih E P C hG hbud2
        refine ⟨A, P', C', ?_, hG', ?_, hCle⟩
        · rw [runOps, henq]
          simp only []
          rw [hrun]
          simp
        · simp only [List.length_cons]
          omega
    | deq =>
      have hbud2 : E.length + rest.length + 2 < 2 ^ VERSION_BITS := by
        simp only [List.length_cons] at hbud
        omega
      rcases dequeue_step m E P C hG (by omega) with ⟨C2, hdeq, hG2, hCg, hClt⟩ | hdeq
      · obtain ⟨A, P', C', hrun, hG', hAlen, hCle⟩ := ih E P C2 hG2 hbud2
        refine ⟨A, P', C', ?_, hG', ?_, by omega⟩
        · rw [runOps, hdeq]
          simp only []
          rw [hrun]
          simp only []
          rw [drop_take_cons (E ++ A) (C.glob m) (C'.glob m) (by omega)
            (by rw [List.length_append]; omega)]
          rw [list_getD_append E A (C.glob m) 0 hClt]
          rw [hCg]
          simp
        · simp only [List.length_cons]
          omega
      · obtain ⟨A, P', C', hrun, hG', hAlen, hCle⟩ := ih E P C hG hbud2
        refine ⟨A, P', C', ?_, hG', ?_, hCle⟩
        · rw [runOps, hdeq]
          simp only []
          rw [hrun]
          simp
        · simp only [List.length_cons]
          omega

end BBQ

namespace BBQ

/-- Core of the live-slot argument, stated for an arbitrary base-`m`
decomposition of the global position. -/
theorem slotVal_live_core (m : Nat) (E : List Nat) (P C : Pos) (g L j p : Nat)
    (hm : 1 ≤ m) (hPb : P.blk < m) (hPp : P.pos ≤ m) (hCb : C.blk < m) (hCp : C.pos ≤ m)
    (hj : j < m) (hp : p < m) (hdec : (L * m + j) * m + p = g)
    (hgate : 1 ≤ P.lap → Pos.lexLe ⟨P.lap - 1, P.blk, m⟩ C)
    (hdg : C.glob m ≤ g) (hge : g < P.glob m) :
    slotVal m E (C.glob m) P j p = E.getD g 0 := by
  have hgPg : Pos.glob m ⟨L, j, p⟩ = g := hdec
  have hlt : Pos.lexLt ⟨L, j, p⟩ P :=
    lexLt_of_glob_lt m ⟨L, j, p⟩ P hPb hPp (by rw [hgPg]; exact hge)
  have hlt' : L < P.lap ∨ (L = P.lap ∧ (j < P.blk ∨ (j = P.blk ∧ p < P.pos))) := hlt
  by_cases hb : j < P.blk ∨ (j = P.blk ∧ p < P.pos)
  · have hLeq : L = P.lap := by
      by_contra hne
      have hL : L < P.lap := by omega
      have hP1 : 1 ≤ P.lap := by omega
      have hg2 := glob_le m ⟨P.lap - 1, P.blk, m⟩ C (by show P.blk < m; exact hPb)
        (by show m ≤ m; omega) (hgate hP1)
      have hlt2 : Pos.lexLt ⟨L, j, p⟩ ⟨P.lap - 1, P.blk, m⟩ := by
        show L < P.lap - 1 ∨ (L = P.lap - 1 ∧ (j < P.blk ∨ (j = P.blk ∧ p < m)))
        omega
      have hg3 := glob_lt m ⟨L, j, p⟩ ⟨P.lap - 1, P.blk, m⟩
        (by show j < m; exact hj) (by show p < m; exact hp) hlt2
      rw [hgPg] at hg3
      omega
    rw [slotVal, if_pos hb]
    have hgterm : (P.lap * m + j) * m + p = g := by
      rw [← hLeq]
      exact hdec
    rw [hgterm, if_pos hdg]
  · have hLlt : L < P.lap := by omega
    have hP1 : 1 ≤ P.lap := by omega
    have hg2 := glob_le m ⟨P.lap - 1, P.blk, m⟩ C (by show P.blk < m; exact hPb)
      (by show m ≤ m; omega) (hgate hP1)
    have hLeq : L = P.lap - 1 := by
      by_contra hne
      have hL : L < P.lap - 1 := by omega
      have hlt2 : Pos.lexLt ⟨L, j, p⟩ ⟨P.lap - 1, P.blk, m⟩ := by
        show L < P.lap - 1 ∨ (L = P.lap - 1 ∧ (j < P.blk ∨ (j = P.blk ∧ p < m)))
        omega
      have hg3 := glob_lt m ⟨L, j, p⟩ ⟨P.lap - 1, P.blk, m⟩
        (by show j < m; exact hj) (by show p < m; exact hp) hlt2
      rw [hgPg] at hg3
      omega
    rw [slotVal, if_neg hb, if_pos hP1]
    have hgterm : ((P.lap - 1) * m + j) * m + p = g := by
      rw [← hLeq]
      exact hdec
    rw [hgterm, if_pos hdg]

/-- Every slot between the consumer's and the producer's global counts holds
the accepted value of its global position. -/
theorem slotVal_live (m : Nat) (E : List Nat) (P C : Pos) (g : Nat)
    (hm : 1 ≤ m) (hPb : P.blk < m) (hPp : P.pos ≤ m) (hCb : C.blk < m) (hCp : C.pos ≤ m)
    (hgate : 1 ≤ P.lap → Pos.lexLe ⟨P.lap - 1, P.blk, m⟩ C)
    (hdg : C.glob m ≤ g) (hge : g < P.glob m) :
    slotVal m E (C.glob m) P ((g / m) % m) (g % m) = E.getD g 0 := by
  have hm0 : 0 < m := by omega
  have h1 : m * (g / m) + g % m = g := Nat.div_add_mod g m
  have h2 : m * (g / m / m) + (g / m) % m = g / m := Nat.div_add_mod (g / m) m
  have hdec : (g / m / m * m + (g / m) % m) * m + g % m = g := by
    calc (g / m / m * m + (g / m) % m) * m + g % m
        = (m * (g / m / m) + (g / m) % m) * m + g % m := by
          rw [Nat.mul_comm (g / m / m) m]
      _ = (g / m) * m + g % m := by rw [h2]
      _ = m * (g / m) + g % m := by rw [Nat.mul_comm]
      _ = g := h1
  exact slotVal_live_core m E P C g (g / m / m) ((g / m) % m) (g % m)
    hm hPb hPp hCb hCp (Nat.mod_lt _ hm0) (Nat.mod_lt _ hm0) hdec hgate hdg hge

theorem drop_eq_range'_map (E : List Nat) (d : Nat) :
    E.drop d = (List.range' d (E.length - d)).map fun g => E.getD g 0 := by
  apply List.ext_getElem
  · simp
  · intro i h1 h2
    simp only [List.length_drop] at h1
    rw [List.getElem_drop]
    rw [List.getElem_map, List.getElem_range']
    simp only [Nat.one_mul]
    rw [List.getD_eq_getElem?_getD, List.getElem?_eq_getElem (show d + i < E.length by omega)]
    rfl

/-- Reading the pending items off a reachable state yields exactly the
accepted values not yet consumed. -/
theorem contents_mkState (m : Nat) (E : List Nat) (P C : Pos)
    (hm : 1 ≤ m) (hPb : P.blk < m) (hPp : P.pos ≤ m) (hCb : C.blk < m) (hCp : C.pos ≤ m)
    (hgate : 1 ≤ P.lap → Pos.lexLe ⟨P.lap - 1, P.blk, m⟩ C)
    (hE : E.length = P.glob m) (hd : C.glob m ≤ P.glob m) :
    contents m (mkState m E P C) = E.drop (C.glob m) := by
  have hB : (mkState m E P C).blocks.length = m := mkState_length m E P C
  have hpb : (mkState m E P C).blocks.getD (mkState m E P C).phead.index defaultBlock =
      mkBlock m E P C P.blk := by
    show (mkState m E P C).blocks.getD P.blk defaultBlock = _
    exact mkState_getD m E P C P.blk hPb
  have hcb : (mkState m E P C).blocks.getD (mkState m E P C).chead.index defaultBlock =
      mkBlock m E P C C.blk := by
    show (mkState m E P C).blocks.getD C.blk defaultBlock = _
    exact mkState_getD m E P C C.blk hCb
  have hpalloc : ((mkState m E P C).blocks.getD (mkState m E P C).phead.index
      defaultBlock).alloc.index = P.pos := by
    rw [hpb]
    show (pcur m P P.blk).index = P.pos
    rw [pcur_cur]
  have hcresv : ((mkState m E P C).blocks.getD (mkState m E P C).chead.index
      defaultBlock).resv.index = C.pos := by
    rw [hcb]
    show (pcur m C C.blk).index = C.pos
    rw [pcur_cur]
  have hgE : ((mkState m E P C).phead.version * (mkState m E P C).blocks.length +
      (mkState m E P C).phead.index) * m +
      ((mkState m E P C).blocks.getD (mkState m E P C).phead.index
        defaultBlock).alloc.index = P.glob m := by
    rw [hpalloc, hB]
    show (P.lap * m + P.blk) * m + P.pos = P.glob m
    rfl
  have hgD : ((mkState m E P C).chead.version * (mkState m E P C).blocks.length +
      (mkState m E P C).chead.index) * m +
      ((mkState m E P C).blocks.getD (mkState m E P C).chead.index
        defaultBlock).resv.index = C.glob m := by
    rw [hcresv, hB]
    show (C.lap * m + C.blk) * m + C.pos = C.glob m
    rfl
  rw [contents]
  rw [hgE, hgD]
  rw [drop_eq_range'_map E (C.glob m), hE]
  apply List.map_congr_left
  intro g hgmem
  have hgr : C.glob m ≤ g ∧ g < C.glob m + (P.glob m - C.glob m) :=
    List.mem_range'_1.mp hgmem
  have hglt : g < P.glob m := by omega
  rw [hB]
  rw [mkState_getD m E P C _ (Nat.mod_lt _ (by omega))]
  show (List.ofFn fun p : Fin m =>
    slotVal m E (C.glob m) P ((g / m) % m) (p : Nat)).getD (g % m) 0 = E.getD g 0
  rw [list_getD_ofFn _ _ _ (Nat.mod_lt _ (by omega))]
  show slotVal m E (C.glob m) P ((g / m) % m) (g % m) = E.getD g 0
  exact slotVal_live m E P C g hm hPb hPp hCb hCp hgate hgr.1 hglt

/-- The freshly constructed queue is the closed form of the zero position. -/
theorem mkInit_eq (m : Nat) (hm : 1 ≤ m) (hm2 : m < 2 ^ INDEX_BITS) :
    Queue.mkInit m m = mkState m [] ⟨0, 0, 0⟩ ⟨0, 0, 0⟩ := by
  rw [Queue.mkInit, mkState]
  rw [Queue.mk.injEq]
  refine ⟨?_, rfl, rfl⟩
  congr 1
  funext i
  have hdata : (fun p : Fin m =>
      slotVal m [] (Pos.glob m ⟨0, 0, 0⟩) ⟨0, 0, 0⟩ (i : Nat) (p : Nat)) =
      fun _ : Fin m => 0 := by
    funext p
    rw [slotVal]
    rw [if_neg (by
      show ¬((i : Nat) < (0 : Nat) ∨ ((i : Nat) = 0 ∧ (p : Nat) < 0))
      omega)]
    rw [if_neg (by show ¬(1 ≤ 0); omega)]
  have hdata2 : (List.ofFn fun p : Fin m =>
      slotVal m [] (Pos.glob m ⟨0, 0, 0⟩) ⟨0, 0, 0⟩ (i : Nat) (p : Nat)) =
      List.replicate m 0 := by
    rw [hdata, List.ofFn_const]
  by_cases hi : (i : Nat) = 0
  · rw [if_pos hi]
    rw [Block.init, mkBlock, Block.mk.injEq]
    have hcur0 : pcur m ⟨0, 0, 0⟩ (i : Nat) = mkField 0 0 := by
      rw [hi]
      rfl
    exact ⟨hcur0.symm, hcur0.symm, hcur0.symm, hcur0.symm, hdata2.symm⟩
  · rw [if_neg hi]
    rw [Block.init, mkBlock, Block.mk.injEq]
    have hcur : pcur m ⟨0, 0, 0⟩ (i : Nat) = mkField 0 m := by
      rw [pcur, if_neg (by show ¬((i : Nat) ≤ 0); omega)]
      rw [mkField, Field.mk.injEq]
      constructor
      · show (0 : Nat) = 0 % 2 ^ VERSION_BITS
        rfl
      · show m = m % 2 ^ INDEX_BITS
        rw [Nat.mod_eq_of_lt hm2]
    exact ⟨hcur.symm, hcur.symm, hcur.symm, hcur.symm, hdata2.symm⟩

/-- The fresh queue state satisfies the reachable-state invariant. -/
theorem good_init (m : Nat) (hm : 1 ≤ m) (hm2 : m < 2 ^ INDEX_BITS) :
    Good m [] ⟨0, 0, 0⟩ ⟨0, 0, 0⟩ := by
  refine ⟨hm, hm2, ?_, ?_, ?_, ?_, ?_, ?_, ?_, ?_⟩
  · show (0 : Nat) < m
    omega
  · show (0 : Nat) ≤ m
    omega
  · show (0 : Nat) < m
    omega
  · show (0 : Nat) ≤ m
    omega
  · show (0 : Nat) < 0 ∨ ((0 : Nat) = 0 ∧ ((0 : Nat) < 0 ∨ ((0 : Nat) = 0 ∧ (0 : Nat) ≤ 0)))
    omega
  · intro h
    exact absurd (show (1 : Nat) ≤ 0 from h) (by omega)
  · intro h
    rfl
  · show (0 : Nat) = (0 * m + 0) * m + 0
    omega

end BBQ

namespace BBQ

/-- C1 (amended to the square regime `NE = B`, where the head-wrap modulus
`NE` agrees with the block count): for every interleaving of complete
`enqueue`/`dequeue` calls from a fresh queue, the run completes, the
successful dequeues return a prefix of the accepted values in order, and the
remaining accepted values are exactly the queue's pending contents — no
loss, no duplication, FIFO order. -/
theorem C1_fifo_no_loss (m : Nat) (ops : List Op)
    (hm : 1 ≤ m) (hm2 : m < 2 ^ INDEX_BITS)
    (hbud : ops.length + 2 < 2 ^ VERSION_BITS) :
    ∃ (q : Queue) (acc outs : List Nat),
      runOps m 2 (Queue.mkInit m m) ops = some (q, acc, outs) ∧
      acc = outs ++ contents m q := by
  obtain ⟨A, P', C', hrun, hG', hAlen, hCle⟩ :=
    runOps_good m ops [] ⟨0, 0, 0⟩ ⟨0, 0, 0⟩ (good_init m hm hm2) (by simp; omega)
  refine ⟨mkState m ([] ++ A) P' C', A,
    (([] ++ A).take (C'.glob m)).drop (Pos.glob m ⟨0, 0, 0⟩), ?_, ?_⟩
  · rw [mkInit_eq m hm hm2]
    exact hrun
  · have hg0 : Pos.glob m ⟨0, 0, 0⟩ = 0 := by
      show (0 * m + 0) * m + 0 = 0
      omega
    obtain ⟨-, -, hPb', hPp', hCb', hCp', hle', hgate', -, hE'⟩ := hG'
    have hcont : contents m (mkState m ([] ++ A) P' C') = ([] ++ A).drop (C'.glob m) :=
      contents_mkState m ([] ++ A) P' C' hm hPb' hPp' hCb' hCp' hgate' hE'
        (glob_le m C' P' hCb' hCp' hle')
    rw [hcont, hg0, List.nil_append, List.drop_zero]
    exact (List.take_append_drop (C'.glob m) A).symm

/-- C1 witness: a concrete enqueue/dequeue run on the one-slot queue. -/
theorem C1_fifo_no_loss_witness :
    ∃ (q : Queue) (acc outs : List Nat),
      runOps 1 2 (Queue.mkInit 1 1) [Op.enq 5, Op.deq] = some (q, acc, outs) ∧
      acc = outs ++ contents 1 q :=
  C1_fifo_no_loss 1 [Op.enq 5, Op.deq] (by decide) (by decide) (by decide)

end BBQ

namespace BBQ

theorem glob_zero (m : Nat) : Pos.glob m ⟨0, 0, 0⟩ = 0 := by
  show (0 * m + 0) * m + 0 = 0
  ring

theorem glob_lap0 (m b p : Nat) : Pos.glob m ⟨0, b, p⟩ = b * m + p := by
  show (0 * m + b) * m + p = b * m + p
  ring

theorem glob_full (m : Nat) (hm : 1 ≤ m) : Pos.glob m ⟨0, m - 1, m⟩ = m * m := by
  obtain ⟨n, rfl⟩ : ∃ n, m = n + 1 := ⟨m - 1, by omega⟩
  show (0 * (n + 1) + (n + 1 - 1)) * (n + 1) + (n + 1) = (n + 1) * (n + 1)
  simp only [Nat.add_sub_cancel]
  ring

/-- The only in-ring position of lap `0` whose global count is `m * m` is the
boundary position of the last block. -/
theorem full_shape (m b p : Nat) (hm : 1 ≤ m) (hb : b < m) (hp : p ≤ m)
    (he : b * m + p = m * m) : b = m - 1 ∧ p = m := by
  have hpm : p = m := by
    by_contra hpx
    have hplt : p < m := by omega
    have h1 : (b * m + p) % m = p % m := Nat.mul_add_mod' b m p
    have h2 : p % m = p := Nat.mod_eq_of_lt hplt
    have h3 : m * m % m = 0 := Nat.mul_mod_left m m
    rw [he] at h1
    have hp0 : p = 0 := by omega
    have hbm : b * m = m * m := by omega
    have hbe : b = m := Nat.eq_of_mul_eq_mul_right (by omega) hbm
    omega
  rw [hpm] at he
  refine ⟨?_, hpm⟩
  obtain ⟨n, rfl⟩ : ∃ n, m = n + 1 := ⟨m - 1, by omega⟩
  have h2 : (b + 1) * (n + 1) = b * (n + 1) + (n + 1) := by ring
  have h3 : (b + 1) * (n + 1) = (n + 1) * (n + 1) := by omega
  have h4 : b + 1 = n + 1 := Nat.eq_of_mul_eq_mul_right (by omega) h3
  omega

/-- Whenever a boundary consumer is strictly behind the producer, its next
block already carries the expected commit generation. -/
theorem cadv_committed (m : Nat) (P C : Pos) (hm : 1 ≤ m)
    (hPb : P.blk < m) (hPp : P.pos ≤ m) (hCb : C.blk < m) (hCp : C.pos = m)
    (hlt : C.glob m < P.glob m)
    (hgate : 1 ≤ P.lap → Pos.lexLe ⟨P.lap - 1, P.blk, m⟩ C) :
    (pcur m P ((C.blk + 1) % m)).version = C.lap + 1 := by
  have hC2g : (Pos.adv m C).glob m = C.glob m := glob_adv m C hCp
  have hlt2 : Pos.lexLt (Pos.adv m C) P :=
    lexLt_of_glob_lt m (Pos.adv m C) P hPb hPp (by omega)
  rw [nbIdx_eq m C.blk hCb, pcur_version]
  by_cases hw : C.blk + 1 = m
  · rw [if_pos hw]
    rw [if_pos (Nat.zero_le P.blk), if_pos rfl]
    have hadv : Pos.adv m C = ⟨C.lap + 1, 0, 0⟩ := by
      rw [Pos.adv, if_pos hw]
    rw [hadv] at hlt2
    have h3 : C.lap + 1 < P.lap ∨ (C.lap + 1 = P.lap ∧
        (0 < P.blk ∨ (0 = P.blk ∧ 0 < P.pos))) := hlt2
    rcases h3 with hl | ⟨heq, -⟩
    · have hg : P.lap - 1 < C.lap ∨ (P.lap - 1 = C.lap ∧
          (P.blk < C.blk ∨ (P.blk = C.blk ∧ m ≤ C.pos))) := hgate (by omega)
      omega
    · omega
  · rw [if_neg hw]
    have hadv : Pos.adv m C = ⟨C.lap, C.blk + 1, 0⟩ := by
      rw [Pos.adv, if_neg hw]
    rw [hadv] at hlt2
    have h3 : C.lap < P.lap ∨ (C.lap = P.lap ∧
        (C.blk + 1 < P.blk ∨ (C.blk + 1 = P.blk ∧ 0 < P.pos))) := hlt2
    by_cases hj : C.blk + 1 ≤ P.blk
    · rw [if_pos hj, if_neg (show ¬(C.blk + 1 = 0) from by omega)]
      rcases h3 with hl | ⟨heq, -⟩
      · have hg : P.lap - 1 < C.lap ∨ (P.lap - 1 = C.lap ∧
            (P.blk < C.blk ∨ (P.blk = C.blk ∧ m ≤ C.pos))) := hgate (by omega)
        omega
      · omega
    · rw [if_neg hj]
      rcases h3 with hl | ⟨heq, hr⟩
      · have hg : P.lap - 1 < C.lap ∨ (P.lap - 1 = C.lap ∧
            (P.blk < C.blk ∨ (P.blk = C.blk ∧ m ≤ C.pos))) := hgate (by omega)
        omega
      · omega

/-- One complete `dequeue` call on a reachable state whose consumer is
strictly behind the producer: it returns the value at the consumer's global
count and advances the consumer by one slot. -/
theorem dequeue_step_nonempty (m : Nat) (E : List Nat) (P C : Pos) (hG : Good m E P C)
    (hv : C.lap + 2 < 2 ^ VERSION_BITS) (hlt : C.glob m < P.glob m) :
    ∃ C', dequeue m 2 (mkState m E P C) =
        some (some (E.getD (C.glob m) 0), mkState m E P C') ∧
      Good m E P C' ∧ C'.glob m = C.glob m + 1 := by
  obtain ⟨hm, hm2, hPb, hPp, hCb, hCp, hle, hgate, hP0, hE⟩ := hG
  by_cases hcp : C.pos < m
  · have hclt' : C.lap < P.lap ∨ (C.lap = P.lap ∧
        (C.blk < P.blk ∨ (C.blk = P.blk ∧ C.pos < P.pos))) :=
      lexLt_of_glob_lt m C P hPb hPp hlt
    refine ⟨⟨C.lap, C.blk, C.pos + 1⟩,
      dequeue_mid m 1 E P C hm hm2 (by omega) hPb hPp hCb hcp hlt hle hgate, ?_, ?_⟩
    · refine ⟨hm, hm2, hPb, hPp, hCb, ?_, ?_, ?_, hP0, hE⟩
      · show C.pos + 1 ≤ m
        omega
      · show C.lap < P.lap ∨ (C.lap = P.lap ∧
          (C.blk < P.blk ∨ (C.blk = P.blk ∧ C.pos + 1 ≤ P.pos)))
        omega
      · intro h
        exact lexLe_trans _ C ⟨C.lap, C.blk, C.pos + 1⟩ (hgate h) (lexLe_pos_succ C)
    · show (C.lap * m + C.blk) * m + (C.pos + 1) = C.glob m + 1
      show (C.lap * m + C.blk) * m + (C.pos + 1) = (C.lap * m + C.blk) * m + C.pos + 1
      omega
  · have hcm0 : C.pos = m := by omega
    have hcm : (pcur m P ((C.blk + 1) % m)).version = C.lap + 1 :=
      cadv_committed m P C hm hPb hPp hCb hcm0 hlt hgate
    have hC2b : (Pos.adv m C).blk < m := adv_blk_lt m C hm hCb
    have hC2p : (Pos.adv m C).pos = 0 := adv_pos m C
    have hC2g : (Pos.adv m C).glob m = C.glob m := glob_adv m C hcm0
    have hC2lap : (Pos.adv m C).lap ≤ C.lap + 1 := by
      rw [Pos.adv]
      split_ifs with hw
      · show C.lap + 1 ≤ C.lap + 1
        omega
      · show C.lap ≤ C.lap + 1
        omega
    have hlt2 : (Pos.adv m C).glob m < P.glob m := by omega
    have hle2 : Pos.lexLe (Pos.adv m C) P :=
      lexLe_of_lexLt _ _ (lexLt_of_glob_lt m (Pos.adv m C) P hPb hPp hlt2)
    have hgate2 : 1 ≤ P.lap → Pos.lexLe ⟨P.lap - 1, P.blk, m⟩ (Pos.adv m C) :=
      fun h => lexLe_trans _ C (Pos.adv m C) (hgate h) (lexLe_adv_self m C)
    have hstep := dequeue_mid m 0 E P (Pos.adv m C) hm hm2 (by omega) hPb hPp
      hC2b (by omega) hlt2 hle2 hgate2
    refine ⟨⟨(Pos.adv m C).lap, (Pos.adv m C).blk, (Pos.adv m C).pos + 1⟩, ?_, ?_, ?_⟩
    · rw [show (2 : Nat) = 1 + 1 from rfl,
        dequeue_adv m 1 0 E P C hm hm2 (by omega) hCb hcm0 hcm, hstep, hC2g]
    · have hle2' : (Pos.adv m C).lap < P.lap ∨ ((Pos.adv m C).lap = P.lap ∧
          ((Pos.adv m C).blk < P.blk ∨ ((Pos.adv m C).blk = P.blk ∧
           (Pos.adv m C).pos < P.pos))) := lexLt_of_glob_lt m (Pos.adv m C) P hPb hPp hlt2
      refine ⟨hm, hm2, hPb, hPp, ?_, ?_, ?_, ?_, hP0, hE⟩
      · exact hC2b
      · show (Pos.adv m C).pos + 1 ≤ m
        omega
      · show (Pos.adv m C).lap < P.lap ∨ ((Pos.adv m C).lap = P.lap ∧
          ((Pos.adv m C).blk < P.blk ∨ ((Pos.adv m C).blk = P.blk ∧
           (Pos.adv m C).pos + 1 ≤ P.pos)))
        omega
      · intro h
        exact lexLe_trans _ (Pos.adv m C) ⟨(Pos.adv m C).lap, (Pos.adv m C).blk,
          (Pos.adv m C).pos + 1⟩ (hgate2 h) (lexLe_pos_succ (Pos.adv m C))
    · show ((Pos.adv m C).lap * m + (Pos.adv m C).blk) * m + ((Pos.adv m C).pos + 1) =
        C.glob m + 1
      have g2 : (Pos.adv m C).glob m =
          ((Pos.adv m C).lap * m + (Pos.adv m C).blk) * m + (Pos.adv m C).pos := rfl
      omega

/-- A lap-`0` producer with an idle consumer accepts every enqueue while the
accepted count stays within the `m * m` capacity. -/
theorem enq_run (m : Nat) : ∀ (vs E : List Nat) (b p : Nat),
    1 ≤ m → m < 2 ^ INDEX_BITS → b < m → p ≤ m →
    E.length = b * m + p → E.length + vs.length ≤ m * m →
    ∃ b' p', runOps m 2 (mkState m E ⟨0, b, p⟩ ⟨0, 0, 0⟩) (vs.map Op.enq) =
        some (mkState m (E ++ vs) ⟨0, b', p'⟩ ⟨0, 0, 0⟩, vs, []) ∧
      b' < m ∧ p' ≤ m ∧ (E ++ vs).length = b' * m + p' := by
  intro vs
  induction vs with
  | nil =>
    intro E b p hm hm2 hb hp hE hbud
    refine ⟨b, p, ?_, hb, hp, ?_⟩
    · rw [List.append_nil]
      rfl
    · rw [List.append_nil]
      exact hE
  | cons v vs ih =>
    intro E b p hm hm2 hb hp hE hbud
    simp only [List.length_cons] at hbud
    have hd : Pos.glob m ⟨0, 0, 0⟩ ≤ Pos.glob m ⟨0, b, p⟩ := by
      rw [glob_zero, glob_lap0]
      omega
    have hEg : E.length = Pos.glob m ⟨0, b, p⟩ := by
      rw [glob_lap0]
      exact hE
    by_cases hpm : p < m
    · have henq : enqueue m 2 (mkState m E ⟨0, b, p⟩ ⟨0, 0, 0⟩) v =
          some (true, mkState m (E ++ [v]) ⟨0, b, p + 1⟩ ⟨0, 0, 0⟩) :=
        enqueue_mid m 1 v E ⟨0, b, p⟩ ⟨0, 0, 0⟩ hm hm2 hb hpm hEg hd
      obtain ⟨b', p', hrun, hb', hp', hlen'⟩ := ih (E ++ [v]) b (p + 1) hm hm2 hb
        (by omega)
        (by simp only [List.length_append, List.length_cons, List.length_nil]; omega)
        (by simp only [List.length_append, List.length_cons, List.length_nil]; omega)
      have hEq : (E ++ [v]) ++ vs = E ++ v :: vs := by
        rw [List.append_assoc]
        rfl
      refine ⟨b', p', ?_, hb', hp', ?_⟩
      · rw [List.map_cons, runOps, henq]
        simp only []
        rw [hrun]
        simp only []
        rw [hEq]
        simp
      · rw [← hEq]
        exact hlen'
    · have hpe : p = m := by omega
      rw [hpe] at hE hEg hd ⊢
      have hbm : b + 1 < m := by
        by_contra hc
        have hb1 : b + 1 = m := by omega
        have h2 : (b + 1) * m = b * m + m := by ring
        rw [hb1] at h2
        omega
      have hnb : (b + 1) % m = b + 1 := Nat.mod_eq_of_lt hbm
      have hV : (pcur m ⟨0, 0, 0⟩ ((b + 1) % m)).version = 0 := by
        rw [hnb, pcur_version]
        show (if b + 1 ≤ 0 then (if b + 1 = 0 then 0 else 0 + 1) else (0 : Nat)) = 0
        rw [if_neg (show ¬(b + 1 ≤ 0) from by omega)]
      have hI : (pcur m ⟨0, 0, 0⟩ ((b + 1) % m)).index = m := by
        rw [hnb, pcur_index]
        show (if b + 1 ≤ 0 then (if b + 1 = 0 then (0 : Nat) else m) else m) = m
        rw [if_neg (show ¬(b + 1 ≤ 0) from by omega)]
      have hok : ¬((pcur m ⟨0, 0, 0⟩ ((b + 1) % m)).version < (0 : Nat) ∨
          ((pcur m ⟨0, 0, 0⟩ ((b + 1) % m)).version = 0 ∧
           (pcur m ⟨0, 0, 0⟩ ((b + 1) % m)).index ≠ m)) := by
        rw [hV, hI]
        omega
      have hadv : Pos.adv m ⟨0, b, m⟩ = ⟨0, b + 1, 0⟩ := by
        rw [Pos.adv,
          if_neg (show ¬((⟨0, b, m⟩ : Pos).blk + 1 = m) from by
            show ¬(b + 1 = m)
            omega)]
      have henq : enqueue m 2 (mkState m E ⟨0, b, m⟩ ⟨0, 0, 0⟩) v =
          some (true, mkState m (E ++ [v]) ⟨0, b + 1, 1⟩ ⟨0, 0, 0⟩) := by
        have h := enqueue_advance m 0 v E ⟨0, b, m⟩ ⟨0, 0, 0⟩ hm hm2
          (by show (0 : Nat) + 1 < 2 ^ VERSION_BITS; decide) hb rfl hEg hd hok
        rw [hadv] at h
        exact h
      obtain ⟨b', p', hrun, hb', hp', hlen'⟩ := ih (E ++ [v]) (b + 1) 1 hm hm2 hbm
        (by omega)
        (by
          simp only [List.length_append, List.length_cons, List.length_nil]
          have h2 : (b + 1) * m = b * m + m := by ring
          omega)
        (by simp only [List.length_append, List.length_cons, List.length_nil]; omega)
      have hEq : (E ++ [v]) ++ vs = E ++ v :: vs := by
        rw [List.append_assoc]
        rfl
      refine ⟨b', p', ?_, hb', hp', ?_⟩
      · rw [List.map_cons, runOps, henq]
        simp only []
        rw [hrun]
        simp only []
        rw [hEq]
        simp
      · rw [← hEq]
        exact hlen'

/-- On a reachable state with at least `n` pending values, `n` complete
`dequeue` calls all succeed and return the next `n` values of the history in
order. -/
theorem deq_run (m : Nat) : ∀ (n : Nat) (E : List Nat) (P C : Pos),
    Good m E P C → P.lap + 2 < 2 ^ VERSION_BITS →
    C.glob m + n ≤ P.glob m →
    ∃ C', runOps m 2 (mkState m E P C) (List.replicate n Op.deq) =
        some (mkState m E P C', [], (E.take (C.glob m + n)).drop (C.glob m)) ∧
      Good m E P C' ∧ C'.glob m = C.glob m + n := by
  intro n
  induction n with
  | zero =>
    intro E P C hG hbud hn
    refine ⟨C, ?_, hG, by omega⟩
    have h1 : (E.take (C.glob m + 0)).drop (C.glob m) = [] := by
      rw [Nat.add_zero]
      exact drop_take_self E (C.glob m)
    rw [h1]
    rfl
  | succ n ih =>
    intro E P C hG hbud hn
    have hCl : C.lap ≤ P.lap := by
      have h' : C.lap < P.lap ∨ (C.lap = P.lap ∧
          (C.blk < P.blk ∨ (C.blk = P.blk ∧ C.pos ≤ P.pos))) := hG.2.2.2.2.2.2.1
      omega
    have hElen : E.length = P.glob m := hG.2.2.2.2.2.2.2.2.2
    obtain ⟨C2, hdeq, hG2, hC2g⟩ := dequeue_step_nonempty m E P C hG (by omega) (by omega)
    obtain ⟨C', hrun, hG', hC'g⟩ := ih E P C2 hG2 hbud (by omega)
    refine ⟨C', ?_, hG', by omega⟩
    rw [show List.replicate (n + 1) Op.deq = Op.deq :: List.replicate n Op.deq from rfl]
    rw [runOps, hdeq]
    simp only []
    rw [hrun]
    simp only []
    rw [hC2g]
    rw [(by omega : C.glob m + 1 + n = C.glob m + (n + 1))]
    rw [drop_take_cons E (C.glob m) (C.glob m + (n + 1)) (by omega) (by omega)]
    rfl

end BBQ

namespace BBQ

/-- C2 (amended to the square regime `NE = B = m`, which covers the
repository's `Queue<uint64_t,16,4>` as the instance `m = 4`): from a fresh
queue, any `m * m` enqueued values are all accepted, a further enqueue is
rejected leaving the state unchanged, `m * m` dequeues then return exactly
the enqueued values in order, and a subsequent enqueue is accepted, its
value landing in slot `0` of block `0` with that block's committed cursor at
generation `1` and the producer head at block `0` of generation `1`. -/
theorem C2_capacity (m w x : Nat) (vs : List Nat)
    (hm : 1 ≤ m) (hm2 : m < 2 ^ INDEX_BITS) (hlen : vs.length = m * m) :
    ∃ q1 q2 q3 : Queue,
      runOps m 2 (Queue.mkInit m m) (vs.map Op.enq) = some (q1, vs, []) ∧
      enqueue m 2 q1 w = some (false, q1) ∧
      runOps m 2 q1 (List.replicate (m * m) Op.deq) = some (q2, [], vs) ∧
      enqueue m 2 q2 x = some (true, q3) ∧
      (q3.blocks.getD 0 defaultBlock).data.getD 0 0 = x ∧
      (q3.blocks.getD 0 defaultBlock).comm = ⟨1, 1⟩ ∧
      q3.phead = ⟨1, 0⟩ := by
  obtain ⟨b', p', hrun1, hb', hp', hlen'⟩ := enq_run m vs [] 0 0 hm hm2 (by omega)
    (by omega) (by simp) (by simp; omega)
  rw [List.nil_append] at hrun1 hlen'
  obtain ⟨hbe, hpe⟩ := full_shape m b' p' hm hb' hp' (by omega)
  subst hbe
  rw [hpe] at hrun1
  have hmod : (m - 1 + 1) % m = 0 := by
    rw [show m - 1 + 1 = m from by omega]
    exact Nat.mod_self m
  have hGfull : Good m vs ⟨0, m - 1, m⟩ ⟨0, 0, 0⟩ := by
    refine ⟨hm, hm2, ?_, ?_, ?_, ?_, ?_, ?_, ?_, ?_⟩
    · show m - 1 < m
      omega
    · show m ≤ m
      omega
    · show (0 : Nat) < m
      omega
    · show (0 : Nat) ≤ m
      omega
    · show (0 : Nat) < 0 ∨ ((0 : Nat) = 0 ∧
        ((0 : Nat) < m - 1 ∨ ((0 : Nat) = m - 1 ∧ (0 : Nat) ≤ m)))
      omega
    · intro h
      exact absurd (show (1 : Nat) ≤ 0 from h) (by omega)
    · intro h
      exact absurd (show m = 0 from h) (by omega)
    · rw [glob_full m hm]
      exact hlen
  have hpc2 : pcur m ⟨0, 0, 0⟩ ((m - 1 + 1) % m) = (⟨0, 0⟩ : Field) := by
    rw [hmod]
    rfl
  have hblk2 : (pcur m ⟨0, 0, 0⟩ ((m - 1 + 1) % m)).version < (0 : Nat) ∨
      ((pcur m ⟨0, 0, 0⟩ ((m - 1 + 1) % m)).version = 0 ∧
       (pcur m ⟨0, 0, 0⟩ ((m - 1 + 1) % m)).index ≠ m) := by
    rw [hpc2]
    right
    refine ⟨rfl, ?_⟩
    show (0 : Nat) ≠ m
    omega
  have henq2 : enqueue m 2 (mkState m vs ⟨0, m - 1, m⟩ ⟨0, 0, 0⟩) w =
      some (false, mkState m vs ⟨0, m - 1, m⟩ ⟨0, 0, 0⟩) :=
    enqueue_blocked m 1 w vs ⟨0, m - 1, m⟩ ⟨0, 0, 0⟩ hm
      (show m - 1 < m from by omega) rfl hblk2
  obtain ⟨C', hrun3, hG3, hC'g⟩ := deq_run m (m * m) vs ⟨0, m - 1, m⟩ ⟨0, 0, 0⟩ hGfull
    (by show (0 : Nat) + 2 < 2 ^ VERSION_BITS; decide)
    (by rw [glob_zero, glob_full m hm]; omega)
  rw [glob_zero] at hrun3 hC'g
  have hle3 : C'.lap < 0 ∨ (C'.lap = 0 ∧
      (C'.blk < m - 1 ∨ (C'.blk = m - 1 ∧ C'.pos ≤ m))) := hG3.2.2.2.2.2.2.1
  have hC'b : C'.blk < m := hG3.2.2.2.2.1
  have hC'p : C'.pos ≤ m := hG3.2.2.2.2.2.1
  have hlap0 : C'.lap = 0 := by omega
  have h1 : (C'.lap * m + C'.blk) * m + C'.pos = C'.glob m := rfl
  rw [hlap0] at h1
  have h2 : ((0 : Nat) * m + C'.blk) * m + C'.pos = C'.blk * m + C'.pos := by ring
  have hbp : C'.blk * m + C'.pos = m * m := by omega
  obtain ⟨hcb3, hcp3⟩ := full_shape m C'.blk C'.pos hm hC'b hC'p hbp
  have hCP : C' = ⟨0, m - 1, m⟩ := pos_ext C' ⟨0, m - 1, m⟩ hlap0 hcb3 hcp3
  rw [hCP] at hrun3
  have houts : (vs.take (0 + m * m)).drop 0 = vs := by
    rw [Nat.zero_add, List.drop_zero, ← hlen, List.take_length]
  rw [houts] at hrun3
  have hV4 : (pcur m ⟨0, m - 1, m⟩ ((m - 1 + 1) % m)).version = 0 := by
    rw [hmod, pcur_version]
    show (if (0 : Nat) ≤ m - 1 then (if (0 : Nat) = 0 then (0 : Nat) else 0 + 1)
      else (0 : Nat)) = 0
    rw [if_pos (Nat.zero_le (m - 1)), if_pos rfl]
  have hI4 : (pcur m ⟨0, m - 1, m⟩ ((m - 1 + 1) % m)).index = m := by
    rw [hmod, pcur_index]
    show (if (0 : Nat) ≤ m - 1 then (if (0 : Nat) = m - 1 then m else m) else m) = m
    split_ifs <;> rfl
  have hok4 : ¬((pcur m ⟨0, m - 1, m⟩ ((m - 1 + 1) % m)).version < (0 : Nat) ∨
      ((pcur m ⟨0, m - 1, m⟩ ((m - 1 + 1) % m)).version = 0 ∧
       (pcur m ⟨0, m - 1, m⟩ ((m - 1 + 1) % m)).index ≠ m)) := by
    rw [hV4, hI4]
    omega
  have hadv4 : Pos.adv m ⟨0, m - 1, m⟩ = ⟨1, 0, 0⟩ := by
    rw [Pos.adv,
      if_pos (show (⟨0, m - 1, m⟩ : Pos).blk + 1 = m from by
        show m - 1 + 1 = m
        omega)]
  have henq4 : enqueue m 2 (mkState m vs ⟨0, m - 1, m⟩ ⟨0, m - 1, m⟩) x =
      some (true, mkState m (vs ++ [x]) ⟨1, 0, 1⟩ ⟨0, m - 1, m⟩) := by
    have h := enqueue_advance m 0 x vs ⟨0, m - 1, m⟩ ⟨0, m - 1, m⟩ hm hm2
      (by show (0 : Nat) + 1 < 2 ^ VERSION_BITS; decide)
      (show m - 1 < m from by omega) rfl (by rw [glob_full m hm]; exact hlen) (le_refl _)
      hok4
    rw [hadv4] at h
    exact h
  have hblock : (mkState m (vs ++ [x]) ⟨1, 0, 1⟩ ⟨0, m - 1, m⟩).blocks.getD 0
      defaultBlock = mkBlock m (vs ++ [x]) ⟨1, 0, 1⟩ ⟨0, m - 1, m⟩ 0 :=
    mkState_getD m (vs ++ [x]) ⟨1, 0, 1⟩ ⟨0, m - 1, m⟩ 0 (by omega)
  have hdata : (mkBlock m (vs ++ [x]) ⟨1, 0, 1⟩ ⟨0, m - 1, m⟩ 0).data.getD 0 0 = x := by
    have hd2 : (mkBlock m (vs ++ [x]) ⟨1, 0, 1⟩ ⟨0, m - 1, m⟩ 0).data =
        List.ofFn fun p : Fin m =>
          slotVal m (vs ++ [x]) (Pos.glob m ⟨0, m - 1, m⟩) ⟨1, 0, 1⟩ 0 (p : Nat) := rfl
    rw [hd2, list_getD_ofFn _ 0 0 (show (0 : Nat) < m from by omega)]
    show slotVal m (vs ++ [x]) (Pos.glob m ⟨0, m - 1, m⟩) ⟨1, 0, 1⟩ 0 0 = x
    rw [slotVal]
    rw [if_pos (show (0 : Nat) < (⟨1, 0, 1⟩ : Pos).blk ∨
        ((0 : Nat) = (⟨1, 0, 1⟩ : Pos).blk ∧ (0 : Nat) < (⟨1, 0, 1⟩ : Pos).pos) from
      Or.inr ⟨rfl, Nat.zero_lt_one⟩)]
    rw [glob_full m hm]
    rw [show ((⟨1, 0, 1⟩ : Pos).lap * m + 0) * m + 0 = m * m from by
      show ((1 : Nat) * m + 0) * m + 0 = m * m
      ring]
    rw [if_pos (le_refl (m * m))]
    rw [← hlen]
    exact list_getD_concat_self vs x 0
  refine ⟨mkState m vs ⟨0, m - 1, m⟩ ⟨0, 0, 0⟩,
    mkState m vs ⟨0, m - 1, m⟩ ⟨0, m - 1, m⟩,
    mkState m (vs ++ [x]) ⟨1, 0, 1⟩ ⟨0, m - 1, m⟩, ?_, henq2, hrun3, henq4, ?_, ?_, ?_⟩
  · rw [mkInit_eq m hm hm2]
    exact hrun1
  · rw [hblock]
    exact hdata
  · rw [hblock]
    rfl
  · rfl

/-- C2 witness: the repository's parameters `NE = B = 4` with the sixteen
values `0..15`, a rejected `99`, and a final accepted `16`. -/
theorem C2_capacity_witness :
    ∃ q1 q2 q3 : Queue,
      runOps 4 2 (Queue.mkInit 4 4) ((List.range 16).map Op.enq) =
        some (q1, List.range 16, []) ∧
      enqueue 4 2 q1 99 = some (false, q1) ∧
      runOps 4 2 q1 (List.replicate (4 * 4) Op.deq) = some (q2, [], List.range 16) ∧
      enqueue 4 2 q2 16 = some (true, q3) ∧
      (q3.blocks.getD 0 defaultBlock).data.getD 0 0 = 16 ∧
      (q3.blocks.getD 0 defaultBlock).comm = ⟨1, 1⟩ ∧
      q3.phead = ⟨1, 0⟩ :=
  C2_capacity 4 99 16 (List.range 16) (by decide) (by decide) (by decide)

end BBQ

namespace BBQ

/-- C9 (amended to the square regime): on every state reachable from a fresh
queue by complete calls, a rejected `enqueue` and an empty-handed `dequeue`
leave the entire queue state unchanged. -/
theorem C9_failed_calls_unchanged (m v : Nat) (ops : List Op) (q : Queue)
    (acc outs : List Nat)
    (hm : 1 ≤ m) (hm2 : m < 2 ^ INDEX_BITS)
    (hbud : ops.length + 2 < 2 ^ VERSION_BITS)
    (hrun : runOps m 2 (Queue.mkInit m m) ops = some (q, acc, outs)) :
    (∀ q', enqueue m 2 q v = some (false, q') → q' = q) ∧
    (∀ q', dequeue m 2 q = some (none, q') → q' = q) := by
  obtain ⟨A, P', C', hrun', hG', hAlen, -⟩ :=
    runOps_good m ops [] ⟨0, 0, 0⟩ ⟨0, 0, 0⟩ (good_init m hm hm2) (by simp; omega)
  rw [mkInit_eq m hm hm2] at hrun
  have heq := hrun'.symm.trans hrun
  simp only [Option.some.injEq, Prod.mk.injEq] at heq
  obtain ⟨hq, -, -⟩ := heq
  subst hq
  have hE' : ([] ++ A).length = P'.glob m := hG'.2.2.2.2.2.2.2.2.2
  have hlexr : C'.lap < P'.lap ∨ (C'.lap = P'.lap ∧
      (C'.blk < P'.blk ∨ (C'.blk = P'.blk ∧ C'.pos ≤ P'.pos))) := hG'.2.2.2.2.2.2.1
  have hPl : P'.lap ≤ P'.glob m := lap_le_glob m P' hm
  have hlen : ([] ++ A).length = A.length := by simp
  constructor
  · intro q' henq
    rcases enqueue_step m v ([] ++ A) P' C' hG' (by omega) with ⟨P2, he, -⟩ | he
    · rw [he] at henq
      simp at henq
    · rw [he] at henq
      simp only [Option.some.injEq, Prod.mk.injEq] at henq
      exact henq.2.symm
  · intro q' hdeq
    rcases dequeue_step m ([] ++ A) P' C' hG' (by omega) with ⟨C2, hd, -, -, -⟩ | hd
    · rw [hd] at hdeq
      simp at hdeq
    · rw [hd] at hdeq
      simp only [Option.some.injEq, Prod.mk.injEq] at hdeq
      exact hdeq.2.symm

/-- C9 witness: the fresh one-slot queue. -/
theorem C9_failed_calls_unchanged_witness :
    (∀ q', enqueue 1 2 (Queue.mkInit 1 1) 7 = some (false, q') → q' = Queue.mkInit 1 1) ∧
    (∀ q', dequeue 1 2 (Queue.mkInit 1 1) = some (none, q') → q' = Queue.mkInit 1 1) :=
  C9_failed_calls_unchanged 1 7 [] (Queue.mkInit 1 1) [] []
    (by decide) (by decide) (by decide) (by decide)

/-- C10 (amended to the square regime): on every state reachable from a
fresh queue by complete calls, `enqueue` and `dequeue` complete within two
iterations of their outer loops, and `reserve_entry` always completes in a
single iteration (its retry branch never fires in the sequential embedding). -/
theorem C10_two_iterations (m v : Nat) (ops : List Op) (q : Queue)
    (acc outs : List Nat)
    (hm : 1 ≤ m) (hm2 : m < 2 ^ INDEX_BITS)
    (hbud : ops.length + 2 < 2 ^ VERSION_BITS)
    (hrun : runOps m 2 (Queue.mkInit m m) ops = some (q, acc, outs)) :
    enqueue m 2 q v ≠ none ∧ dequeue m 2 q ≠ none ∧
    (∀ (NE : Nat) (b : Block), reserve_entry NE 1 b ≠ none) := by
  obtain ⟨A, P', C', hrun', hG', hAlen, -⟩ :=
    runOps_good m ops [] ⟨0, 0, 0⟩ ⟨0, 0, 0⟩ (good_init m hm hm2) (by simp; omega)
  rw [mkInit_eq m hm hm2] at hrun
  have heq := hrun'.symm.trans hrun
  simp only [Option.some.injEq, Prod.mk.injEq] at heq
  obtain ⟨hq, -, -⟩ := heq
  subst hq
  have hE' : ([] ++ A).length = P'.glob m := hG'.2.2.2.2.2.2.2.2.2
  have hlexr : C'.lap < P'.lap ∨ (C'.lap = P'.lap ∧
      (C'.blk < P'.blk ∨ (C'.blk = P'.blk ∧ C'.pos ≤ P'.pos))) := hG'.2.2.2.2.2.2.1
  have hPl : P'.lap ≤ P'.glob m := lap_le_glob m P' hm
  have hlen : ([] ++ A).length = A.length := by simp
  refine ⟨?_, ?_, ?_⟩
  · rcases enqueue_step m v ([] ++ A) P' C' hG' (by omega) with ⟨P2, he, -⟩ | he
    · rw [he]
      simp
    · rw [he]
      simp
  · rcases dequeue_step m ([] ++ A) P' C' hG' (by omega) with ⟨C2, hd, -, -, -⟩ | hd
    · rw [hd]
      simp
    · rw [hd]
      simp
  · intro NE b
    rw [reserve_entry_eq NE 0 b]
    split_ifs <;> simp

/-- C10 witness: the fresh one-slot queue. -/
theorem C10_two_iterations_witness :
    enqueue 1 2 (Queue.mkInit 1 1) 7 ≠ none ∧ dequeue 1 2 (Queue.mkInit 1 1) ≠ none ∧
    (∀ (NE : Nat) (b : Block), reserve_entry NE 1 b ≠ none) :=
  C10_two_iterations 1 7 [] (Queue.mkInit 1 1) [] []
    (by decide) (by decide) (by decide) (by decide)

end BBQ

